import Mathlib

/-!
# dag_jobs: the dependency-graph engine of `cust::DAGJobs`

A shallow embedding of `src/dag_jobs.hpp`.

* `std::map<uint64_t, V>` is an association list kept in key order (`mapFind`, `mapInsert`,
  `mapAssign`). A read `m[k]` of a missing key yields the default value. The empty entry
  that `operator[]` then leaves in `adjacency` is not recorded: `isInCycle` is entered for
  entry ids only, which are keys (its recursive call is never reached, see
  `isInCycle_fuel`), and `createReqJobs` runs after the `Job` objects were created and
  dereferences the null pointer `jobs[k]` right after such a read.
* `std::vector<flag>` is a `List Nat`; an index outside the vector is undefined behaviour in
  C++ and is the result `Error.outOfRange` here.
* Every `Job` object is created once, by `Graph::frontJobs`, under the key of its id; a
  `Job::ptr` is therefore modelled by that key into the `Heap`, and dereferencing a pointer
  that is not in the heap (a null `shared_ptr`) is the result `Error.nullDeref`.
* Recursive member functions and the `while` loop of `bfs` take a `fuel` argument;
  running out of it is the result `Error.outOfFuel`.
* The body of `Job::launchJobProcess` that forks a child and reads two bytes is the
  work executor `exec : Nat → Option Int` (`none`: `pipe` or `fork` failed and
  `std::runtime_error` is thrown).
* The type `int` of `Result::value` and of the local `result` is 32 bits wide, two's
  complement: `toInt32` takes an integer to the `int` it is stored as, and every `+=` on
  `result` wraps around (signed overflow is undefined behaviour in C++; wrapping is what the
  compiled program does).
* Console output is not modelled, except for the ids of the `crashed` lines and the pairs
  of id and value that `printJobsResults` prints.
-/

namespace cust

/-! ## Outcomes -/

/-- The ways a call can end other than by returning. -/
inductive Error where
  /-- The exception `std::invalid_argument("Error: givan jobs graph has cycles!")`. -/
  | graphHasCycles
  /-- The exception `std::runtime_error` thrown by `Job::launchJobProcess`. -/
  | jobFailed
  /-- Undefined behaviour: an index outside a `std::vector`. -/
  | outOfRange
  /-- Undefined behaviour: a null `shared_ptr` dereferenced. -/
  | nullDeref
  /-- The recursion or loop did not finish within the fuel. -/
  | outOfFuel
  deriving DecidableEq

/-! ## The type `int` -/

/-- The 32-bit two's complement `int` with the same residue modulo `2 ^ 32` as `x`: the
value in the range from `-2147483648` to `2147483647`. -/
def toInt32 (x : Int) : Int :=
  (x + 2147483648) % 4294967296 - 2147483648

/-! ## `std::map` and `std::vector` -/

/-- Lookup of key `k` (`std::map::find`). -/
def mapFind {V : Type} : List (Nat × V) → Nat → Option V
  | [], _ => none
  | (k', v) :: rest, k => if k' = k then some v else mapFind rest k

/-- Store `v` under `k`, keeping key order; an existing entry for `k` is replaced. -/
def mapPut {V : Type} (k : Nat) (v : V) : List (Nat × V) → List (Nat × V)
  | [] => [(k, v)]
  | (k', v') :: rest =>
      if k < k' then (k, v) :: (k', v') :: rest
      else if k = k' then (k, v) :: rest
      else (k', v') :: mapPut k v rest

/-- The call `m.insert({k, v})`: nothing happens when `k` is already a key. -/
def mapInsert {V : Type} (k : Nat) (v : V) (m : List (Nat × V)) : List (Nat × V) :=
  if (mapFind m k).isSome then m else mapPut k v m

/-- The statement `m[k] = v`. -/
def mapAssign {V : Type} (k : Nat) (v : V) (m : List (Nat × V)) : List (Nat × V) :=
  mapPut k v m

/-- The statement `visited[i] = x`; `none` when `i` is outside the vector. -/
def vecSet (visited : List Nat) (i x : Nat) : Option (List Nat) :=
  if i < visited.length then some (visited.set i x) else none

/-! ## Data model -/

/-- The class `Job::Config`: a parsed job descriptor. -/
structure Config where
  id : Nat
  jobReqIds : List Nat
  deriving DecidableEq

/-- The data members of `DAGJobs::Graph`. -/
structure Graph where
  jobsCount : Nat
  frontJobsIds : List Nat
  adjacency : List (Nat × List Nat)
  deriving DecidableEq

/-! ## `Graph::ConstructGraph` -/

/-- First loop of `ConstructGraph`, the `adjacency.insert` part. -/
def buildAdjacency (jobConfigs : List Config) : List (Nat × List Nat) :=
  jobConfigs.foldl (fun m c => mapInsert c.id c.jobReqIds m) []

/-- First loop of `ConstructGraph`, the `isFront.insert` part. -/
def initIsFront (jobConfigs : List Config) : List (Nat × Nat) :=
  jobConfigs.foldl (fun m c => mapInsert c.id 1 m) []

/-- Second loop of `ConstructGraph`: `isFront[jobReq] = 0` for every listed prerequisite. -/
def clearIsFront (jobConfigs : List Config) (isFront : List (Nat × Nat)) : List (Nat × Nat) :=
  jobConfigs.foldl (fun m c => c.jobReqIds.foldl (fun m jobReq => mapAssign jobReq 0 m) m) isFront

/-- Third loop of `ConstructGraph`: collect the ids whose flag is still 1. -/
def collectFront (isFront : List (Nat × Nat)) (jobConfigs : List Config) : List Nat :=
  jobConfigs.foldl
    (fun front c => if (mapFind isFront c.id).getD 0 = 1 then front ++ [c.id] else front) []

/-- The method `Graph::ConstructGraph`, called on a freshly constructed `Graph`. -/
def ConstructGraph (jobConfigs : List Config) : Graph :=
  { jobsCount := jobConfigs.length
    frontJobsIds := collectFront (clearIsFront jobConfigs (initIsFront jobConfigs)) jobConfigs
    adjacency := buildAdjacency jobConfigs }

/-! ## `Graph::checkOnCycles` -/

/-- The `for` loop of `Graph::isInCycle` for the node `id`; `recurse` is the recursive call. -/
def isInCycleLoop (recurse : Nat → List Nat → Except Error (Bool × List Nat)) (id : Nat) :
    List Nat → List Nat → Except Error (Bool × List Nat)
  | [], visited => .ok (false, visited)
  | jobReqId :: rest, visited =>
      match visited[id]? with
      | none => .error .outOfRange
      | some f =>
          if f = 0 then
            match recurse jobReqId visited with
            | .error e => .error e
            | .ok (true, visited') => .ok (true, visited')
            | .ok (false, visited') => isInCycleLoop recurse id rest visited'
          else
            match visited[jobReqId]? with
            | none => .error .outOfRange
            | some g =>
                if g = 1 then .ok (true, visited)
                else isInCycleLoop recurse id rest visited

/-- The method `Graph::isInCycle`. -/
def isInCycle (adjacency : List (Nat × List Nat)) :
    Nat → Nat → List Nat → Except Error (Bool × List Nat)
  | 0, _, _ => .error .outOfFuel
  | fuel + 1, id, visited =>
      match vecSet visited id 1 with
      | none => .error .outOfRange
      | some visited1 =>
          match isInCycleLoop (isInCycle adjacency fuel) id
              ((mapFind adjacency id).getD []) visited1 with
          | .error e => .error e
          | .ok (result, visited2) =>
              match vecSet visited2 id 2 with
              | none => .error .outOfRange
              | some visited3 => .ok (result, visited3)

/-- The `for` loop of `Graph::checkOnCycles`. -/
def checkOnCyclesLoop (adjacency : List (Nat × List Nat)) (fuel : Nat) :
    List Nat → List Nat → Except Error Unit
  | [], _ => .ok ()
  | frontJobId :: rest, visited =>
      match isInCycle adjacency fuel frontJobId visited with
      | .error e => .error e
      | .ok (true, _) => .error .graphHasCycles
      | .ok (false, visited') => checkOnCyclesLoop adjacency fuel rest visited'

/-- The method `Graph::checkOnCycles`. -/
def checkOnCycles (fuel : Nat) (g : Graph) : Except Error Unit :=
  checkOnCyclesLoop g.adjacency fuel g.frontJobsIds (List.replicate g.jobsCount 0)

/-! ## Jobs -/

/-- The class `DAGJobs::Job`: its `id`, its `result` (null until the job has run) and `jobsReq`,
the pointers to its prerequisite jobs. -/
structure Job where
  id : Nat
  result : Option Int
  jobsReq : List Nat
  deriving DecidableEq

/-- The `Job` objects, by pointer. -/
abbrev Heap := List (Nat × Job)

/-- Everything a run can change or show outside the `DAGJobs` object: the `Job` objects,
the job ids for which the work executor was invoked (oldest first) and the ids printed in
`Error: job <id> crashed!` lines (oldest first). -/
structure World where
  heap : Heap
  calls : List Nat
  crashed : List Nat
  deriving DecidableEq

/-! ## `Graph::frontJobs` -/

/-- First loop of `Graph::frontJobs`: one `Job::makePointer(id)` per key of `adjacency`. -/
def makeJobs (adjacency : List (Nat × List Nat)) : Heap :=
  adjacency.foldl (fun jobs jobPair => mapInsert jobPair.1 ⟨jobPair.1, none, []⟩ jobs) []

/-- The `for` loop of `Graph::createReqJobs`; `recurse` is the recursive call. The right
side of `jobs[jobReqId]->jobsReq = createReqJobs(jobReqId, jobs)` is evaluated first. -/
def createReqJobsLoop (recurse : Nat → Heap → Except Error (List Nat × Heap)) :
    List Nat → List Nat → Heap → Except Error (List Nat × Heap)
  | [], jobsReq, jobs => .ok (jobsReq, jobs)
  | jobReqId :: rest, jobsReq, jobs =>
      match recurse jobReqId jobs with
      | .error e => .error e
      | .ok (reqs, jobs1) =>
          match mapFind jobs1 jobReqId with
          | none => .error .nullDeref
          | some job =>
              createReqJobsLoop recurse rest (jobReqId :: jobsReq)
                (mapPut jobReqId { job with jobsReq := reqs } jobs1)

/-- The method `Graph::createReqJobs`. -/
def createReqJobs (adjacency : List (Nat × List Nat)) :
    Nat → Nat → Heap → Except Error (List Nat × Heap)
  | 0, _, _ => .error .outOfFuel
  | fuel + 1, id, jobs =>
      createReqJobsLoop (createReqJobs adjacency fuel) ((mapFind adjacency id).getD []) [] jobs

/-- Second loop of `Graph::frontJobs`. -/
def frontJobsLoop (adjacency : List (Nat × List Nat)) (fuel : Nat) :
    List Nat → List Nat → Heap → Except Error (List Nat × Heap)
  | [], fJobs, jobs => .ok (fJobs, jobs)
  | jobId :: rest, fJobs, jobs =>
      match createReqJobs adjacency fuel jobId jobs with
      | .error e => .error e
      | .ok (reqs, jobs1) =>
          match mapFind jobs1 jobId with
          | none => .error .nullDeref
          | some job =>
              frontJobsLoop adjacency fuel rest (jobId :: fJobs)
                (mapPut jobId { job with jobsReq := reqs } jobs1)

/-- The method `Graph::frontJobs`: the entry jobs and the `Job` objects it created. -/
def Graph.frontJobs (fuel : Nat) (g : Graph) : Except Error (List Nat × Heap) :=
  frontJobsLoop g.adjacency fuel g.frontJobsIds [] (makeJobs g.adjacency)

/-! ## `DAGJobs` -/

/-- The data members of `DAGJobs`, with the world its `Job` pointers refer to. -/
structure DAGJobs where
  execOrderJobs : List Nat
  frontJobs : List Nat
  jobsCount : Nat
  world : World
  deriving DecidableEq

/-- The constructor `DAGJobs::DAGJobs`, from the parsed descriptors. -/
def DAGJobs.construct (fuel : Nat) (jobConfigs : List Config) : Except Error DAGJobs :=
  let graph := ConstructGraph jobConfigs
  match checkOnCycles fuel graph with
  | .error e => .error e
  | .ok _ =>
      match graph.frontJobs fuel with
      | .error e => .error e
      | .ok (fJobs, heap) =>
          .ok { execOrderJobs := []
                frontJobs := fJobs
                jobsCount := graph.jobsCount
                world := { heap := heap, calls := [], crashed := [] } }

/-! ## `DAGJobs::bfs` -/

/-- First loop of `bfs`: `visited[job->id] = 1` for every job of `queOrigin`. -/
def bfsMark (heap : Heap) : List Nat → List Nat → Except Error (List Nat)
  | [], visited => .ok visited
  | job :: rest, visited =>
      match mapFind heap job with
      | none => .error .nullDeref
      | some j =>
          match vecSet visited j.id 1 with
          | none => .error .outOfRange
          | some visited1 => bfsMark heap rest visited1

/-- The inner `for` loop of `bfs` over `job->jobsReq`. -/
def bfsExpand (heap : Heap) : List Nat → List Nat → List Nat → Except Error (List Nat × List Nat)
  | [], visited, que => .ok (visited, que)
  | jobReq :: rest, visited, que =>
      match mapFind heap jobReq with
      | none => .error .nullDeref
      | some jr =>
          match visited[jr.id]? with
          | none => .error .outOfRange
          | some f =>
              if f = 0 then
                match vecSet visited jr.id 1 with
                | none => .error .outOfRange
                | some visited1 => bfsExpand heap rest visited1 (que ++ [jobReq])
              else bfsExpand heap rest visited que

/-- The `while` loop of `bfs`; `functor` acts on a state of type `σ`. -/
def bfsLoop {σ : Type} (functor : Nat → σ → Except Error σ) (heap : Heap) :
    Nat → List Nat → List Nat → σ → Except Error σ
  | _, _, [], s => .ok s
  | 0, _, _ :: _, _ => .error .outOfFuel
  | fuel + 1, visited, job :: que, s =>
      match functor job s with
      | .error e => .error e
      | .ok s1 =>
          match mapFind heap job with
          | none => .error .nullDeref
          | some j =>
              match bfsExpand heap j.jobsReq visited que with
              | .error e => .error e
              | .ok (visited1, que1) => bfsLoop functor heap fuel visited1 que1 s1

/-- The method `DAGJobs::bfs`. -/
def bfs {σ : Type} (functor : Nat → σ → Except Error σ) (heap : Heap) (fuel : Nat)
    (queOrigin : List Nat) (jobsCount : Nat) (s : σ) : Except Error σ :=
  match bfsMark heap queOrigin (List.replicate jobsCount 0) with
  | .error e => .error e
  | .ok visited => bfsLoop functor heap fuel visited queOrigin s

/-- The functor `PushJobToExecOrder`: `execOrderJobs.emplace_front(job)`. -/
def PushJobToExecOrder (job : Nat) (execOrderJobs : List Nat) : Except Error (List Nat) :=
  .ok (job :: execOrderJobs)

/-! ## `Job::launch` -/

/-- The method `Job::thereAreReqResults`. -/
def thereAreReqResults (heap : Heap) : List Nat → Except Error Bool
  | [] => .ok true
  | job :: rest =>
      match mapFind heap job with
      | none => .error .nullDeref
      | some j => if j.result.isNone then .ok false else thereAreReqResults heap rest

/-- The loop `result += jobReq->result->value` of `Job::launchJobProcess`, each addition
in 32-bit `int` arithmetic. -/
def addReqResults (heap : Heap) : List Nat → Int → Except Error Int
  | [], result => .ok result
  | jobReq :: rest, result =>
      match mapFind heap jobReq with
      | none => .error .nullDeref
      | some jr =>
          match jr.result with
          | none => .error .nullDeref
          | some value => addReqResults heap rest (toInt32 (result + value))

/-- The method `Job::launchJobProcess` on the job at `self`: the executor is invoked, and
when it returns a base value that value starts the `int result`, the prerequisites'
results are added and the sum is stored. The second component is the exception or fault
the call ends with, if any. -/
def launchJobProcess (exec : Nat → Option Int) (self : Nat) (w : World) : World × Option Error :=
  match mapFind w.heap self with
  | none => (w, some .nullDeref)
  | some job =>
      let w1 : World := { w with calls := w.calls ++ [job.id] }
      match exec job.id with
      | none => (w1, some .jobFailed)
      | some base =>
          match addReqResults w1.heap job.jobsReq (toInt32 base) with
          | .error e => (w1, some e)
          | .ok result =>
              ({ w1 with heap := mapPut self { job with result := some result } w1.heap }, none)

/-- The `for` loop of `Job::launchParentJobs`; `recurse` is `Job::launch`. -/
def launchParentJobsLoop (recurse : Nat → World → World × Option Error) :
    List Nat → World → World × Option Error
  | [], w => (w, none)
  | job :: rest, w =>
      match recurse job w with
      | (w1, none) => launchParentJobsLoop recurse rest w1
      | (w1, some e) => (w1, some e)

/-- The method `Job::launch` on the job at `self`. -/
def Job.launch (exec : Nat → Option Int) : Nat → Nat → World → World × Option Error
  | 0, _, w => (w, some .outOfFuel)
  | fuel + 1, self, w =>
      match mapFind w.heap self with
      | none => (w, some .nullDeref)
      | some job =>
          if job.result.isSome then (w, none)
          else
            match thereAreReqResults w.heap job.jobsReq with
            | .error e => (w, some e)
            | .ok true => launchJobProcess exec self w
            | .ok false =>
                match launchParentJobsLoop (Job.launch exec fuel) job.jobsReq w with
                | (w1, none) => launchJobProcess exec self w1
                | (w1, some e) => (w1, some e)

/-! ## `DAGJobs::launch` -/

/-- The method `DAGJobs::launchJobsInOrder`: a `std::exception` thrown by `job->launch()` is caught,
the job's id is printed and the loop is left. -/
def launchJobsInOrder (exec : Nat → Option Int) (fuel : Nat) : List Nat → World → Except Error World
  | [], w => .ok w
  | job :: rest, w =>
      match Job.launch exec fuel job w with
      | (w1, none) => launchJobsInOrder exec fuel rest w1
      | (w1, some e) =>
          if e = .jobFailed ∨ e = .graphHasCycles then
            match mapFind w1.heap job with
            | none => .error .nullDeref
            | some j => .ok { w1 with crashed := w1.crashed ++ [j.id] }
          else .error e

/-- The order `DAGJobs::launch` runs: the cached one, or the one `bfs` builds with
`PushJobToExecOrder` when `execOrderJobs` is empty. -/
def execOrder (fuel : Nat) (d : DAGJobs) : Except Error (List Nat) :=
  if d.execOrderJobs.isEmpty then
    bfs PushJobToExecOrder d.world.heap fuel d.frontJobs d.jobsCount d.execOrderJobs
  else .ok d.execOrderJobs

/-- The method `DAGJobs::launch`. -/
def DAGJobs.launch (exec : Nat → Option Int) (fuel : Nat) (d : DAGJobs) : Except Error DAGJobs :=
  match execOrder fuel d with
  | .error e => .error e
  | .ok order =>
      match launchJobsInOrder exec fuel order d.world with
      | .error e => .error e
      | .ok w => .ok { d with execOrderJobs := order, world := w }

/-! ## `DAGJobs::printJobsResults` -/

/-- The functor `PrintJob`: `job->printResult()` prints the job's id and then dereferences
`result` to print its value. The state is the list of the printed pairs of id and value. -/
def PrintJob (heap : Heap) (job : Nat) (out : List (Nat × Int)) :
    Except Error (List (Nat × Int)) :=
  match mapFind heap job with
  | none => .error .nullDeref
  | some j =>
      match j.result with
      | none => .error .nullDeref
      | some value => .ok (out ++ [(j.id, value)])

/-- The method `DAGJobs::printJobsResults`: the pairs of id and value it prints, in order. -/
def DAGJobs.printJobsResults (fuel : Nat) (d : DAGJobs) : Except Error (List (Nat × Int)) :=
  bfs (PrintJob d.world.heap) d.world.heap fuel d.frontJobs d.jobsCount []

/-! ## Specification vocabulary -/

/-- The ids of the descriptors. -/
def ids (cfgs : List Config) : List Nat := cfgs.map (fun c => c.id)

/-- Job `j` lists `p` as a prerequisite. -/
def Requires (cfgs : List Config) (j p : Nat) : Prop :=
  ∃ c ∈ cfgs, c.id = j ∧ p ∈ c.jobReqIds

/-- No prerequisite id is missing from the descriptor set. -/
def NoDangling (cfgs : List Config) : Prop :=
  ∀ c ∈ cfgs, ∀ p ∈ c.jobReqIds, p ∈ ids cfgs

/-- Unique ids, each smaller than the number of descriptors, no dangling prerequisite. -/
def WellFormed (cfgs : List Config) : Prop :=
  (ids cfgs).Nodup ∧ (∀ c ∈ cfgs, c.id < cfgs.length) ∧ NoDangling cfgs

/-- The prerequisite relation has no self-loop and no longer cycle. -/
def Acyclic (cfgs : List Config) : Prop :=
  ∀ x, ¬ Relation.TransGen (Requires cfgs) x x

/-- Some job reaches itself along one or more prerequisite edges. -/
def HasCycle (cfgs : List Config) : Prop :=
  ∃ x, Relation.TransGen (Requires cfgs) x x

/-! ## Example descriptor sets -/

/-- The descriptors `A: [B], B: [A]` with `A = 0`, `B = 1`. -/
def cfgsTwoCycle : List Config := [⟨0, [1]⟩, ⟨1, [0]⟩]

/-- An entry job `0` above the cycle `1 → 2 → 1`. -/
def cfgsTailCycle : List Config := [⟨0, [1]⟩, ⟨1, [2]⟩, ⟨2, [1]⟩]

/-- The single descriptor `X: [Y]` with `X = 0` and `Y = 1` missing. -/
def cfgsDangling : List Config := [⟨0, [1]⟩]

/-- The descriptors `A: [], B: [], C: [A, B]` with `A = 0`, `B = 1`, `C = 2`. -/
def cfgsABC : List Config := [⟨0, []⟩, ⟨1, []⟩, ⟨2, [0, 1]⟩]

/-- Job `0` requires `1` and `2`, and job `1` requires `2`. -/
def cfgsTriangle : List Config := [⟨0, [1, 2]⟩, ⟨1, [2]⟩, ⟨2, []⟩]

/-- Job `0` requires `1`, `2`, `3`, and job `1` requires `2` and `3`. -/
def cfgsFan : List Config := [⟨0, [1, 2, 3]⟩, ⟨1, [2, 3]⟩, ⟨2, []⟩, ⟨3, []⟩]

/-- An executor that fails for job `2` and returns `id + 1` for every other job. -/
def execFailsAtTwo (id : Nat) : Option Int :=
  if id = 2 then none else some (id + 1)

/-- The executor of the worked example: base values 2, 3 and 5 for the jobs 0, 1 and 2
(and 5 for any further job). -/
def execABC (id : Nat) : Option Int :=
  if id = 0 then some 2 else if id = 1 then some 3 else some 5

/-- Job `0` requires job `1`. -/
def cfgsPair : List Config := [⟨0, [1]⟩, ⟨1, []⟩]

/-- An executor with the base value 1 for job `0` and the largest `int`, 2147483647, for
every other job. -/
def execBig (id : Nat) : Option Int :=
  if id = 0 then some 1 else some 2147483647

/-- The 27 jobs `0` to `26`, each requiring all jobs with a larger id: `0: [1, ..., 26]`,
`1: [2, ..., 26]`, up to `26: []`. -/
def cfgsFull : List Config :=
  (List.range 27).map (fun i => ⟨i, List.range' (i + 1) (26 - i)⟩)

/-- An executor with the base value 99 for every job, the largest value of `rand() % 100`. -/
def exec99 (_ : Nat) : Option Int := some 99

/-- Ids that are not smaller than the number of descriptors: job `5` requires `7` twice
and `9`, and job `7` requires `9`. -/
def cfgsSparse : List Config := [⟨5, [7, 7, 9]⟩, ⟨7, [9]⟩, ⟨9, []⟩]

/-- The jobs of `cfgsFan`, linked, where only job `3` has a result. -/
def worldFanPartial : World :=
  { heap := [(0, ⟨0, none, [3, 2, 1]⟩), (1, ⟨1, none, [3, 2]⟩), (2, ⟨2, none, []⟩),
             (3, ⟨3, some 7, []⟩)]
    calls := []
    crashed := [] }

/-! ## Predicates used in the proofs -/

/-- The state of the `Job` objects while `frontJobs` runs: one per descriptor, without a
result, its `jobsReq` still empty or already the reversed prerequisite list. -/
def Fresh (cfgs : List Config) (heap : Heap) : Prop :=
  ∀ c ∈ cfgs, ∃ job, mapFind heap c.id = some job ∧ job.id = c.id ∧ job.result = none ∧
    (job.jobsReq = [] ∨ job.jobsReq = c.jobReqIds.reverse)

/-- The job of descriptor id `k` has its `jobsReq` filled in. -/
def Linked (cfgs : List Config) (heap : Heap) (k : Nat) : Prop :=
  ∃ c ∈ cfgs, c.id = k ∧ ∃ job, mapFind heap k = some job ∧ job.jobsReq = c.jobReqIds.reverse

/-- What a call `createReqJobs(p, jobs)` achieves. -/
def CreateSpec (cfgs : List Config) (call : Nat → Heap → Except Error (List Nat × Heap))
    (p : Nat) : Prop :=
  ∀ heap, Fresh cfgs heap → ∃ heap', call p heap =
      .ok (((mapFind (buildAdjacency cfgs) p).getD []).reverse, heap') ∧
    Fresh cfgs heap' ∧ (∀ k, Linked cfgs heap k → Linked cfgs heap' k) ∧
    ∀ k, Relation.TransGen (Requires cfgs) p k → Linked cfgs heap' k

/-- The `Job` objects as `frontJobs` leaves them for a well-formed acyclic descriptor set:
one per descriptor, without a result, `jobsReq` the reversed prerequisite list. -/
def Materialized (cfgs : List Config) (heap : Heap) : Prop :=
  ∀ c ∈ cfgs, mapFind heap c.id = some ⟨c.id, none, c.jobReqIds.reverse⟩

/-- The `Job` objects during and after a run: one per descriptor, `jobsReq` the reversed
prerequisite list, any result. -/
def Wired (cfgs : List Config) (heap : Heap) : Prop :=
  ∀ c ∈ cfgs, ∃ r, mapFind heap c.id = some ⟨c.id, r, c.jobReqIds.reverse⟩

/-- Every member of the list is one of the jobs the traversal started from, or a
prerequisite of a member further back in the list. -/
def Discovered (cfgs : List Config) (origin : List Nat) : List Nat → Prop
  | [] => True
  | x :: later => (x ∈ origin ∨ ∃ K ∈ later, Requires cfgs K x) ∧ Discovered cfgs origin later

/-- The state of `bfs` between two steps: `visited` marks exactly the jobs that are in the
queue `que` or already dequeued (`acc`, last dequeued first). -/
structure BfsInv (cfgs : List Config) (origin visited que acc : List Nat) : Prop where
  len : visited.length = cfgs.length
  marked : ∀ x, x ∈ que ∨ x ∈ acc → visited[x]? = some 1
  unmarked : ∀ x, x < cfgs.length → x ∉ que → x ∉ acc → visited[x]? = some 0
  nodup : (que ++ acc).Nodup
  mem_ids : ∀ x, x ∈ que ∨ x ∈ acc → x ∈ ids cfgs
  origin_sub : ∀ x ∈ origin, x ∈ que ∨ x ∈ acc
  que_disc : ∀ x ∈ que, x ∈ origin ∨ ∃ K ∈ acc, Requires cfgs K x
  acc_disc : Discovered cfgs origin acc

/-- The order is topological: every prerequisite is positioned strictly before the job
that requires it. -/
def IsTopological (cfgs : List Config) (order : List Nat) : Prop :=
  ∀ i j J P : Nat, order[i]? = some J → order[j]? = some P → Requires cfgs J P → j < i

/-- The cached result of the job with id `k`, if it has one. -/
def resultOf (heap : Heap) (k : Nat) : Option Int :=
  (mapFind heap k).bind (fun job => job.result)

/-- The result aggregation law at descriptor `c`, in 32-bit `int` arithmetic: a cached
result of `c` is the `int` that the base value the executor returns for `c` plus the cached
results of all prerequisites of `c` wraps to. -/
def LawAt (exec : Nat → Option Int) (heap : Heap) (c : Config) : Prop :=
  ∀ r, resultOf heap c.id = some r →
    ∃ base, exec c.id = some base ∧ (∀ p ∈ c.jobReqIds, (resultOf heap p).isSome) ∧
      r = toInt32 (base + (c.jobReqIds.map (fun p => (resultOf heap p).getD 0)).sum)

/-- The state of a run between two executor invocations, none of which has failed: the jobs
are linked, every cached result obeys the aggregation law, and the executor was invoked
once for exactly the jobs that have a result. -/
structure Good (cfgs : List Config) (exec : Nat → Option Int) (w : World) : Prop where
  wired : Wired cfgs w.heap
  law : ∀ c ∈ cfgs, LawAt exec w.heap c
  nodup : w.calls.Nodup
  calls_sub : ∀ k ∈ w.calls, k ∈ ids cfgs
  calls_iff : ∀ k ∈ ids cfgs, k ∈ w.calls ↔ (resultOf w.heap k).isSome

/-- World `w'` comes from `w` by launching jobs reached from `roots`: the executor was
invoked only for such jobs, no cached result was changed and nothing was printed. -/
structure Ext (cfgs : List Config) (roots : List Nat) (w w' : World) : Prop where
  calls : ∃ new, w'.calls = w.calls ++ new ∧
    ∀ k ∈ new, ∃ x ∈ roots, Relation.ReflTransGen (Requires cfgs) x k
  kept : ∀ k r, resultOf w.heap k = some r → resultOf w'.heap k = some r
  crashed : w'.crashed = w.crashed

/-- The executor failed for job `F`, reached from `roots`, in world `w0`, which came from
`w`; `w'` is the world the exception leaves behind. -/
def FailedFrom (cfgs : List Config) (exec : Nat → Option Int) (roots : List Nat)
    (w w' : World) (F : Nat) : Prop :=
  ∃ w0, Good cfgs exec w0 ∧ Ext cfgs roots w w0 ∧
    (∃ x ∈ roots, Relation.ReflTransGen (Requires cfgs) x F) ∧ F ∈ ids cfgs ∧
    exec F = none ∧ resultOf w0.heap F = none ∧ w' = { w0 with calls := w0.calls ++ [F] }

/-- What launching the jobs `roots` from world `w` leads to: all of them have a result, or
the executor failed for some job and `std::runtime_error` is in flight. -/
def LaunchPost (cfgs : List Config) (exec : Nat → Option Int) (roots : List Nat) (w : World)
    (res : World × Option Error) : Prop :=
  (res.2 = none ∧ Good cfgs exec res.1 ∧ Ext cfgs roots w res.1 ∧
      ∀ x ∈ roots, (resultOf res.1.heap x).isSome) ∨
    (res.2 = some .jobFailed ∧ ∃ F, FailedFrom cfgs exec roots w res.1 F)

/-- The run over `order` from world `w` was halted: `launch()` of the job `T` of the order
threw because the executor failed for `F`, and `w'` is the world left behind. -/
def Halted (cfgs : List Config) (exec : Nat → Option Int) (order : List Nat) (w w' : World)
    (T F : Nat) : Prop :=
  ∃ before after w0, order = before ++ T :: after ∧ Good cfgs exec w0 ∧
    Ext cfgs (before ++ [T]) w w0 ∧ (∀ x ∈ before, (resultOf w0.heap x).isSome) ∧
    Relation.ReflTransGen (Requires cfgs) T F ∧ F ∈ ids cfgs ∧ exec F = none ∧
    resultOf w0.heap F = none ∧
    w' = { heap := w0.heap, calls := w0.calls ++ [F], crashed := w0.crashed ++ [T] }

/-- What `launchJobsInOrder` over `order` leads to from world `w`: every job of the order
has a result, or the run was halted. -/
def RunPost (cfgs : List Config) (exec : Nat → Option Int) (order : List Nat) (w w' : World) :
    Prop :=
  (Good cfgs exec w' ∧ Ext cfgs order w w' ∧ ∀ x ∈ order, (resultOf w'.heap x).isSome) ∨
    ∃ T F, Halted cfgs exec order w w' T F

/-- The keys of a map, in the order of its entries. -/
def keys {V : Type} (m : List (Nat × V)) : List Nat := m.map (fun p => p.1)

/-- What launching the jobs `roots` leads to from world `w` with any state of the result
caches: the jobs stay linked, no result that was present is absent afterwards, and either
all of `roots` have a result or `std::runtime_error` is in flight; the call does not end in
a null dereference. -/
def SafePost (cfgs : List Config) (roots : List Nat) (w : World)
    (res : World × Option Error) : Prop :=
  Wired cfgs res.1.heap ∧
    (∀ k, (resultOf w.heap k).isSome → (resultOf res.1.heap k).isSome) ∧
    ((res.2 = none ∧ ∀ x ∈ roots, (resultOf res.1.heap x).isSome) ∨ res.2 = some .jobFailed)

/-- The functor of a traversal applied to the jobs `seq` one after the other, stopping at
the first fault. -/
def runFunctor {σ : Type} (functor : Nat → σ → Except Error σ) : List Nat → σ → Except Error σ
  | [], s => .ok s
  | job :: rest, s =>
      match functor job s with
      | .error e => .error e
      | .ok s1 => runFunctor functor rest s1

/-! ## Facts about the map operations -/

theorem mapFind_mapPut {V : Type} (k : Nat) (v : V) (m : List (Nat × V)) (k' : Nat) :
    mapFind (mapPut k v m) k' = if k = k' then some v else mapFind m k' := by
  induction m with
  | nil => simp [mapPut, mapFind]
  | cons hd tl ih =>
    obtain ⟨a, b⟩ := hd
    simp only [mapPut]
    by_cases h1 : k < a
    · simp [h1, mapFind]
    · by_cases h2 : k = a
      · subst h2
        by_cases h3 : k = k' <;> simp [mapFind, h3]
      · simp only [h1, h2, if_false, mapFind, ih]
        by_cases h3 : a = k'
        · subst h3
          simp [h2]
        · simp [h3]

theorem mapFind_mapAssign {V : Type} (k : Nat) (v : V) (m : List (Nat × V)) (k' : Nat) :
    mapFind (mapAssign k v m) k' = if k = k' then some v else mapFind m k' :=
  mapFind_mapPut k v m k'

theorem mapFind_mapInsert {V : Type} (k : Nat) (v : V) (m : List (Nat × V)) (k' : Nat) :
    mapFind (mapInsert k v m) k' =
      if k = k' then some ((mapFind m k).getD v) else mapFind m k' := by
  unfold mapInsert
  cases h : mapFind m k with
  | none =>
    simp [mapFind_mapPut]
  | some x =>
    by_cases hk : k = k'
    · subst hk
      simp [h]
    · simp [hk]

/-! ## Facts about `ConstructGraph` -/

theorem mapFind_foldl_insertAdj (cfgs : List Config) (m : List (Nat × List Nat)) (k : Nat) :
    mapFind (cfgs.foldl (fun m c => mapInsert c.id c.jobReqIds m) m) k =
      match mapFind m k with
      | some x => some x
      | none => (cfgs.find? (fun c => decide (c.id = k))).map (fun c => c.jobReqIds) := by
  induction cfgs generalizing m with
  | nil => cases h : mapFind m k <;> simp [h]
  | cons c rest ih =>
    simp only [List.foldl_cons, ih, mapFind_mapInsert]
    by_cases hk : c.id = k
    · subst hk
      cases h : mapFind m c.id <;> simp [List.find?_cons]
    · cases h : mapFind m k <;> simp [hk, List.find?_cons]

theorem mapFind_buildAdjacency (cfgs : List Config) (k : Nat) :
    mapFind (buildAdjacency cfgs) k =
      (cfgs.find? (fun c => decide (c.id = k))).map (fun c => c.jobReqIds) := by
  unfold buildAdjacency
  rw [mapFind_foldl_insertAdj]
  simp [mapFind]

theorem mapFind_foldl_insertOne (cfgs : List Config) (m : List (Nat × Nat)) (k : Nat) :
    mapFind (cfgs.foldl (fun m c => mapInsert c.id 1 m) m) k =
      match mapFind m k with
      | some x => some x
      | none => if k ∈ ids cfgs then some 1 else none := by
  induction cfgs generalizing m with
  | nil => cases h : mapFind m k <;> simp [h, ids]
  | cons c rest ih =>
    simp only [List.foldl_cons, ih, mapFind_mapInsert]
    by_cases hk : c.id = k
    · subst hk
      cases h : mapFind m c.id <;> simp [ids]
    · have hk' : ¬ k = c.id := fun h => hk h.symm
      cases h : mapFind m k <;> simp [hk, hk', ids]

theorem mapFind_initIsFront (cfgs : List Config) (k : Nat) :
    mapFind (initIsFront cfgs) k = if k ∈ ids cfgs then some 1 else none := by
  unfold initIsFront
  rw [mapFind_foldl_insertOne]
  simp [mapFind]

theorem mapFind_foldl_assignZero (reqs : List Nat) (m : List (Nat × Nat)) (k : Nat) :
    mapFind (reqs.foldl (fun m jobReq => mapAssign jobReq 0 m) m) k =
      if k ∈ reqs then some 0 else mapFind m k := by
  induction reqs generalizing m with
  | nil => simp
  | cons r rest ih =>
    simp only [List.foldl_cons, ih, mapFind_mapAssign, List.mem_cons]
    by_cases h1 : k ∈ rest
    · simp [h1]
    · by_cases h2 : r = k
      · simp [h2]
      · have h2' : ¬ k = r := fun h => h2 h.symm
        simp [h1, h2, h2']

theorem mapFind_clearIsFront (cfgs : List Config) (m : List (Nat × Nat)) (k : Nat) :
    mapFind (clearIsFront cfgs m) k =
      if ∃ c ∈ cfgs, k ∈ c.jobReqIds then some 0 else mapFind m k := by
  unfold clearIsFront
  induction cfgs generalizing m with
  | nil => simp
  | cons c rest ih =>
    simp only [List.foldl_cons, ih, mapFind_foldl_assignZero, List.mem_cons, exists_eq_or_imp]
    by_cases h1 : ∃ c ∈ rest, k ∈ c.jobReqIds
    · simp [h1]
    · by_cases h2 : k ∈ c.jobReqIds <;> simp [h1, h2]

theorem collectFront_foldl (isFront : List (Nat × Nat)) (cfgs : List Config) (init : List Nat) :
    cfgs.foldl
      (fun front c => if (mapFind isFront c.id).getD 0 = 1 then front ++ [c.id] else front) init =
      init ++ ids (cfgs.filter (fun c => decide ((mapFind isFront c.id).getD 0 = 1))) := by
  induction cfgs generalizing init with
  | nil => simp [ids]
  | cons c rest ih =>
    simp only [List.foldl_cons, ih]
    by_cases h : (mapFind isFront c.id).getD 0 = 1
    · simp [h, List.filter_cons, ids]
    · simp [h, List.filter_cons, ids]

theorem collectFront_eq (isFront : List (Nat × Nat)) (cfgs : List Config) :
    collectFront isFront cfgs =
      ids (cfgs.filter (fun c => decide ((mapFind isFront c.id).getD 0 = 1))) := by
  unfold collectFront
  rw [collectFront_foldl]
  simp

/-- The entry ids computed by `ConstructGraph`: the descriptors, in order, whose id is in no
prerequisite list. -/
theorem frontJobsIds_eq (cfgs : List Config) :
    (ConstructGraph cfgs).frontJobsIds =
      ids (cfgs.filter (fun c => decide (∀ c' ∈ cfgs, c.id ∉ c'.jobReqIds))) := by
  show collectFront _ _ = _
  rw [collectFront_eq]
  congr 1
  apply List.filter_congr
  intro c hc
  rw [mapFind_clearIsFront, mapFind_initIsFront]
  have hid : c.id ∈ ids cfgs := List.mem_map_of_mem _ hc
  by_cases h : ∃ c' ∈ cfgs, c.id ∈ c'.jobReqIds
  · have : ¬ ∀ c' ∈ cfgs, c.id ∉ c'.jobReqIds := by
      intro hall
      obtain ⟨c', hc', hm⟩ := h
      exact hall c' hc' hm
    simp [h, this]
  · have : ∀ c' ∈ cfgs, c.id ∉ c'.jobReqIds := by
      intro c' hc' hm
      exact h ⟨c', hc', hm⟩
    simp only [h, hid, if_false, if_true, Option.getD_some, decide_True]
    simpa using this

theorem mem_frontJobsIds (cfgs : List Config) (x : Nat) :
    x ∈ (ConstructGraph cfgs).frontJobsIds ↔ x ∈ ids cfgs ∧ ∀ j, ¬ Requires cfgs j x := by
  rw [frontJobsIds_eq]
  simp only [ids, List.mem_map, List.mem_filter, decide_eq_true_eq, Requires]
  constructor
  · rintro ⟨c, ⟨hc, hall⟩, rfl⟩
    refine ⟨⟨c, hc, rfl⟩, ?_⟩
    rintro j ⟨c', hc', -, hm⟩
    exact hall c' hc' hm
  · rintro ⟨⟨c, hc, rfl⟩, hall⟩
    refine ⟨c, ⟨hc, ?_⟩, rfl⟩
    intro c' hc' hm
    exact hall c'.id ⟨c', hc', rfl, hm⟩

theorem requires_of_mem_adjacency (cfgs : List Config) (j p : Nat)
    (h : p ∈ (mapFind (buildAdjacency cfgs) j).getD []) : Requires cfgs j p := by
  rw [mapFind_buildAdjacency] at h
  cases hf : cfgs.find? (fun c => decide (c.id = j)) with
  | none => simp [hf] at h
  | some c =>
    simp only [hf, Option.map_some', Option.getD_some] at h
    have hmem := List.mem_of_find?_eq_some hf
    have hid := List.find?_some hf
    exact ⟨c, hmem, by simpa using hid, h⟩

theorem find?_of_nodup_ids (cfgs : List Config) (hn : (ids cfgs).Nodup) (c : Config)
    (hc : c ∈ cfgs) : cfgs.find? (fun c' => decide (c'.id = c.id)) = some c := by
  induction cfgs with
  | nil => cases hc
  | cons d rest ih =>
    simp only [ids, List.map_cons, List.nodup_cons] at hn
    rcases List.mem_cons.mp hc with h | h
    · subst h
      simp [List.find?_cons]
    · have hne : d.id ≠ c.id := by
        intro heq
        exact hn.1 (heq ▸ List.mem_map_of_mem _ h)
      simp only [List.find?_cons, hne, decide_False]
      exact ih hn.2 h

theorem mapFind_adjacency_of_mem (cfgs : List Config) (hn : (ids cfgs).Nodup) (c : Config)
    (hc : c ∈ cfgs) : mapFind (buildAdjacency cfgs) c.id = some c.jobReqIds := by
  rw [mapFind_buildAdjacency, find?_of_nodup_ids cfgs hn c hc]
  rfl

theorem mapFind_adjacency_of_not_mem (cfgs : List Config) (k : Nat) (hk : k ∉ ids cfgs) :
    mapFind (buildAdjacency cfgs) k = none := by
  rw [mapFind_buildAdjacency]
  have : cfgs.find? (fun c => decide (c.id = k)) = none := by
    rw [List.find?_eq_none]
    intro c hc
    simp only [decide_eq_true_eq]
    intro heq
    exact hk (heq ▸ List.mem_map_of_mem _ hc)
  simp [this]

theorem mem_adjacency_iff (cfgs : List Config) (hn : (ids cfgs).Nodup) (j p : Nat) :
    p ∈ (mapFind (buildAdjacency cfgs) j).getD [] ↔ Requires cfgs j p := by
  constructor
  · exact requires_of_mem_adjacency cfgs j p
  · rintro ⟨c, hc, rfl, hp⟩
    rw [mapFind_adjacency_of_mem cfgs hn c hc]
    exact hp

/-! ## Facts about `checkOnCycles` -/

theorem isInCycleLoop_marked (recurse : Nat → List Nat → Except Error (Bool × List Nat))
    (id : Nat) (reqs visited : List Nat) (f : Nat) (hid : visited[id]? = some f) (hf : f ≠ 0)
    (hreqs : ∀ r ∈ reqs, ∃ g, visited[r]? = some g ∧ g ≠ 1) :
    isInCycleLoop recurse id reqs visited = .ok (false, visited) := by
  induction reqs with
  | nil => rfl
  | cons r rest ih =>
    obtain ⟨g, hg, hg1⟩ := hreqs r (List.mem_cons_self _ _)
    simp only [isInCycleLoop, hid, hf, if_false, hg, hg1]
    exact ih (fun r' hr' => hreqs r' (List.mem_cons_of_mem _ hr'))

/-- Once `visited[id]` is not 0 the loop of `isInCycle` never makes the recursive call. -/
theorem isInCycleLoop_congr (r1 r2 : Nat → List Nat → Except Error (Bool × List Nat))
    (id : Nat) (reqs visited : List Nat) (f : Nat) (hid : visited[id]? = some f) (hf : f ≠ 0) :
    isInCycleLoop r1 id reqs visited = isInCycleLoop r2 id reqs visited := by
  induction reqs with
  | nil => rfl
  | cons r rest ih =>
    simp only [isInCycleLoop, hid, hf, if_false]
    cases visited[r]? with
    | none => rfl
    | some g =>
      by_cases hg : g = 1
      · simp [hg]
      · simp only [hg, if_false]
        exact ih

/-- The recursive call of `isInCycle` is never reached: one unit of fuel is as good as
any larger amount. -/
theorem isInCycle_fuel (adjacency : List (Nat × List Nat)) (fuel id : Nat) (visited : List Nat) :
    isInCycle adjacency (fuel + 1) id visited = isInCycle adjacency 1 id visited := by
  simp only [isInCycle, vecSet]
  by_cases hid : id < visited.length
  · simp only [hid, if_true]
    have h1 : (visited.set id 1)[id]? = some 1 := by simp [List.getElem?_set, hid]
    rw [isInCycleLoop_congr (isInCycle adjacency fuel)
      (fun _ _ => Except.error Error.outOfFuel) id _ _ 1 h1 (by decide)]
  · simp [hid]

theorem isInCycle_entry (adjacency : List (Nat × List Nat)) (fuel id : Nat) (visited : List Nat)
    (hid : id < visited.length) (hv : ∀ x ∈ visited, x ≠ 1)
    (hreqs : ∀ r ∈ (mapFind adjacency id).getD [], r < visited.length ∧ r ≠ id) :
    isInCycle adjacency (fuel + 1) id visited = .ok (false, visited.set id 2) := by
  have hlen : id < (visited.set id 1).length := by simpa using hid
  have h1 : (visited.set id 1)[id]? = some 1 := by
    simp [List.getElem?_set, hid]
  have h2 : isInCycleLoop (isInCycle adjacency fuel) id ((mapFind adjacency id).getD [])
      (visited.set id 1) = .ok (false, visited.set id 1) := by
    apply isInCycleLoop_marked _ _ _ _ 1 h1 (by decide)
    intro r hr
    obtain ⟨hr1, hr2⟩ := hreqs r hr
    refine ⟨visited[r], ?_, hv _ (List.getElem_mem _)⟩
    rw [List.getElem?_set_ne (fun h => hr2 h.symm)]
    exact List.getElem?_eq_getElem hr1
  simp only [isInCycle, vecSet, hid, if_true, h2, hlen, List.set_set]

theorem checkOnCyclesLoop_ok (adjacency : List (Nat × List Nat)) (fuel : Nat)
    (front visited : List Nat) (hv : ∀ x ∈ visited, x ≠ 1)
    (hfront : ∀ f ∈ front, f < visited.length ∧
      ∀ r ∈ (mapFind adjacency f).getD [], r < visited.length ∧ r ≠ f) :
    checkOnCyclesLoop adjacency (fuel + 1) front visited = .ok () := by
  induction front generalizing visited with
  | nil => rfl
  | cons f rest ih =>
    obtain ⟨hf, hreqs⟩ := hfront f (List.mem_cons_self _ _)
    simp only [checkOnCyclesLoop, isInCycle_entry adjacency fuel f visited hf hv hreqs]
    apply ih
    · intro x hx
      rcases List.mem_or_eq_of_mem_set hx with h | h
      · exact hv x h
      · subst h; decide
    · intro f' hf'
      simpa using hfront f' (List.mem_cons_of_mem _ hf')

/-- With unique ids below the job count and no dangling prerequisite, `checkOnCycles`
returns normally on the graph built by `ConstructGraph`, whatever the prerequisite relation. -/
theorem checkOnCycles_ok (cfgs : List Config) (hw : WellFormed cfgs) (fuel : Nat) :
    checkOnCycles (fuel + 1) (ConstructGraph cfgs) = .ok () := by
  obtain ⟨hn, hlt, hd⟩ := hw
  unfold checkOnCycles
  apply checkOnCyclesLoop_ok
  · intro x hx
    rw [List.eq_of_mem_replicate hx]
    decide
  · intro f hf
    rw [mem_frontJobsIds] at hf
    obtain ⟨hfid, hfront⟩ := hf
    have hbound : ∀ x ∈ ids cfgs, x < cfgs.length := by
      intro x hx
      obtain ⟨c, hc, rfl⟩ := List.mem_map.mp hx
      exact hlt c hc
    simp only [List.length_replicate]
    refine ⟨hbound f hfid, ?_⟩
    intro r hr
    have hreq : Requires cfgs f r := requires_of_mem_adjacency cfgs f r hr
    obtain ⟨c, hc, -, hp⟩ := hreq
    refine ⟨hbound r (hd c hc r hp), ?_⟩
    intro heq
    rw [heq] at hr
    exact hfront f (requires_of_mem_adjacency cfgs f f hr)

/-! ## Acyclic prerequisite relations -/

theorem requires_left_mem (cfgs : List Config) (j p : Nat) (h : Requires cfgs j p) :
    j ∈ ids cfgs := by
  obtain ⟨c, hc, rfl, -⟩ := h
  exact List.mem_map_of_mem _ hc

theorem requires_right_mem (cfgs : List Config) (hd : NoDangling cfgs) (j p : Nat)
    (h : Requires cfgs j p) : p ∈ ids cfgs := by
  obtain ⟨c, hc, -, hp⟩ := h
  exact hd c hc p hp

/-- A relation without cycles whose left entries all lie in a finite set is well founded. -/
theorem wellFounded_of_finite_left (R : Nat → Nat → Prop) (S : List Nat)
    (hirr : ∀ x, ¬ Relation.TransGen R x x) (hleft : ∀ a b, R a b → a ∈ S) :
    WellFounded R := by
  have hfin : {x : Nat | x ∈ S}.Finite := List.finite_toSet S
  haveI : IsStrictOrder Nat (Relation.TransGen R) :=
    { irrefl := hirr, trans := fun _ _ _ h1 h2 => h1.trans h2 }
  have hS : {x : Nat | x ∈ S}.WellFoundedOn (Relation.TransGen R) := hfin.wellFoundedOn
  have hin : ∀ x, x ∈ S → Acc R x := by
    intro x hx
    refine hS.induction (P := Acc R) hx ?_
    intro y _ ih
    exact Acc.intro y (fun z hz => ih z (hleft z y hz) (Relation.TransGen.single hz))
  exact ⟨fun x => Acc.intro x (fun z hz => hin z (hleft z x hz))⟩

/-- In an acyclic descriptor set "is required by" is well founded. -/
theorem requires_wellFounded (cfgs : List Config) (ha : Acyclic cfgs) :
    WellFounded (Requires cfgs) :=
  wellFounded_of_finite_left (Requires cfgs) (ids cfgs) ha (requires_left_mem cfgs)

/-- In an acyclic descriptor set without dangling ids "is a prerequisite of" is well
founded. -/
theorem prereq_wellFounded (cfgs : List Config) (hd : NoDangling cfgs) (ha : Acyclic cfgs) :
    WellFounded (fun p j => Requires cfgs j p) := by
  apply wellFounded_of_finite_left _ (ids cfgs)
  · intro x hx
    exact ha x (Relation.transGen_swap.mp hx)
  · intro a b h
    exact requires_right_mem cfgs hd b a h

/-- A rank that drops along every prerequisite edge shows that there is no cycle. -/
theorem acyclic_of_rank (cfgs : List Config) (rank : Nat → Nat)
    (h : ∀ c ∈ cfgs, ∀ p ∈ c.jobReqIds, rank p < rank c.id) : Acyclic cfgs := by
  have hlt : ∀ x y, Relation.TransGen (Requires cfgs) x y → rank y < rank x := by
    intro x y hxy
    induction hxy with
    | single hr =>
      obtain ⟨c, hc, rfl, hp⟩ := hr
      exact h c hc _ hp
    | tail _ hr ih =>
      obtain ⟨c, hc, rfl, hp⟩ := hr
      exact lt_trans (h c hc _ hp) ih
  intro x hx
  exact lt_irrefl _ (hlt x x hx)

/-- Every id of an acyclic descriptor set is an entry id or is reached from one along
prerequisite edges. -/
theorem reachable_from_front (cfgs : List Config) (ha : Acyclic cfgs) (x : Nat)
    (hx : x ∈ ids cfgs) :
    ∃ f ∈ (ConstructGraph cfgs).frontJobsIds, Relation.ReflTransGen (Requires cfgs) f x := by
  induction x using (requires_wellFounded cfgs ha).induction with
  | _ x ih =>
    by_cases hreq : ∃ j, Requires cfgs j x
    · obtain ⟨j, hj⟩ := hreq
      obtain ⟨f, hf, hfj⟩ := ih j hj (requires_left_mem cfgs j x hj)
      exact ⟨f, hf, hfj.tail hj⟩
    · refine ⟨x, ?_, Relation.ReflTransGen.refl⟩
      rw [mem_frontJobsIds]
      exact ⟨hx, fun j hj => hreq ⟨j, hj⟩⟩

theorem wellFormed_cfgsABC : WellFormed cfgsABC := by
  unfold WellFormed NoDangling ids cfgsABC
  decide

theorem acyclic_cfgsABC : Acyclic cfgsABC :=
  acyclic_of_rank cfgsABC (fun x => x) (by unfold cfgsABC; decide)

/-! ## Claims about graph construction and cycle detection -/

/-- C2 (evaluation of the code at the failing inputs): the descriptors `A: [B], B: [A]` are
well formed and cyclic, yet `ConstructGraph` finds no entry id for them, `checkOnCycles`
returns normally and the constructor builds a `DAGJobs` object; `checkOnCycles` also returns
normally for the entry job `0` above the cycle `1 → 2 → 1`. -/
theorem checkOnCycles_misses_cycles :
    (WellFormed cfgsTwoCycle ∧ HasCycle cfgsTwoCycle ∧
      (ConstructGraph cfgsTwoCycle).frontJobsIds = [] ∧
      (∀ fuel, checkOnCycles fuel (ConstructGraph cfgsTwoCycle) = .ok ()) ∧
      ∀ fuel, DAGJobs.construct fuel cfgsTwoCycle =
        .ok { execOrderJobs := [], frontJobs := [], jobsCount := 2,
              world := { heap := [(0, ⟨0, none, []⟩), (1, ⟨1, none, []⟩)],
                         calls := [], crashed := [] } }) ∧
    (WellFormed cfgsTailCycle ∧ HasCycle cfgsTailCycle ∧
      (ConstructGraph cfgsTailCycle).frontJobsIds = [0] ∧
      ∀ fuel, checkOnCycles (fuel + 1) (ConstructGraph cfgsTailCycle) = .ok ()) := by
  have hw2 : WellFormed cfgsTwoCycle := by
    unfold WellFormed NoDangling ids cfgsTwoCycle
    decide
  have hw3 : WellFormed cfgsTailCycle := by
    unfold WellFormed NoDangling ids cfgsTailCycle
    decide
  have e01 : Requires cfgsTwoCycle 0 1 := ⟨⟨0, [1]⟩, by simp [cfgsTwoCycle], rfl, by simp⟩
  have e10 : Requires cfgsTwoCycle 1 0 := ⟨⟨1, [0]⟩, by simp [cfgsTwoCycle], rfl, by simp⟩
  have e12 : Requires cfgsTailCycle 1 2 := ⟨⟨1, [2]⟩, by simp [cfgsTailCycle], rfl, by simp⟩
  have e21 : Requires cfgsTailCycle 2 1 := ⟨⟨2, [1]⟩, by simp [cfgsTailCycle], rfl, by simp⟩
  refine ⟨⟨hw2, ⟨0, (Relation.TransGen.single e01).tail e10⟩, rfl, fun fuel => rfl,
    fun fuel => rfl⟩, hw3, ⟨1, (Relation.TransGen.single e12).tail e21⟩, rfl, ?_⟩
  intro fuel
  exact checkOnCycles_ok cfgsTailCycle hw3 fuel

/-- C3: for a well-formed acyclic descriptor set `checkOnCycles`, run on the graph built by
`ConstructGraph`, returns normally: it reports no cycle. -/
theorem checkOnCycles_acyclic (cfgs : List Config) (hw : WellFormed cfgs) (_ha : Acyclic cfgs)
    (fuel : Nat) : checkOnCycles (fuel + 1) (ConstructGraph cfgs) = .ok () :=
  checkOnCycles_ok cfgs hw fuel

/-- C3 at the descriptors `A: [], B: [], C: [A, B]`. -/
theorem checkOnCycles_acyclic_witness :
    WellFormed cfgsABC ∧ Acyclic cfgsABC ∧
      checkOnCycles 1 (ConstructGraph cfgsABC) = .ok () :=
  ⟨wellFormed_cfgsABC, acyclic_cfgsABC,
    checkOnCycles_acyclic cfgsABC wellFormed_cfgsABC acyclic_cfgsABC 0⟩

/-- C8 (counterexample): for the single descriptor `X: [Y]` with `Y` missing,
`ConstructGraph` raises no error and builds a graph, with `X` as its entry id; the
constructor goes on to `checkOnCycles`, which indexes `visited` out of range at `Y`. -/
theorem constructGraph_accepts_dangling :
    ¬ NoDangling cfgsDangling ∧
      ConstructGraph cfgsDangling =
        { jobsCount := 1, frontJobsIds := [0], adjacency := [(0, [1])] } ∧
      ∀ fuel, DAGJobs.construct (fuel + 1) cfgsDangling = .error .outOfRange := by
  refine ⟨?_, rfl, fun fuel => ?_⟩
  · unfold NoDangling ids cfgsDangling
    decide
  · have h : checkOnCycles (fuel + 1) (ConstructGraph cfgsDangling) = .error .outOfRange := by
      show checkOnCyclesLoop _ (fuel + 1) [0] [0] = _
      simp only [checkOnCyclesLoop, isInCycle_fuel]
      rfl
    simp only [DAGJobs.construct, h]

/-- C8 (amended): `ConstructGraph` does not reject a dangling prerequisite id. For a
descriptor list with unique ids in which descriptor `c` lists an id `p` that no descriptor
has, it builds a graph whose job count is the number of descriptors, whose adjacency keeps
`p` in the list stored for `c`, has no entry for `p`, and whose entry ids do not contain
`p`. -/
theorem constructGraph_dangling (cfgs : List Config) (hn : (ids cfgs).Nodup) (c : Config)
    (hc : c ∈ cfgs) (p : Nat) (hp : p ∈ c.jobReqIds) (hdang : p ∉ ids cfgs) :
    (ConstructGraph cfgs).jobsCount = cfgs.length ∧
      (∃ reqs, mapFind (ConstructGraph cfgs).adjacency c.id = some reqs ∧ p ∈ reqs) ∧
      mapFind (ConstructGraph cfgs).adjacency p = none ∧
      p ∉ (ConstructGraph cfgs).frontJobsIds := by
  refine ⟨rfl, ⟨c.jobReqIds, mapFind_adjacency_of_mem cfgs hn c hc, hp⟩,
    mapFind_adjacency_of_not_mem cfgs p hdang, ?_⟩
  intro hmem
  exact hdang ((mem_frontJobsIds cfgs p).mp hmem).1

/-- C8 (amended) at the single descriptor `X: [Y]`. -/
theorem constructGraph_dangling_witness :
    (ConstructGraph cfgsDangling).jobsCount = cfgsDangling.length ∧
      (∃ reqs, mapFind (ConstructGraph cfgsDangling).adjacency 0 = some reqs ∧ 1 ∈ reqs) ∧
      mapFind (ConstructGraph cfgsDangling).adjacency 1 = none ∧
      1 ∉ (ConstructGraph cfgsDangling).frontJobsIds :=
  constructGraph_dangling cfgsDangling (by unfold ids cfgsDangling; decide) ⟨0, [1]⟩
    (by unfold cfgsDangling; decide) 1 (by decide) (by unfold ids cfgsDangling; decide)

/-- C9: for a descriptor list with unique ids, `frontJobsIds` is the list of the descriptor
ids that occur in no prerequisite list, in descriptor order and without repetition, and
`adjacency` maps each descriptor id to that descriptor's prerequisite list (and has no other
key). -/
theorem constructGraph_front_adjacency (cfgs : List Config) (hn : (ids cfgs).Nodup) :
    (ConstructGraph cfgs).frontJobsIds =
        ids (cfgs.filter (fun c => decide (∀ c' ∈ cfgs, c.id ∉ c'.jobReqIds))) ∧
      (ConstructGraph cfgs).frontJobsIds.Nodup ∧
      (∀ x, x ∈ (ConstructGraph cfgs).frontJobsIds ↔
        x ∈ ids cfgs ∧ ∀ c ∈ cfgs, x ∉ c.jobReqIds) ∧
      (∀ c ∈ cfgs, mapFind (ConstructGraph cfgs).adjacency c.id = some c.jobReqIds) ∧
      ∀ k, k ∉ ids cfgs → mapFind (ConstructGraph cfgs).adjacency k = none := by
  refine ⟨frontJobsIds_eq cfgs, ?_, ?_, fun c hc => mapFind_adjacency_of_mem cfgs hn c hc,
    fun k hk => mapFind_adjacency_of_not_mem cfgs k hk⟩
  · rw [frontJobsIds_eq]
    exact (List.filter_sublist _).map _ |>.nodup hn
  · intro x
    rw [mem_frontJobsIds]
    constructor
    · rintro ⟨hx, hall⟩
      exact ⟨hx, fun c hc hm => hall c.id ⟨c, hc, rfl, hm⟩⟩
    · rintro ⟨hx, hall⟩
      refine ⟨hx, ?_⟩
      rintro j ⟨c, hc, -, hm⟩
      exact hall c hc hm

/-- C9 at the descriptors `A: [], B: [], C: [A, B]`: the only entry id is `C`. -/
theorem constructGraph_front_adjacency_witness :
    (ConstructGraph cfgsABC).frontJobsIds = [2] ∧
      mapFind (ConstructGraph cfgsABC).adjacency 2 = some [0, 1] :=
  ⟨((constructGraph_front_adjacency cfgsABC wellFormed_cfgsABC.1).1).trans rfl,
    (constructGraph_front_adjacency cfgsABC wellFormed_cfgsABC.1).2.2.2.1 ⟨2, [0, 1]⟩
      (by unfold cfgsABC; decide)⟩

/-- C10: for a non-empty descriptor list with unique ids, no dangling prerequisite id and an
acyclic prerequisite relation, `frontJobsIds` is non-empty. -/
theorem frontJobsIds_nonempty (cfgs : List Config) (hne : cfgs ≠ []) (_hn : (ids cfgs).Nodup)
    (_hd : NoDangling cfgs) (ha : Acyclic cfgs) : (ConstructGraph cfgs).frontJobsIds ≠ [] := by
  obtain ⟨c, hc⟩ := List.exists_mem_of_ne_nil cfgs hne
  obtain ⟨f, hf, -⟩ := reachable_from_front cfgs ha c.id (List.mem_map_of_mem _ hc)
  exact List.ne_nil_of_mem hf

/-- C10 at the descriptors `A: [], B: [], C: [A, B]`. -/
theorem frontJobsIds_nonempty_witness : (ConstructGraph cfgsABC).frontJobsIds ≠ [] :=
  frontJobsIds_nonempty cfgsABC (by unfold cfgsABC; decide) wellFormed_cfgsABC.1
    wellFormed_cfgsABC.2.2 acyclic_cfgsABC

/-! ## Facts about `Graph::frontJobs` -/

/-- The prerequisite list stored in `adjacency` for `k` (empty when `k` is not a key). -/
theorem adjacency_getD_of_mem (cfgs : List Config) (hn : (ids cfgs).Nodup) (c : Config)
    (hc : c ∈ cfgs) : (mapFind (buildAdjacency cfgs) c.id).getD [] = c.jobReqIds := by
  rw [mapFind_adjacency_of_mem cfgs hn c hc]
  rfl

theorem mapFind_isSome_iff_mem_keys {V : Type} (m : List (Nat × V)) (k : Nat) :
    (mapFind m k).isSome ↔ k ∈ m.map (fun p => p.1) := by
  induction m with
  | nil => simp [mapFind]
  | cons hd tl ih =>
    obtain ⟨a, b⟩ := hd
    by_cases h : a = k
    · simp [mapFind, h]
    · have h' : ¬ k = a := fun e => h e.symm
      simp [mapFind, h, h', ih]

theorem mapFind_foldl_makeJobs (adj : List (Nat × List Nat)) (m : Heap) (k : Nat) :
    mapFind (adj.foldl (fun jobs jobPair => mapInsert jobPair.1 ⟨jobPair.1, none, []⟩ jobs) m) k =
      match mapFind m k with
      | some x => some x
      | none => if k ∈ adj.map (fun p => p.1) then some ⟨k, none, []⟩ else none := by
  induction adj generalizing m with
  | nil => cases h : mapFind m k <;> simp [h]
  | cons hd tl ih =>
    simp only [List.foldl_cons, ih, mapFind_mapInsert]
    by_cases hk : hd.1 = k
    · subst hk
      cases h : mapFind m hd.1 <;> simp
    · have hk' : ¬ k = hd.1 := fun e => hk e.symm
      by_cases hm : k ∈ tl.map (fun p => p.1)
      · have hm' : k ∈ hd.1 :: tl.map (fun p => p.1) := List.mem_cons_of_mem _ hm
        cases h : mapFind m k <;> simp [hk, hm, hm']
      · have hm' : k ∉ hd.1 :: tl.map (fun p => p.1) := by
          intro hmem
          rcases List.mem_cons.mp hmem with e | e
          · exact hk' e
          · exact hm e
        cases h : mapFind m k <;> simp [hk, hm, hm']

theorem mapFind_makeJobs (adj : List (Nat × List Nat)) (k : Nat) :
    mapFind (makeJobs adj) k = if (mapFind adj k).isSome then some ⟨k, none, []⟩ else none := by
  unfold makeJobs
  rw [mapFind_foldl_makeJobs]
  simp only [mapFind]
  by_cases h : k ∈ adj.map (fun p => p.1)
  · simp [h, (mapFind_isSome_iff_mem_keys adj k).mpr h]
  · have : ¬ (mapFind adj k).isSome = true := fun e => h ((mapFind_isSome_iff_mem_keys adj k).mp e)
    simp [h, this]

theorem fresh_link (cfgs : List Config) (hn : (ids cfgs).Nodup) (heap : Heap) (c : Config)
    (hc : c ∈ cfgs) (job : Job) (hjob : mapFind heap c.id = some job) (hf : Fresh cfgs heap) :
    Fresh cfgs (mapPut c.id { job with jobsReq := c.jobReqIds.reverse } heap) ∧
    Linked cfgs (mapPut c.id { job with jobsReq := c.jobReqIds.reverse } heap) c.id ∧
    ∀ k, Linked cfgs heap k →
      Linked cfgs (mapPut c.id { job with jobsReq := c.jobReqIds.reverse } heap) k := by
  obtain ⟨job0, hjob0, hid0, hres0, -⟩ := hf c hc
  have hj : job0 = job := Option.some.inj (hjob0.symm.trans hjob)
  subst hj
  refine ⟨?_, ?_, ?_⟩
  · intro c' hc'
    by_cases hk : c.id = c'.id
    · have hcc : c = c' := by
        have := find?_of_nodup_ids cfgs hn c hc
        have h2 := find?_of_nodup_ids cfgs hn c' hc'
        rw [← hk] at h2
        exact Option.some.inj (this.symm.trans h2)
      subst hcc
      exact ⟨{ job0 with jobsReq := c.jobReqIds.reverse }, by rw [mapFind_mapPut]; simp,
        hid0, hres0, Or.inr rfl⟩
    · obtain ⟨j', h1, h2, h3, h4⟩ := hf c' hc'
      exact ⟨j', by rw [mapFind_mapPut]; simp [hk, h1], h2, h3, h4⟩
  · exact ⟨c, hc, rfl, { job0 with jobsReq := c.jobReqIds.reverse },
        by rw [mapFind_mapPut]; simp, rfl⟩
  · rintro k ⟨c', hc', rfl, j', h1, h2⟩
    by_cases hk : c.id = c'.id
    · have hcc : c = c' := by
        have := find?_of_nodup_ids cfgs hn c hc
        have h2 := find?_of_nodup_ids cfgs hn c' hc'
        rw [← hk] at h2
        exact Option.some.inj (this.symm.trans h2)
      subst hcc
      exact ⟨c, hc, rfl, { job0 with jobsReq := c.jobReqIds.reverse },
        by rw [mapFind_mapPut]; simp, rfl⟩
    · exact ⟨c', hc', rfl, j', by rw [mapFind_mapPut]; simp [hk, h1], h2⟩

/-- A bound on the fuel for each member of a list gives one bound for all of them. -/
theorem exists_fuel_forall_mem (P : Nat → Nat → Prop) (l : List Nat)
    (h : ∀ q ∈ l, ∃ N, ∀ fuel, N ≤ fuel → P fuel q) :
    ∃ N, ∀ fuel, N ≤ fuel → ∀ q ∈ l, P fuel q := by
  induction l with
  | nil => exact ⟨0, fun _ _ q hq => absurd hq (List.not_mem_nil q)⟩
  | cons q rest ih =>
    obtain ⟨N1, h1⟩ := h q (List.mem_cons_self _ _)
    obtain ⟨N2, h2⟩ := ih (fun q' hq' => h q' (List.mem_cons_of_mem _ hq'))
    refine ⟨max N1 N2, fun fuel hfuel q' hq' => ?_⟩
    rcases List.mem_cons.mp hq' with rfl | hq'
    · exact h1 fuel (le_trans (le_max_left _ _) hfuel)
    · exact h2 fuel (le_trans (le_max_right _ _) hfuel) q' hq'

theorem createReqJobsLoop_spec (cfgs : List Config) (hn : (ids cfgs).Nodup)
    (call : Nat → Heap → Except Error (List Nat × Heap))
    (reqs : List Nat) (hreqs : ∀ p ∈ reqs, p ∈ ids cfgs ∧ CreateSpec cfgs call p)
    (acc : List Nat) (heap : Heap) (hf : Fresh cfgs heap) :
    ∃ heap', createReqJobsLoop call reqs acc heap = .ok (reqs.reverse ++ acc, heap') ∧
      Fresh cfgs heap' ∧ (∀ k, Linked cfgs heap k → Linked cfgs heap' k) ∧
      ∀ p ∈ reqs, Linked cfgs heap' p ∧
        ∀ k, Relation.TransGen (Requires cfgs) p k → Linked cfgs heap' k := by
  induction reqs generalizing acc heap with
  | nil => exact ⟨heap, rfl, hf, fun k h => h, fun p hp => absurd hp (List.not_mem_nil p)⟩
  | cons p rest ih =>
    obtain ⟨hp, hspec⟩ := hreqs p (List.mem_cons_self _ _)
    obtain ⟨heap1, hcall, hf1, hmono1, hreach1⟩ := hspec heap hf
    obtain ⟨c, hc, rfl⟩ := List.mem_map.mp hp
    obtain ⟨job, hjob, -⟩ := hf1 c hc
    have hadj := adjacency_getD_of_mem cfgs hn c hc
    rw [hadj] at hcall
    obtain ⟨hf2, hl2, hmono2⟩ := fresh_link cfgs hn heap1 c hc job hjob hf1
    obtain ⟨heap', hloop, hf', hmono', hrest⟩ :=
      ih (fun q hq => hreqs q (List.mem_cons_of_mem _ hq)) (c.id :: acc) _ hf2
    refine ⟨heap', ?_, hf', fun k h => hmono' k (hmono2 k (hmono1 k h)), ?_⟩
    · simp only [createReqJobsLoop, hcall, hjob, hloop, List.reverse_cons, List.append_assoc,
        List.singleton_append]
    · intro q hq
      rcases List.mem_cons.mp hq with rfl | hq
      · exact ⟨hmono' _ hl2, fun k hk => hmono' k (hmono2 k (hreach1 k hk))⟩
      · exact hrest q hq

theorem createReqJobs_spec (cfgs : List Config) (hn : (ids cfgs).Nodup) (hd : NoDangling cfgs)
    (ha : Acyclic cfgs) (p : Nat) (hp : p ∈ ids cfgs) :
    ∃ N, ∀ fuel, N ≤ fuel → CreateSpec cfgs (createReqJobs (buildAdjacency cfgs) fuel) p := by
  induction p using (prereq_wellFounded cfgs hd ha).induction with
  | _ p ih =>
    obtain ⟨c, hc, rfl⟩ := List.mem_map.mp hp
    have hadj := adjacency_getD_of_mem cfgs hn c hc
    have hall : ∃ N, ∀ fuel, N ≤ fuel → ∀ q ∈ c.jobReqIds,
        CreateSpec cfgs (createReqJobs (buildAdjacency cfgs) fuel) q :=
      exists_fuel_forall_mem _ c.jobReqIds (fun q hq =>
        ih q ⟨c, hc, rfl, hq⟩ (hd c hc q hq))
    obtain ⟨N, hN⟩ := hall
    refine ⟨N + 1, fun fuel hfuel heap hf => ?_⟩
    obtain ⟨fuel', rfl⟩ : ∃ fuel', fuel = fuel' + 1 := ⟨fuel - 1, by omega⟩
    have hreqs : ∀ q ∈ c.jobReqIds, q ∈ ids cfgs ∧
        CreateSpec cfgs (createReqJobs (buildAdjacency cfgs) fuel') q :=
      fun q hq => ⟨hd c hc q hq, hN fuel' (by omega) q hq⟩
    obtain ⟨heap', hloop, hf', hmono, hlinked⟩ :=
      createReqJobsLoop_spec cfgs hn _ c.jobReqIds hreqs [] heap hf
    refine ⟨heap', ?_, hf', hmono, ?_⟩
    · simp only [createReqJobs, hadj, hloop, List.append_nil]
    · intro k hk
      obtain ⟨q, hq, hqk⟩ := Relation.TransGen.head'_iff.mp hk
      obtain ⟨c', hc', hid, hq'⟩ := hq
      have hcc : c' = c := by
        have h1 := find?_of_nodup_ids cfgs hn c hc
        have h2 := find?_of_nodup_ids cfgs hn c' hc'
        rw [hid] at h2
        exact Option.some.inj (h2.symm.trans h1)
      subst hcc
      rcases Relation.reflTransGen_iff_eq_or_transGen.mp hqk with heq | htg
      · subst heq
        exact (hlinked _ hq').1
      · exact (hlinked q hq').2 k htg

theorem frontJobsLoop_eq (adjacency : List (Nat × List Nat)) (fuel : Nat) (front acc : List Nat)
    (jobs : Heap) :
    frontJobsLoop adjacency fuel front acc jobs =
      createReqJobsLoop (createReqJobs adjacency fuel) front acc jobs := by
  induction front generalizing acc jobs with
  | nil => rfl
  | cons f rest ih =>
    simp only [frontJobsLoop, createReqJobsLoop]
    cases createReqJobs adjacency fuel f jobs with
    | error e => rfl
    | ok r =>
      obtain ⟨reqs, jobs1⟩ := r
      simp only
      cases mapFind jobs1 f with
      | none => rfl
      | some job => exact ih _ _

theorem fresh_makeJobs (cfgs : List Config) (hn : (ids cfgs).Nodup) :
    Fresh cfgs (makeJobs (buildAdjacency cfgs)) := by
  intro c hc
  refine ⟨⟨c.id, none, []⟩, ?_, rfl, rfl, Or.inl rfl⟩
  rw [mapFind_makeJobs, mapFind_adjacency_of_mem cfgs hn c hc]
  rfl

/-- For an acyclic descriptor set with unique ids and no dangling prerequisite id
`frontJobs` returns, given enough fuel: the entry jobs in reverse order of `frontJobsIds`,
and every job linked to its prerequisites. No bound on the ids is needed. -/
theorem frontJobs_spec (cfgs : List Config) (hn : (ids cfgs).Nodup) (hd : NoDangling cfgs)
    (ha : Acyclic cfgs) :
    ∃ N, ∀ fuel, N ≤ fuel → ∃ heap,
      (ConstructGraph cfgs).frontJobs fuel =
        .ok ((ConstructGraph cfgs).frontJobsIds.reverse, heap) ∧ Materialized cfgs heap := by
  obtain ⟨N, hN⟩ := exists_fuel_forall_mem
    (fun fuel q => CreateSpec cfgs (createReqJobs (buildAdjacency cfgs) fuel) q)
    (ConstructGraph cfgs).frontJobsIds
    (fun q hq => createReqJobs_spec cfgs hn hd ha q ((mem_frontJobsIds cfgs q).mp hq).1)
  refine ⟨N, fun fuel hfuel => ?_⟩
  obtain ⟨heap, hloop, hfresh, -, hlinked⟩ :=
    createReqJobsLoop_spec cfgs hn (createReqJobs (buildAdjacency cfgs) fuel)
      (ConstructGraph cfgs).frontJobsIds
      (fun q hq => ⟨((mem_frontJobsIds cfgs q).mp hq).1, hN fuel hfuel q hq⟩) []
      (makeJobs (buildAdjacency cfgs)) (fresh_makeJobs cfgs hn)
  refine ⟨heap, ?_, ?_⟩
  · show frontJobsLoop _ _ _ _ _ = _
    rw [frontJobsLoop_eq]
    simpa using hloop
  · intro c hc
    obtain ⟨job, hjob, hid, hres, -⟩ := hfresh c hc
    have hl : Linked cfgs heap c.id := by
      obtain ⟨f, hf, hreach⟩ := reachable_from_front cfgs ha c.id (List.mem_map_of_mem _ hc)
      rcases Relation.reflTransGen_iff_eq_or_transGen.mp hreach with heq | htg
      · rw [heq]
        exact (hlinked f hf).1
      · exact (hlinked f hf).2 c.id htg
    obtain ⟨c', hc', hid', job', hjob', hreq'⟩ := hl
    have hcc : c' = c := by
      have h1 := find?_of_nodup_ids cfgs hn c hc
      have h2 := find?_of_nodup_ids cfgs hn c' hc'
      rw [hid'] at h2
      exact Option.some.inj (h2.symm.trans h1)
    subst hcc
    have hjj : job' = job := Option.some.inj (hjob'.symm.trans hjob)
    subst hjj
    rw [hjob]
    congr 1
    cases job' with
    | mk i r q =>
      simp only at hid hres hreq'
      simp [hid, hres, hreq']

/-- For a well-formed acyclic descriptor set the constructor succeeds, given enough fuel. -/
theorem construct_spec (cfgs : List Config) (hw : WellFormed cfgs) (ha : Acyclic cfgs) :
    ∃ N, ∀ fuel, N ≤ fuel → ∃ heap,
      DAGJobs.construct fuel cfgs =
        .ok { execOrderJobs := [], frontJobs := (ConstructGraph cfgs).frontJobsIds.reverse,
              jobsCount := cfgs.length,
              world := { heap := heap, calls := [], crashed := [] } } ∧
      Materialized cfgs heap := by
  obtain ⟨N, hN⟩ := frontJobs_spec cfgs hw.1 hw.2.2 ha
  refine ⟨N + 1, fun fuel hfuel => ?_⟩
  obtain ⟨heap, hfront, hmat⟩ := hN fuel (by omega)
  obtain ⟨fuel', rfl⟩ : ∃ fuel', fuel = fuel' + 1 := ⟨fuel - 1, by omega⟩
  refine ⟨heap, ?_, hmat⟩
  simp only [DAGJobs.construct, checkOnCycles_ok cfgs hw fuel', hfront]
  rfl

/-! ## Facts about `bfs` -/

theorem materialized_wired (cfgs : List Config) (heap : Heap) (h : Materialized cfgs heap) :
    Wired cfgs heap :=
  fun c hc => ⟨none, h c hc⟩

theorem mem_ids_lt (cfgs : List Config) (hw : WellFormed cfgs) (x : Nat) (hx : x ∈ ids cfgs) :
    x < cfgs.length := by
  obtain ⟨c, hc, rfl⟩ := List.mem_map.mp hx
  exact hw.2.1 c hc

theorem wired_find (cfgs : List Config) (heap : Heap) (hwired : Wired cfgs heap) (x : Nat)
    (hx : x ∈ ids cfgs) :
    ∃ c ∈ cfgs, c.id = x ∧ ∃ r, mapFind heap x = some ⟨x, r, c.jobReqIds.reverse⟩ := by
  obtain ⟨c, hc, rfl⟩ := List.mem_map.mp hx
  exact ⟨c, hc, rfl, hwired c hc⟩

theorem config_unique (cfgs : List Config) (hn : (ids cfgs).Nodup) (c c' : Config)
    (hc : c ∈ cfgs) (hc' : c' ∈ cfgs) (hid : c.id = c'.id) : c = c' := by
  have h1 := find?_of_nodup_ids cfgs hn c hc
  have h2 := find?_of_nodup_ids cfgs hn c' hc'
  rw [← hid] at h2
  exact Option.some.inj (h1.symm.trans h2)

theorem count_zero_set (v : List Nat) (i : Nat) (h : v[i]? = some 0) :
    (v.set i 1).count 0 + 1 = v.count 0 := by
  induction v generalizing i with
  | nil => simp at h
  | cons a rest ih =>
    cases i with
    | zero =>
      simp only [List.getElem?_cons_zero, Option.some.injEq] at h
      subst h
      simp [List.count_cons]
    | succ i =>
      simp only [List.getElem?_cons_succ] at h
      have := ih i h
      simp only [List.set_cons_succ, List.count_cons]
      omega

theorem bfsMark_spec (cfgs : List Config) (hw : WellFormed cfgs) (heap : Heap)
    (hwired : Wired cfgs heap) (l : List Nat) (hl : ∀ x ∈ l, x ∈ ids cfgs) (v : List Nat)
    (hv : v.length = cfgs.length) :
    ∃ v', bfsMark heap l v = .ok v' ∧ v'.length = cfgs.length ∧
      ∀ x, v'[x]? = if x ∈ l then (if x < cfgs.length then some 1 else none) else v[x]? := by
  induction l generalizing v with
  | nil => exact ⟨v, rfl, hv, fun x => by simp⟩
  | cons a rest ih =>
    have ha := hl a (List.mem_cons_self _ _)
    obtain ⟨c, -, -, r, hfind⟩ := wired_find cfgs heap hwired a ha
    have halt : a < v.length := hv ▸ mem_ids_lt cfgs hw a ha
    obtain ⟨v', hmark, hlen, hget⟩ := ih (fun x hx => hl x (List.mem_cons_of_mem _ hx))
      (v.set a 1) (by simpa using hv)
    refine ⟨v', ?_, hlen, fun x => ?_⟩
    · simp only [bfsMark, hfind, vecSet, halt, if_true, hmark]
    · rw [hget x]
      by_cases hx : x ∈ rest
      · simp [hx]
      · by_cases hxa : x = a
        · subst hxa
          have hxl : x < cfgs.length := hv ▸ halt
          simp [hx, halt, hxl]
        · have hxa' : a ≠ x := fun e => hxa e.symm
          simp [hx, hxa, List.getElem?_set_ne hxa']

theorem bfsExpand_spec (cfgs : List Config) (hw : WellFormed cfgs) (heap : Heap)
    (hwired : Wired cfgs heap) (origin acc reqs : List Nat)
    (hreqs : ∀ p ∈ reqs, p ∈ ids cfgs ∧ ∃ K ∈ acc, Requires cfgs K p)
    (visited que : List Nat) (hinv : BfsInv cfgs origin visited que acc) :
    ∃ visited' que', bfsExpand heap reqs visited que = .ok (visited', que') ∧
      BfsInv cfgs origin visited' que' acc ∧ (∀ x ∈ que, x ∈ que') ∧
      (∀ p ∈ reqs, p ∈ que' ∨ p ∈ acc) ∧
      que'.length + visited'.count 0 = que.length + visited.count 0 := by
  induction reqs generalizing visited que with
  | nil => exact ⟨visited, que, rfl, hinv, fun x hx => hx,
      fun p hp => absurd hp (List.not_mem_nil p), rfl⟩
  | cons p rest ih =>
    obtain ⟨hp, K, hK, hKp⟩ := hreqs p (List.mem_cons_self _ _)
    have hrest := fun q hq => hreqs q (List.mem_cons_of_mem _ hq)
    obtain ⟨c, -, -, r, hfind⟩ := wired_find cfgs heap hwired p hp
    have hplt : p < cfgs.length := mem_ids_lt cfgs hw p hp
    have hpv : p < visited.length := hinv.len ▸ hplt
    by_cases hseen : p ∈ que ∨ p ∈ acc
    · have hget := hinv.marked p hseen
      obtain ⟨visited', que', hexp, hinv', hsub, hall, hmeasure⟩ := ih hrest visited que hinv
      refine ⟨visited', que', ?_, hinv', hsub, ?_, hmeasure⟩
      · simp only [bfsExpand, hfind, hget, hexp]
        simp
      · intro q hq
        rcases List.mem_cons.mp hq with rfl | hq
        · rcases hseen with h | h
          · exact Or.inl (hsub _ h)
          · exact Or.inr h
        · exact hall q hq
    · have hnq : p ∉ que := fun h => hseen (Or.inl h)
      have hna : p ∉ acc := fun h => hseen (Or.inr h)
      have hget := hinv.unmarked p hplt hnq hna
      have hinv1 : BfsInv cfgs origin (visited.set p 1) (que ++ [p]) acc :=
        { len := by simpa using hinv.len
          marked := by
            intro x hx
            by_cases hxp : x = p
            · subst hxp
              simp [List.getElem?_set, hpv]
            · have hxp' : p ≠ x := fun e => hxp e.symm
              rw [List.getElem?_set_ne hxp']
              apply hinv.marked
              rcases hx with h | h
              · rcases List.mem_append.mp h with h | h
                · exact Or.inl h
                · exact absurd (List.mem_singleton.mp h) hxp
              · exact Or.inr h
          unmarked := by
            intro x hx hxq hxa
            have hxp : p ≠ x := by
              intro e
              exact hxq (List.mem_append.mpr (Or.inr (List.mem_singleton.mpr e.symm)))
            rw [List.getElem?_set_ne hxp]
            exact hinv.unmarked x hx (fun h => hxq (List.mem_append.mpr (Or.inl h))) hxa
          nodup := by
            have := hinv.nodup
            rw [List.nodup_append] at this ⊢
            obtain ⟨h1, h2, h3⟩ := this
            refine ⟨?_, h2, ?_⟩
            · rw [List.nodup_append]
              refine ⟨h1, List.nodup_singleton p, ?_⟩
              intro x hx1 hx2
              rw [List.mem_singleton] at hx2
              exact hnq (hx2 ▸ hx1)
            · intro x hx1 hx2
              rcases List.mem_append.mp hx1 with h | h
              · exact h3 h hx2
              · rw [List.mem_singleton] at h
                exact hna (h ▸ hx2)
          mem_ids := by
            intro x hx
            rcases hx with h | h
            · rcases List.mem_append.mp h with h | h
              · exact hinv.mem_ids x (Or.inl h)
              · rw [List.mem_singleton] at h
                exact h ▸ hp
            · exact hinv.mem_ids x (Or.inr h)
          origin_sub := by
            intro x hx
            rcases hinv.origin_sub x hx with h | h
            · exact Or.inl (List.mem_append.mpr (Or.inl h))
            · exact Or.inr h
          que_disc := by
            intro x hx
            rcases List.mem_append.mp hx with h | h
            · exact hinv.que_disc x h
            · rw [List.mem_singleton] at h
              exact Or.inr ⟨K, hK, h ▸ hKp⟩
          acc_disc := hinv.acc_disc }
      obtain ⟨visited', que', hexp, hinv', hsub, hall, hmeasure⟩ :=
        ih hrest (visited.set p 1) (que ++ [p]) hinv1
      refine ⟨visited', que', ?_, hinv', ?_, ?_, ?_⟩
      · simp only [bfsExpand, hfind, hget, vecSet, hpv, if_true, hexp]
      · intro x hx
        exact hsub x (List.mem_append.mpr (Or.inl hx))
      · intro q hq
        rcases List.mem_cons.mp hq with rfl | hq
        · exact Or.inl (hsub _ (List.mem_append.mpr (Or.inr (List.mem_singleton.mpr rfl))))
        · exact hall q hq
      · have := count_zero_set visited p hget
        simp only [List.length_append, List.length_singleton] at hmeasure
        omega

theorem bfsLoop_spec (cfgs : List Config) (hw : WellFormed cfgs) (heap : Heap)
    (hwired : Wired cfgs heap) (origin : List Nat) (fuel : Nat) (visited que acc : List Nat)
    (hinv : BfsInv cfgs origin visited que acc)
    (hclosed : ∀ x ∈ acc, ∀ p, Requires cfgs x p → p ∈ que ∨ p ∈ acc)
    (hfuel : que.length + visited.count 0 ≤ fuel) :
    ∃ order visited', bfsLoop PushJobToExecOrder heap fuel visited que acc = .ok order ∧
      BfsInv cfgs origin visited' [] order ∧
      ∀ x ∈ order, ∀ p, Requires cfgs x p → p ∈ order := by
  induction fuel generalizing visited que acc with
  | zero =>
    have hq : que = [] := List.eq_nil_of_length_eq_zero (by omega)
    subst hq
    refine ⟨acc, visited, by simp [bfsLoop], hinv, fun x hx p hp => ?_⟩
    rcases hclosed x hx p hp with h | h
    · exact absurd h (List.not_mem_nil p)
    · exact h
  | succ fuel ih =>
    cases que with
    | nil =>
      refine ⟨acc, visited, by simp [bfsLoop], hinv, fun x hx p hp => ?_⟩
      rcases hclosed x hx p hp with h | h
      · exact absurd h (List.not_mem_nil p)
      · exact h
    | cons J que0 =>
      have hJ : J ∈ ids cfgs := hinv.mem_ids J (Or.inl (List.mem_cons_self _ _))
      obtain ⟨c, hc, hcid, r, hfind⟩ := wired_find cfgs heap hwired J hJ
      have hinv0 : BfsInv cfgs origin visited que0 (J :: acc) :=
        { len := hinv.len
          marked := by
            intro x hx
            apply hinv.marked
            rcases hx with h | h
            · exact Or.inl (List.mem_cons_of_mem _ h)
            · rcases List.mem_cons.mp h with h | h
              · exact Or.inl (h ▸ List.mem_cons_self _ _)
              · exact Or.inr h
          unmarked := by
            intro x hx hxq hxa
            apply hinv.unmarked x hx
            · intro h
              rcases List.mem_cons.mp h with h | h
              · exact hxa (h ▸ List.mem_cons_self _ _)
              · exact hxq h
            · exact fun h => hxa (List.mem_cons_of_mem _ h)
          nodup := by
            have := hinv.nodup
            have hperm : (que0 ++ J :: acc).Perm (J :: que0 ++ acc) := by
              simp
            exact hperm.nodup_iff.mpr this
          mem_ids := by
            intro x hx
            apply hinv.mem_ids
            rcases hx with h | h
            · exact Or.inl (List.mem_cons_of_mem _ h)
            · rcases List.mem_cons.mp h with h | h
              · exact Or.inl (h ▸ List.mem_cons_self _ _)
              · exact Or.inr h
          origin_sub := by
            intro x hx
            rcases hinv.origin_sub x hx with h | h
            · rcases List.mem_cons.mp h with h | h
              · exact Or.inr (h ▸ List.mem_cons_self _ _)
              · exact Or.inl h
            · exact Or.inr (List.mem_cons_of_mem _ h)
          que_disc := by
            intro x hx
            rcases hinv.que_disc x (List.mem_cons_of_mem _ hx) with h | ⟨K, hK, hKx⟩
            · exact Or.inl h
            · exact Or.inr ⟨K, List.mem_cons_of_mem _ hK, hKx⟩
          acc_disc := ⟨hinv.que_disc J (List.mem_cons_self _ _), hinv.acc_disc⟩ }
      have hreqs : ∀ p ∈ c.jobReqIds.reverse, p ∈ ids cfgs ∧ ∃ K ∈ J :: acc, Requires cfgs K p := by
        intro p hp
        rw [List.mem_reverse] at hp
        exact ⟨hw.2.2 c hc p hp, J, List.mem_cons_self _ _, c, hc, hcid, hp⟩
      obtain ⟨visited1, que1, hexp, hinv1, hsub, hall, hmeasure⟩ :=
        bfsExpand_spec cfgs hw heap hwired origin (J :: acc) c.jobReqIds.reverse hreqs
          visited que0 hinv0
      have hclosed1 : ∀ x ∈ J :: acc, ∀ p, Requires cfgs x p → p ∈ que1 ∨ p ∈ J :: acc := by
        intro x hx p hxp
        rcases List.mem_cons.mp hx with rfl | hx
        · obtain ⟨c', hc', hid', hp'⟩ := hxp
          have hcc : c' = c := config_unique cfgs hw.1 c' c hc' hc (hid'.trans hcid.symm)
          subst hcc
          exact hall p (List.mem_reverse.mpr hp')
        · rcases hclosed x hx p hxp with h | h
          · rcases List.mem_cons.mp h with h | h
            · exact Or.inr (h ▸ List.mem_cons_self _ _)
            · exact Or.inl (hsub p h)
          · exact Or.inr (List.mem_cons_of_mem _ h)
      have hfuel1 : que1.length + visited1.count 0 ≤ fuel := by
        simp only [List.length_cons] at hfuel
        omega
      obtain ⟨order, visited', hloop, hfinal, hcl⟩ :=
        ih visited1 que1 (J :: acc) hinv1 hclosed1 hfuel1
      refine ⟨order, visited', ?_, hfinal, hcl⟩
      simp only [bfsLoop, PushJobToExecOrder, hfind, hexp, hloop]

/-- The traversal `bfs` with `PushJobToExecOrder`, started from jobs `origin` of a
well-formed descriptor set whose jobs are linked: with fuel for one step per job it returns
an order without repetition that contains the origin, is closed under prerequisites, and in
which every member is an origin job or a prerequisite of a member further back. -/
theorem bfs_spec (cfgs : List Config) (hw : WellFormed cfgs) (heap : Heap)
    (hwired : Wired cfgs heap) (origin : List Nat) (hnd : origin.Nodup)
    (horigin : ∀ x ∈ origin, x ∈ ids cfgs) (fuel : Nat)
    (hfuel : origin.length + cfgs.length ≤ fuel) :
    ∃ order, bfs PushJobToExecOrder heap fuel origin cfgs.length [] = .ok order ∧
      order.Nodup ∧ Discovered cfgs origin order ∧ (∀ x ∈ origin, x ∈ order) ∧
      (∀ x ∈ order, x ∈ ids cfgs) ∧ ∀ x ∈ order, ∀ p, Requires cfgs x p → p ∈ order := by
  obtain ⟨visited, hmark, hlen, hget⟩ := bfsMark_spec cfgs hw heap hwired origin horigin
    (List.replicate cfgs.length 0) (by simp)
  have hinv : BfsInv cfgs origin visited origin [] :=
    { len := hlen
      marked := by
        intro x hx
        rcases hx with h | h
        · rw [hget x]
          simp [h, mem_ids_lt cfgs hw x (horigin x h)]
        · exact absurd h (List.not_mem_nil x)
      unmarked := by
        intro x hx hxq _
        rw [hget x]
        simp [hxq, hx]
      nodup := by simpa using hnd
      mem_ids := by
        intro x hx
        rcases hx with h | h
        · exact horigin x h
        · exact absurd h (List.not_mem_nil x)
      origin_sub := fun x hx => Or.inl hx
      que_disc := fun x hx => Or.inl hx
      acc_disc := trivial }
  have hcount : visited.count 0 ≤ cfgs.length := hlen ▸ List.count_le_length 0 visited
  obtain ⟨order, visited', hloop, hfinal, hcl⟩ :=
    bfsLoop_spec cfgs hw heap hwired origin fuel visited origin [] hinv
      (fun x hx => absurd hx (List.not_mem_nil x)) (by omega)
  refine ⟨order, ?_, by simpa using hfinal.nodup, hfinal.acc_disc, ?_, ?_, hcl⟩
  · simp only [bfs, hmark, hloop]
  · intro x hx
    rcases hfinal.origin_sub x hx with h | h
    · exact absurd h (List.not_mem_nil x)
    · exact h
  · intro x hx
    exact hfinal.mem_ids x (Or.inr hx)

theorem discovered_index (cfgs : List Config) (origin order : List Nat)
    (h : Discovered cfgs origin order) (P : Nat) (hP : P ∈ order) (hPo : P ∉ origin) :
    ∃ K i j : Nat, Requires cfgs K P ∧ order[i]? = some P ∧ order[j]? = some K ∧ i < j := by
  induction order with
  | nil => exact absurd hP (List.not_mem_nil P)
  | cons x later ih =>
    obtain ⟨hx, hlater⟩ := h
    by_cases hxP : P = x
    · subst hxP
      rcases hx with h | ⟨K, hK, hKP⟩
      · exact absurd h hPo
      · obtain ⟨j, hj⟩ := List.mem_iff_getElem?.mp hK
        exact ⟨K, 0, j + 1, hKP, by simp, by simpa using hj, by omega⟩
    · have hmem : P ∈ later := by
        rcases List.mem_cons.mp hP with h | h
        · exact absurd h hxP
        · exact h
      obtain ⟨K, i, j, hKP, hi, hj, hij⟩ := ih hlater hmem
      exact ⟨K, i + 1, j + 1, hKP, by simpa using hi, by simpa using hj, by omega⟩

theorem frontJobsIds_nodup (cfgs : List Config) (hn : (ids cfgs).Nodup) :
    (ConstructGraph cfgs).frontJobsIds.Nodup := by
  rw [frontJobsIds_eq]
  exact ((List.filter_sublist _).map _).nodup hn

/-- For a well-formed acyclic descriptor set the constructor and the derivation of the
execution order succeed, given enough fuel; the order has no repetition, holds exactly the
descriptor ids, and every job in it that is not an entry job is a prerequisite of a job
further back. -/
theorem execOrder_spec (cfgs : List Config) (hw : WellFormed cfgs) (ha : Acyclic cfgs) :
    ∃ N, ∀ fuel, N ≤ fuel → ∃ heap order,
      DAGJobs.construct fuel cfgs =
        .ok { execOrderJobs := [], frontJobs := (ConstructGraph cfgs).frontJobsIds.reverse,
              jobsCount := cfgs.length,
              world := { heap := heap, calls := [], crashed := [] } } ∧
      Materialized cfgs heap ∧
      execOrder fuel { execOrderJobs := [],
                       frontJobs := (ConstructGraph cfgs).frontJobsIds.reverse,
                       jobsCount := cfgs.length,
                       world := { heap := heap, calls := [], crashed := [] } } = .ok order ∧
      order.Nodup ∧ (∀ x, x ∈ order ↔ x ∈ ids cfgs) ∧
      Discovered cfgs (ConstructGraph cfgs).frontJobsIds.reverse order := by
  obtain ⟨N, hN⟩ := construct_spec cfgs hw ha
  refine ⟨max N ((ConstructGraph cfgs).frontJobsIds.length + cfgs.length), fun fuel hfuel => ?_⟩
  obtain ⟨heap, hcons, hmat⟩ := hN fuel (le_trans (le_max_left _ _) hfuel)
  have horigin : ∀ x ∈ (ConstructGraph cfgs).frontJobsIds.reverse, x ∈ ids cfgs := by
    intro x hx
    exact ((mem_frontJobsIds cfgs x).mp (List.mem_reverse.mp hx)).1
  obtain ⟨order, hbfs, hnd, hdisc, hsub, hids, hcl⟩ :=
    bfs_spec cfgs hw heap (materialized_wired cfgs heap hmat)
      (ConstructGraph cfgs).frontJobsIds.reverse
      (List.nodup_reverse.mpr (frontJobsIds_nodup cfgs hw.1)) horigin fuel
      (by simpa using le_trans (le_max_right _ _) hfuel)
  refine ⟨heap, order, hcons, hmat, ?_, hnd, ?_, hdisc⟩
  · simp only [execOrder, List.isEmpty_nil, if_true, hbfs]
  · intro x
    refine ⟨hids x, fun hx => ?_⟩
    obtain ⟨f, hf, hreach⟩ := reachable_from_front cfgs ha x hx
    have hfo : f ∈ order := hsub f (List.mem_reverse.mpr hf)
    clear hf hx
    induction hreach with
    | refl => exact hfo
    | tail _ hstep ih => exact hcl _ ih _ hstep

/-! ## Facts about `Job::launch` -/

theorem resultOf_mapPut (heap : Heap) (x : Nat) (job : Job) (k : Nat) :
    resultOf (mapPut x job heap) k = if x = k then job.result else resultOf heap k := by
  unfold resultOf
  rw [mapFind_mapPut]
  by_cases h : x = k <;> simp [h]

theorem thereAreReqResults_spec (cfgs : List Config) (heap : Heap) (hwired : Wired cfgs heap)
    (l : List Nat) (hl : ∀ p ∈ l, p ∈ ids cfgs) :
    (thereAreReqResults heap l = .ok true ∧ ∀ p ∈ l, (resultOf heap p).isSome) ∨
      thereAreReqResults heap l = .ok false := by
  induction l with
  | nil => exact Or.inl ⟨rfl, fun p hp => absurd hp (List.not_mem_nil p)⟩
  | cons p rest ih =>
    obtain ⟨c, hc, hcid, r, hfind⟩ := wired_find cfgs heap hwired p (hl p (List.mem_cons_self _ _))
    have hres : resultOf heap p = r := by simp [resultOf, hfind]
    cases r with
    | none =>
      right
      simp [thereAreReqResults, hfind]
    | some v =>
      rcases ih (fun q hq => hl q (List.mem_cons_of_mem _ hq)) with ⟨h1, h2⟩ | h1
      · left
        refine ⟨by simp [thereAreReqResults, hfind, h1], fun q hq => ?_⟩
        rcases List.mem_cons.mp hq with rfl | hq
        · simp [hres]
        · exact h2 q hq
      · right
        simp [thereAreReqResults, hfind, h1]

/-- Wrapping an intermediate sum does not change what the whole sum wraps to. -/
theorem toInt32_add_left (a v : Int) : toInt32 (toInt32 a + v) = toInt32 (a + v) := by
  unfold toInt32
  omega

/-- An integer in the range of `int` is stored as itself. -/
theorem toInt32_of_range (x : Int) (h1 : -2147483648 ≤ x) (h2 : x ≤ 2147483647) :
    toInt32 x = x := by
  unfold toInt32
  omega

/-- Every `int` is in range and has the residue of the integer it stands for. -/
theorem toInt32_range (x : Int) :
    -2147483648 ≤ toInt32 x ∧ toInt32 x ≤ 2147483647 ∧
      (toInt32 x - x) % 4294967296 = 0 := by
  unfold toInt32
  omega

theorem addReqResults_spec (cfgs : List Config) (heap : Heap) (hwired : Wired cfgs heap)
    (l : List Nat) (hl : ∀ p ∈ l, p ∈ ids cfgs) (hres : ∀ p ∈ l, (resultOf heap p).isSome)
    (acc : Int) :
    addReqResults heap l (toInt32 acc) =
      .ok (toInt32 (acc + (l.map (fun p => (resultOf heap p).getD 0)).sum)) := by
  induction l generalizing acc with
  | nil => simp [addReqResults]
  | cons p rest ih =>
    obtain ⟨c, hc, hcid, r, hfind⟩ := wired_find cfgs heap hwired p (hl p (List.mem_cons_self _ _))
    have hr : resultOf heap p = r := by simp [resultOf, hfind]
    have hsome := hres p (List.mem_cons_self _ _)
    rw [hr] at hsome
    obtain ⟨v, rfl⟩ := Option.isSome_iff_exists.mp hsome
    simp only [addReqResults, hfind, List.map_cons, List.sum_cons, hr, Option.getD_some]
    rw [toInt32_add_left, ih (fun q hq => hl q (List.mem_cons_of_mem _ hq))
      (fun q hq => hres q (List.mem_cons_of_mem _ hq))]
    congr 2
    ring

theorem ext_refl (cfgs : List Config) (roots : List Nat) (w : World) : Ext cfgs roots w w :=
  { calls := ⟨[], by simp, fun k hk => absurd hk (List.not_mem_nil k)⟩
    kept := fun _ _ h => h
    crashed := rfl }

theorem ext_trans (cfgs : List Config) (roots1 roots2 roots : List Nat) (w1 w2 w3 : World)
    (h12 : Ext cfgs roots1 w1 w2) (h23 : Ext cfgs roots2 w2 w3)
    (hsub1 : ∀ x ∈ roots1, ∃ y ∈ roots, Relation.ReflTransGen (Requires cfgs) y x)
    (hsub2 : ∀ x ∈ roots2, ∃ y ∈ roots, Relation.ReflTransGen (Requires cfgs) y x) :
    Ext cfgs roots w1 w3 := by
  obtain ⟨new1, hc1, hn1⟩ := h12.calls
  obtain ⟨new2, hc2, hn2⟩ := h23.calls
  refine
    { calls := ⟨new1 ++ new2, by rw [hc2, hc1, List.append_assoc], fun k hk => ?_⟩
      kept := fun k r h => h23.kept k r (h12.kept k r h)
      crashed := h23.crashed.trans h12.crashed }
  rcases List.mem_append.mp hk with h | h
  · obtain ⟨x, hx, hxk⟩ := hn1 k h
    obtain ⟨y, hy, hyx⟩ := hsub1 x hx
    exact ⟨y, hy, hyx.trans hxk⟩
  · obtain ⟨x, hx, hxk⟩ := hn2 k h
    obtain ⟨y, hy, hyx⟩ := hsub2 x hx
    exact ⟨y, hy, hyx.trans hxk⟩

theorem resultOf_mapPut_of_present (heap : Heap) (x : Nat) (job : Job)
    (hx : resultOf heap x = none) (p : Nat) (hp : (resultOf heap p).isSome) :
    resultOf (mapPut x job heap) p = resultOf heap p := by
  rw [resultOf_mapPut]
  have hne : ¬ x = p := by
    intro e
    rw [← e, hx] at hp
    exact absurd hp (by simp)
  simp [hne]

theorem launchJobProcess_spec (cfgs : List Config) (hw : WellFormed cfgs)
    (exec : Nat → Option Int) (w : World) (hg : Good cfgs exec w) (c : Config) (hc : c ∈ cfgs)
    (hnone : resultOf w.heap c.id = none)
    (hreqs : ∀ p ∈ c.jobReqIds, (resultOf w.heap p).isSome) :
    LaunchPost cfgs exec [c.id] w (launchJobProcess exec c.id w) := by
  have hcid : c.id ∈ ids cfgs := List.mem_map_of_mem _ hc
  obtain ⟨r, hfind⟩ := hg.wired c hc
  have hr : r = none := by
    have : resultOf w.heap c.id = r := by simp [resultOf, hfind]
    rw [← this, hnone]
  subst hr
  have hroot : ∃ x ∈ [c.id], Relation.ReflTransGen (Requires cfgs) x c.id :=
    ⟨c.id, List.mem_singleton.mpr rfl, Relation.ReflTransGen.refl⟩
  cases hexec : exec c.id with
  | none =>
    right
    refine ⟨by simp [launchJobProcess, hfind, hexec], c.id, w, hg, ext_refl cfgs _ w, hroot,
      hcid, hexec, hnone, ?_⟩
    simp [launchJobProcess, hfind, hexec]
  | some base =>
    have hadd := addReqResults_spec cfgs w.heap hg.wired c.jobReqIds.reverse
      (fun p hp => hw.2.2 c hc p (List.mem_reverse.mp hp))
      (fun p hp => hreqs p (List.mem_reverse.mp hp)) base
    rw [List.map_reverse, List.sum_reverse] at hadd
    have hrun : launchJobProcess exec c.id w =
        ({ heap := mapPut c.id ⟨c.id, some (toInt32 (base +
              (c.jobReqIds.map (fun p => (resultOf w.heap p).getD 0)).sum)),
              c.jobReqIds.reverse⟩ w.heap,
           calls := w.calls ++ [c.id], crashed := w.crashed }, none) := by
      simp [launchJobProcess, hfind, hexec, hadd]
    rw [hrun]
    have hsame : ∀ c' ∈ cfgs, ∀ p ∈ c'.jobReqIds, (resultOf w.heap p).isSome →
        resultOf (mapPut c.id ⟨c.id, some (toInt32 (base +
              (c.jobReqIds.map (fun p => (resultOf w.heap p).getD 0)).sum)),
              c.jobReqIds.reverse⟩ w.heap) p = resultOf w.heap p :=
      fun c' _ p _ hp => resultOf_mapPut_of_present w.heap c.id _ hnone p hp
    have hnotin : c.id ∉ w.calls := by
      intro hin
      have := (hg.calls_iff c.id hcid).mp hin
      rw [hnone] at this
      exact absurd this (by simp)
    left
    refine ⟨rfl, ?_, ?_, ?_⟩
    · refine
        { wired := ?_, law := ?_, nodup := ?_, calls_sub := ?_, calls_iff := ?_ }
      · intro c' hc'
        by_cases hid : c.id = c'.id
        · have hcc := config_unique cfgs hw.1 c c' hc hc' hid
          subst hcc
          exact ⟨some (toInt32 (base +
            (c.jobReqIds.map (fun p => (resultOf w.heap p).getD 0)).sum)),
            by simp only [mapFind_mapPut, if_true]⟩
        · obtain ⟨r', hr'⟩ := hg.wired c' hc'
          exact ⟨r', by simp only [mapFind_mapPut, hid, if_false, hr']⟩
      · intro c' hc' r' hr'
        by_cases hid : c.id = c'.id
        · have hcc := config_unique cfgs hw.1 c c' hc hc' hid
          subst hcc
          simp only [resultOf_mapPut, if_true, Option.some.injEq] at hr'
          refine ⟨base, hexec, fun p hp => ?_, ?_⟩
          · rw [hsame c hc p hp (hreqs p hp)]
            exact hreqs p hp
          · rw [← hr']
            congr 3
            apply List.map_congr_left
            intro p hp
            rw [hsame c hc p hp (hreqs p hp)]
        · simp only [resultOf_mapPut, hid, if_false] at hr'
          obtain ⟨b', hb', hall', hsum'⟩ := hg.law c' hc' r' hr'
          refine ⟨b', hb', fun p hp => ?_, ?_⟩
          · rw [hsame c' hc' p hp (hall' p hp)]
            exact hall' p hp
          · rw [hsum']
            congr 3
            apply List.map_congr_left
            intro p hp
            rw [hsame c' hc' p hp (hall' p hp)]
      · show (w.calls ++ [c.id]).Nodup
        rw [List.nodup_append]
        refine ⟨hg.nodup, List.nodup_singleton _, ?_⟩
        intro k hk1 hk2
        rw [List.mem_singleton] at hk2
        exact hnotin (hk2 ▸ hk1)
      · intro k hk
        rcases List.mem_append.mp hk with h | h
        · exact hg.calls_sub k h
        · rw [List.mem_singleton] at h
          exact h ▸ hcid
      · intro k hk
        show k ∈ w.calls ++ [c.id] ↔ _
        simp only [resultOf_mapPut, List.mem_append, List.mem_singleton]
        by_cases hid : c.id = k
        · simp [hid]
        · have hid' : ¬ k = c.id := fun e => hid e.symm
          simp only [hid, hid', if_false, or_false]
          exact hg.calls_iff k hk
    · refine
        { calls := ⟨[c.id], rfl, fun k hk => ?_⟩, kept := ?_, crashed := rfl }
      · rw [List.mem_singleton] at hk
        subst hk
        exact hroot
      · intro k r hkr
        rw [resultOf_mapPut_of_present w.heap c.id _ hnone k (by simp [hkr])]
        exact hkr
    · intro x hx
      rw [List.mem_singleton] at hx
      subst hx
      simp [resultOf_mapPut]

theorem ext_reroot (cfgs : List Config) (roots1 roots : List Nat) (w w' : World)
    (h : Ext cfgs roots1 w w')
    (hsub : ∀ x ∈ roots1, ∃ y ∈ roots, Relation.ReflTransGen (Requires cfgs) y x) :
    Ext cfgs roots w w' :=
  ext_trans cfgs roots1 roots1 roots w w' w' h (ext_refl cfgs roots1 w') hsub hsub

theorem failedFrom_reroot (cfgs : List Config) (exec : Nat → Option Int)
    (roots1 roots2 roots : List Nat) (w w1 w' : World) (F : Nat)
    (h1 : Ext cfgs roots1 w w1) (h2 : FailedFrom cfgs exec roots2 w1 w' F)
    (hsub1 : ∀ x ∈ roots1, ∃ y ∈ roots, Relation.ReflTransGen (Requires cfgs) y x)
    (hsub2 : ∀ x ∈ roots2, ∃ y ∈ roots, Relation.ReflTransGen (Requires cfgs) y x) :
    FailedFrom cfgs exec roots w w' F := by
  obtain ⟨w0, hg0, hext0, ⟨x, hx, hxF⟩, hF, hexec, hres, heq⟩ := h2
  obtain ⟨y, hy, hyx⟩ := hsub2 x hx
  exact ⟨w0, hg0, ext_trans cfgs roots1 roots2 roots w w1 w0 h1 hext0 hsub1 hsub2,
    ⟨y, hy, hyx.trans hxF⟩, hF, hexec, hres, heq⟩

theorem launchPost_chain (cfgs : List Config) (exec : Nat → Option Int)
    (roots1 roots2 roots : List Nat) (w w1 : World) (res : World × Option Error)
    (h1 : Ext cfgs roots1 w w1) (h2 : LaunchPost cfgs exec roots2 w1 res)
    (hsub1 : ∀ x ∈ roots1, ∃ y ∈ roots, Relation.ReflTransGen (Requires cfgs) y x)
    (hsub2 : ∀ x ∈ roots2, ∃ y ∈ roots, Relation.ReflTransGen (Requires cfgs) y x)
    (hres : ∀ x ∈ roots, x ∈ roots2 ∨ (resultOf w1.heap x).isSome) :
    LaunchPost cfgs exec roots w res := by
  rcases h2 with ⟨he, hg, hext, hall⟩ | ⟨he, F, hfail⟩
  · left
    refine ⟨he, hg, ext_trans cfgs roots1 roots2 roots w w1 res.1 h1 hext hsub1 hsub2, ?_⟩
    intro x hx
    rcases hres x hx with h | h
    · exact hall x h
    · obtain ⟨v, hv⟩ := Option.isSome_iff_exists.mp h
      rw [hext.kept x v hv]
      rfl
  · right
    exact ⟨he, F, failedFrom_reroot cfgs exec roots1 roots2 roots w w1 res.1 F h1 hfail
      hsub1 hsub2⟩

theorem reach_of_mem (cfgs : List Config) (l roots : List Nat) (h : ∀ x ∈ l, x ∈ roots) :
    ∀ x ∈ l, ∃ y ∈ roots, Relation.ReflTransGen (Requires cfgs) y x :=
  fun x hx => ⟨x, h x hx, Relation.ReflTransGen.refl⟩

theorem launchParentJobsLoop_spec (cfgs : List Config) (exec : Nat → Option Int)
    (call : Nat → World → World × Option Error) (l : List Nat)
    (hcall : ∀ p ∈ l, ∀ w, Good cfgs exec w → LaunchPost cfgs exec [p] w (call p w))
    (w : World) (hg : Good cfgs exec w) :
    LaunchPost cfgs exec l w (launchParentJobsLoop call l w) := by
  induction l generalizing w with
  | nil =>
    exact Or.inl ⟨rfl, hg, ext_refl cfgs _ w, fun x hx => absurd hx (List.not_mem_nil x)⟩
  | cons p rest ih =>
    have hpost := hcall p (List.mem_cons_self _ _) w hg
    have hrest := fun q hq => hcall q (List.mem_cons_of_mem _ hq)
    have hsubp : ∀ x ∈ [p], ∃ y ∈ p :: rest, Relation.ReflTransGen (Requires cfgs) y x :=
      reach_of_mem cfgs _ _ (fun x hx => by
        rw [List.mem_singleton] at hx
        exact hx ▸ List.mem_cons_self _ _)
    have hsubr : ∀ x ∈ rest, ∃ y ∈ p :: rest, Relation.ReflTransGen (Requires cfgs) y x :=
      reach_of_mem cfgs _ _ (fun x hx => List.mem_cons_of_mem _ hx)
    rcases hres : call p w with ⟨w1, e⟩
    rw [hres] at hpost
    rcases hpost with ⟨he, hg1, hext1, hall1⟩ | ⟨he, F, hfail⟩
    · simp only at he hg1 hext1 hall1
      subst he
      have hloop : launchParentJobsLoop call (p :: rest) w =
          launchParentJobsLoop call rest w1 := by
        simp only [launchParentJobsLoop, hres]
      rw [hloop]
      apply launchPost_chain cfgs exec [p] rest (p :: rest) w w1 _ hext1 (ih hrest w1 hg1)
        hsubp hsubr
      intro x hx
      rcases List.mem_cons.mp hx with rfl | hx
      · exact Or.inr (hall1 x (List.mem_singleton.mpr rfl))
      · exact Or.inl hx
    · simp only at he hfail
      subst he
      have hloop : launchParentJobsLoop call (p :: rest) w = (w1, some .jobFailed) := by
        simp only [launchParentJobsLoop, hres]
      rw [hloop]
      right
      exact ⟨rfl, F, failedFrom_reroot cfgs exec [] [p] (p :: rest) w w w1 F
        (ext_refl cfgs _ w) hfail (fun x hx => absurd hx (List.not_mem_nil x)) hsubp⟩

/-- In a well-formed acyclic descriptor set `Job::launch` on job `x` returns or throws,
given enough fuel, from every state of a run without a failure so far. -/
theorem launch_spec (cfgs : List Config) (hw : WellFormed cfgs) (ha : Acyclic cfgs)
    (exec : Nat → Option Int) (x : Nat) (hx : x ∈ ids cfgs) :
    ∃ N, ∀ fuel, N ≤ fuel → ∀ w, Good cfgs exec w →
      LaunchPost cfgs exec [x] w (Job.launch exec fuel x w) := by
  induction x using (prereq_wellFounded cfgs hw.2.2 ha).induction with
  | _ x ih =>
    obtain ⟨c, hc, rfl⟩ := List.mem_map.mp hx
    obtain ⟨N, hN⟩ := exists_fuel_forall_mem
      (fun fuel q => ∀ w, Good cfgs exec w →
        LaunchPost cfgs exec [q] w (Job.launch exec fuel q w))
      c.jobReqIds (fun q hq => ih q ⟨c, hc, rfl, hq⟩ (hw.2.2 c hc q hq))
    refine ⟨N + 1, fun fuel hfuel w hg => ?_⟩
    obtain ⟨fuel', rfl⟩ : ∃ fuel', fuel = fuel' + 1 := ⟨fuel - 1, by omega⟩
    obtain ⟨r, hfind⟩ := hg.wired c hc
    have hresult : resultOf w.heap c.id = r := by simp [resultOf, hfind]
    have hself : ∀ y ∈ [c.id], ∃ z ∈ [c.id], Relation.ReflTransGen (Requires cfgs) z y :=
      reach_of_mem cfgs _ _ (fun y hy => hy)
    cases r with
    | some v =>
      have : Job.launch exec (fuel' + 1) c.id w = (w, none) := by
        simp [Job.launch, hfind]
      rw [this]
      refine Or.inl ⟨rfl, hg, ext_refl cfgs _ w, fun y hy => ?_⟩
      rw [List.mem_singleton] at hy
      subst hy
      simp [hresult]
    | none =>
      have hrev : ∀ p ∈ c.jobReqIds.reverse, p ∈ ids cfgs :=
        fun p hp => hw.2.2 c hc p (List.mem_reverse.mp hp)
      rcases thereAreReqResults_spec cfgs w.heap hg.wired c.jobReqIds.reverse hrev with
        ⟨htrue, hall⟩ | hfalse
      · have : Job.launch exec (fuel' + 1) c.id w = launchJobProcess exec c.id w := by
          simp [Job.launch, hfind, htrue]
        rw [this]
        exact launchJobProcess_spec cfgs hw exec w hg c hc hresult
          (fun p hp => hall p (List.mem_reverse.mpr hp))
      · have hparents := launchParentJobsLoop_spec cfgs exec (Job.launch exec fuel')
          c.jobReqIds.reverse
          (fun p hp => hN fuel' (by omega) p (List.mem_reverse.mp hp)) w hg
        have hreach : ∀ p ∈ c.jobReqIds.reverse,
            ∃ z ∈ [c.id], Relation.ReflTransGen (Requires cfgs) z p :=
          fun p hp => ⟨c.id, List.mem_singleton.mpr rfl,
            Relation.ReflTransGen.single ⟨c, hc, rfl, List.mem_reverse.mp hp⟩⟩
        rcases hres : launchParentJobsLoop (Job.launch exec fuel') c.jobReqIds.reverse w with
          ⟨w1, e⟩
        rw [hres] at hparents
        rcases hparents with ⟨he, hg1, hext1, hall1⟩ | ⟨he, F, hfail⟩
        · simp only at he hg1 hext1 hall1
          subst he
          have : Job.launch exec (fuel' + 1) c.id w = launchJobProcess exec c.id w1 := by
            simp [Job.launch, hfind, hfalse, hres]
          rw [this]
          have hnone1 : resultOf w1.heap c.id = none := by
            by_contra hne
            have hsome : (resultOf w1.heap c.id).isSome := by
              cases h : resultOf w1.heap c.id with
              | none => exact absurd h hne
              | some v => rfl
            have hin := (hg1.calls_iff c.id hx).mpr hsome
            obtain ⟨new, hnew, hreachNew⟩ := hext1.calls
            rw [hnew] at hin
            rcases List.mem_append.mp hin with h | h
            · have := (hg.calls_iff c.id hx).mp h
              rw [hresult] at this
              exact absurd this (by simp)
            · obtain ⟨p, hp, hpc⟩ := hreachNew c.id h
              have hcp : Requires cfgs c.id p := ⟨c, hc, rfl, List.mem_reverse.mp hp⟩
              exact ha c.id (Relation.TransGen.head' hcp hpc)
          apply launchPost_chain cfgs exec c.jobReqIds.reverse [c.id] [c.id] w w1 _ hext1
            (launchJobProcess_spec cfgs hw exec w1 hg1 c hc hnone1
              (fun p hp => hall1 p (List.mem_reverse.mpr hp))) hreach hself
          intro y hy
          exact Or.inl hy
        · simp only at he hfail
          subst he
          have : Job.launch exec (fuel' + 1) c.id w = (w1, some .jobFailed) := by
            simp [Job.launch, hfind, hfalse, hres]
          rw [this]
          right
          exact ⟨rfl, F, failedFrom_reroot cfgs exec [] c.jobReqIds.reverse [c.id] w w w1 F
            (ext_refl cfgs _ w) hfail (fun y hy => absurd hy (List.not_mem_nil y)) hreach⟩

/-! ## Facts about `DAGJobs::launch` -/

theorem launchJobsInOrder_spec (cfgs : List Config) (exec : Nat → Option Int) (fuel : Nat)
    (hlaunch : ∀ x ∈ ids cfgs, ∀ w, Good cfgs exec w →
      LaunchPost cfgs exec [x] w (Job.launch exec fuel x w))
    (order : List Nat) (horder : ∀ x ∈ order, x ∈ ids cfgs) (w : World)
    (hg : Good cfgs exec w) :
    ∃ w', launchJobsInOrder exec fuel order w = .ok w' ∧ RunPost cfgs exec order w w' := by
  induction order generalizing w with
  | nil =>
    exact ⟨w, rfl, Or.inl ⟨hg, ext_refl cfgs _ w, fun x hx => absurd hx (List.not_mem_nil x)⟩⟩
  | cons T rest ih =>
    have hT := horder T (List.mem_cons_self _ _)
    have hpost := hlaunch T hT w hg
    have hsubT : ∀ x ∈ [T], ∃ y ∈ T :: rest, Relation.ReflTransGen (Requires cfgs) y x :=
      reach_of_mem cfgs _ _ (fun x hx => by
        rw [List.mem_singleton] at hx
        exact hx ▸ List.mem_cons_self _ _)
    rcases hres : Job.launch exec fuel T w with ⟨w1, e⟩
    rw [hres] at hpost
    rcases hpost with ⟨he, hg1, hext1, hall1⟩ | ⟨he, F, hfail⟩
    · simp only at he hg1 hext1 hall1
      subst he
      obtain ⟨w', hrun, hpost'⟩ := ih (fun x hx => horder x (List.mem_cons_of_mem _ hx)) w1 hg1
      refine ⟨w', by simp only [launchJobsInOrder, hres, hrun], ?_⟩
      have hT1 : (resultOf w1.heap T).isSome := hall1 T (List.mem_singleton.mpr rfl)
      obtain ⟨v, hv⟩ := Option.isSome_iff_exists.mp hT1
      rcases hpost' with ⟨hg', hext', hall'⟩ | ⟨T', F, before, after, w0, hsplit, hg0, hext0,
          hbefore, hreach, hF, hexec, hnone, heq⟩
      · left
        refine ⟨hg', ext_trans cfgs [T] rest (T :: rest) w w1 w' hext1 hext' hsubT
          (reach_of_mem cfgs _ _ (fun x hx => List.mem_cons_of_mem _ hx)), fun x hx => ?_⟩
        rcases List.mem_cons.mp hx with rfl | hx
        · rw [hext'.kept x v hv]
          rfl
        · exact hall' x hx
      · right
        refine ⟨T', F, T :: before, after, w0, by simp [hsplit], hg0, ?_, ?_, hreach, hF,
          hexec, hnone, heq⟩
        · exact ext_trans cfgs [T] (before ++ [T']) (T :: before ++ [T']) w w1 w0 hext1 hext0
            (reach_of_mem cfgs _ _ (fun x hx => by
              rw [List.mem_singleton] at hx
              exact hx ▸ List.mem_cons_self _ _))
            (reach_of_mem cfgs _ _ (fun x hx => List.mem_cons_of_mem _ hx))
        · intro x hx
          rcases List.mem_cons.mp hx with rfl | hx
          · rw [hext0.kept x v hv]
            rfl
          · exact hbefore x hx
    · simp only at he hfail
      subst he
      obtain ⟨w0, hg0, hext0, ⟨x, hx, hxF⟩, hF, hexec, hnone, heq⟩ := hfail
      rw [List.mem_singleton] at hx
      subst hx
      obtain ⟨c, hc, hcid, r, hfind⟩ := wired_find cfgs w0.heap hg0.wired x hT
      have hfind1 : mapFind w1.heap x = some ⟨x, r, c.jobReqIds.reverse⟩ := by
        rw [heq]
        exact hfind
      refine ⟨{ heap := w0.heap, calls := w0.calls ++ [F], crashed := w0.crashed ++ [x] },
        ?_, Or.inr ⟨x, F, [], rest, w0, rfl, hg0, hext0,
          fun y hy => absurd hy (List.not_mem_nil y), hxF, hF, hexec, hnone, rfl⟩⟩
      simp only [launchJobsInOrder, hres, hfind1]
      simp [heq]

theorem good_materialized (cfgs : List Config) (exec : Nat → Option Int) (heap : Heap)
    (hmat : Materialized cfgs heap) :
    Good cfgs exec { heap := heap, calls := [], crashed := [] } := by
  have hnone : ∀ k ∈ ids cfgs, resultOf heap k = none := by
    intro k hk
    obtain ⟨c, hc, rfl⟩ := List.mem_map.mp hk
    simp [resultOf, hmat c hc]
  refine
    { wired := materialized_wired cfgs heap hmat, law := ?_, nodup := List.nodup_nil,
      calls_sub := fun k hk => absurd hk (List.not_mem_nil k), calls_iff := ?_ }
  · intro c hc r hr
    rw [hnone c.id (List.mem_map_of_mem _ hc)] at hr
    exact absurd hr (by simp)
  · intro k hk
    simp [hnone k hk]

/-- For a well-formed acyclic descriptor set and any executor, given enough fuel: the
constructor succeeds, `launch` returns, the execution order it stores holds every job
once, and the run ends with a result for every job or halted at a failure. -/
theorem run_spec (cfgs : List Config) (hw : WellFormed cfgs) (ha : Acyclic cfgs)
    (exec : Nat → Option Int) :
    ∃ N, ∀ fuel, N ≤ fuel → ∃ d heap order w',
      DAGJobs.construct fuel cfgs = .ok d ∧
      d = { execOrderJobs := [], frontJobs := (ConstructGraph cfgs).frontJobsIds.reverse,
            jobsCount := cfgs.length,
            world := { heap := heap, calls := [], crashed := [] } } ∧
      Materialized cfgs heap ∧ execOrder fuel d = .ok order ∧ order.Nodup ∧
      (∀ x, x ∈ order ↔ x ∈ ids cfgs) ∧
      Discovered cfgs (ConstructGraph cfgs).frontJobsIds.reverse order ∧
      DAGJobs.launch exec fuel d = .ok { d with execOrderJobs := order, world := w' } ∧
      RunPost cfgs exec order d.world w' := by
  obtain ⟨N1, hN1⟩ := execOrder_spec cfgs hw ha
  obtain ⟨N2, hN2⟩ := exists_fuel_forall_mem
    (fun fuel x => ∀ w, Good cfgs exec w →
      LaunchPost cfgs exec [x] w (Job.launch exec fuel x w))
    (ids cfgs) (fun x hx => launch_spec cfgs hw ha exec x hx)
  refine ⟨max N1 N2, fun fuel hfuel => ?_⟩
  obtain ⟨heap, order, hcons, hmat, horder, hnd, hmem, hdisc⟩ :=
    hN1 fuel (le_trans (le_max_left _ _) hfuel)
  obtain ⟨w', hrun, hpost⟩ := launchJobsInOrder_spec cfgs exec fuel
    (hN2 fuel (le_trans (le_max_right _ _) hfuel)) order (fun x hx => (hmem x).mp hx)
    { heap := heap, calls := [], crashed := [] } (good_materialized cfgs exec heap hmat)
  refine ⟨_, heap, order, w', hcons, rfl, hmat, horder, hnd, hmem, hdisc, ?_, hpost⟩
  simp only [DAGJobs.launch, horder, hrun]

/-! ## Claims about job execution -/

/-- C4 (counterexample): for the well-formed acyclic descriptors `0: [1], 1: []` and the
executor with the base values 1 for job `0` and 2147483647 for job `1`, the constructor
succeeds and `launch` returns without a crash report; job `1` has the result 2147483647
and job `0` has the result -2147483648, which is not `1 + 2147483647`: the addition
`result += jobReq->result->value` left the range of `int`. -/
theorem aggregation_law_overflow :
    WellFormed cfgsPair ∧ Acyclic cfgsPair ∧
      ∃ d d', DAGJobs.construct 3 cfgsPair = .ok d ∧ DAGJobs.launch execBig 3 d = .ok d' ∧
        d'.world.crashed = [] ∧ execBig 0 = some 1 ∧ execBig 1 = some 2147483647 ∧
        resultOf d'.world.heap 1 = some 2147483647 ∧
        resultOf d'.world.heap 0 = some (-2147483648) ∧
        ¬ ((-2147483648 : Int) = 1 + ([1].map (fun p => (resultOf d'.world.heap p).getD 0)).sum) :=
  ⟨by unfold WellFormed NoDangling ids cfgsPair; decide,
    acyclic_of_rank cfgsPair (fun x => 2 - x) (by unfold cfgsPair; decide),
    _, _, rfl, rfl, rfl, rfl, rfl, rfl, rfl, by decide⟩

/-- C4 (amended): result aggregation law in the arithmetic of `int`. For a well-formed
acyclic descriptor set and any executor, given enough fuel, the constructor succeeds and
`launch` returns, and afterwards every job with a cached result `r` satisfies: the
executor returned a base value for it, all its prerequisites have cached results, and `r`
is the `int` that the base value plus the sum of those results wraps to. So `r` is an
`int`, it differs from that integer sum by a multiple of `2 ^ 32`, and it equals the sum
exactly when the sum is in the range of `int`. -/
theorem aggregation_law (cfgs : List Config) (hw : WellFormed cfgs) (ha : Acyclic cfgs)
    (exec : Nat → Option Int) :
    ∃ N, ∀ fuel, N ≤ fuel → ∃ d d',
      DAGJobs.construct fuel cfgs = .ok d ∧ DAGJobs.launch exec fuel d = .ok d' ∧
      ∀ c ∈ cfgs, ∀ r, resultOf d'.world.heap c.id = some r →
        ∃ base, exec c.id = some base ∧
          (∀ p ∈ c.jobReqIds, (resultOf d'.world.heap p).isSome) ∧
          r = toInt32
            (base + (c.jobReqIds.map (fun p => (resultOf d'.world.heap p).getD 0)).sum) ∧
          (-2147483648 ≤ r ∧ r ≤ 2147483647) ∧
          (r - (base +
            (c.jobReqIds.map (fun p => (resultOf d'.world.heap p).getD 0)).sum)) %
              4294967296 = 0 ∧
          (r = base + (c.jobReqIds.map (fun p => (resultOf d'.world.heap p).getD 0)).sum ↔
            -2147483648 ≤
                base + (c.jobReqIds.map (fun p => (resultOf d'.world.heap p).getD 0)).sum ∧
              base + (c.jobReqIds.map (fun p => (resultOf d'.world.heap p).getD 0)).sum ≤
                2147483647) := by
  obtain ⟨N, hN⟩ := run_spec cfgs hw ha exec
  refine ⟨N, fun fuel hfuel => ?_⟩
  obtain ⟨d, heap, order, w', hcons, -, -, -, -, -, -, hlaunch, hpost⟩ := hN fuel hfuel
  refine ⟨d, _, hcons, hlaunch, ?_⟩
  have hlaw : ∀ c ∈ cfgs, LawAt exec
      (DAGJobs.mk order d.frontJobs d.jobsCount w').world.heap c := by
    rcases hpost with ⟨hg, -, -⟩ | ⟨T, F, before, after, w0, -, hg0, -, -, -, -, -, -, heq⟩
    · exact hg.law
    · intro c hc r hr
      rw [heq] at hr ⊢
      exact hg0.law c hc r hr
  intro c hc r hr
  obtain ⟨base, hbase, hall, hsum⟩ := hlaw c hc r hr
  have hrange := toInt32_range
    (base + (c.jobReqIds.map (fun p => (resultOf w'.heap p).getD 0)).sum)
  refine ⟨base, hbase, hall, hsum, ?_, ?_, ?_⟩
  · rw [hsum]
    exact ⟨hrange.1, hrange.2.1⟩
  · rw [hsum]
    exact hrange.2.2
  · constructor
    · intro h
      rw [← h, hsum]
      exact ⟨hrange.1, hrange.2.1⟩
    · intro h
      rw [hsum]
      exact toInt32_of_range _ h.1 h.2

/-- C4 (amended) at the descriptors `A: [], B: [], C: [A, B]` with the base values 2, 3
and 5: the theorem applies, and with fuel 4 the run gives `A` the result 2, `B` the
result 3 and `C`, which has prerequisites, the result `5 + 2 + 3 = 10`. -/
theorem aggregation_law_witness :
    (WellFormed cfgsABC ∧ Acyclic cfgsABC) ∧
    (∃ N, ∀ fuel, N ≤ fuel → ∃ d d',
      DAGJobs.construct fuel cfgsABC = .ok d ∧
      DAGJobs.launch execABC fuel d = .ok d' ∧
      ∀ c ∈ cfgsABC, ∀ r, resultOf d'.world.heap c.id = some r →
        ∃ base, execABC c.id = some base ∧
          (∀ p ∈ c.jobReqIds, (resultOf d'.world.heap p).isSome) ∧
          r = toInt32
            (base + (c.jobReqIds.map (fun p => (resultOf d'.world.heap p).getD 0)).sum) ∧
          (-2147483648 ≤ r ∧ r ≤ 2147483647) ∧
          (r - (base +
            (c.jobReqIds.map (fun p => (resultOf d'.world.heap p).getD 0)).sum)) %
              4294967296 = 0 ∧
          (r = base + (c.jobReqIds.map (fun p => (resultOf d'.world.heap p).getD 0)).sum ↔
            -2147483648 ≤
                base + (c.jobReqIds.map (fun p => (resultOf d'.world.heap p).getD 0)).sum ∧
              base + (c.jobReqIds.map (fun p => (resultOf d'.world.heap p).getD 0)).sum ≤
                2147483647)) ∧
    (∃ d d', DAGJobs.construct 4 cfgsABC = .ok d ∧ DAGJobs.launch execABC 4 d = .ok d' ∧
      resultOf d'.world.heap 0 = some 2 ∧ resultOf d'.world.heap 1 = some 3 ∧
      resultOf d'.world.heap 2 = some 10) :=
  ⟨⟨wellFormed_cfgsABC, acyclic_cfgsABC⟩,
    aggregation_law cfgsABC wellFormed_cfgsABC acyclic_cfgsABC execABC,
    _, _, rfl, rfl, rfl, rfl, rfl⟩

/-- C5: `Job::launch` is idempotent. On a job whose result is present it returns without
an exception and leaves the world as it was: no cached result changes and the executor is
invoked for no job. -/
theorem launch_idempotent (exec : Nat → Option Int) (fuel self : Nat) (w : World) (job : Job)
    (hjob : mapFind w.heap self = some job) (hres : job.result.isSome) :
    Job.launch exec (fuel + 1) self w = (w, none) := by
  simp [Job.launch, hjob, hres]

/-- C5 at a single job with the cached result 7. -/
theorem launch_idempotent_witness :
    Job.launch execABC 1 0 { heap := [(0, ⟨0, some 7, []⟩)], calls := [0], crashed := [] } =
      ({ heap := [(0, ⟨0, some 7, []⟩)], calls := [0], crashed := [] }, none) :=
  launch_idempotent execABC 0 0 { heap := [(0, ⟨0, some 7, []⟩)], calls := [0], crashed := [] }
    ⟨0, some 7, []⟩ rfl rfl

/-- C6: run exactly once. For a well-formed acyclic descriptor set and an executor that
never fails, given enough fuel, the constructor succeeds and `launch` returns without a
crash report; the executor has been invoked exactly once for each job and for nothing
else, and there is one cached value per job such that each job's value is the `int` that
its base value plus the sum of the cached values of its prerequisites wraps to, so all
dependents of a shared prerequisite added the same value. -/
theorem run_exactly_once (cfgs : List Config) (hw : WellFormed cfgs) (ha : Acyclic cfgs)
    (exec : Nat → Option Int) (hexec : ∀ k, (exec k).isSome) :
    ∃ N, ∀ fuel, N ≤ fuel → ∃ d d',
      DAGJobs.construct fuel cfgs = .ok d ∧ DAGJobs.launch exec fuel d = .ok d' ∧
      d'.world.crashed = [] ∧
      (∀ k ∈ ids cfgs, d'.world.calls.count k = 1) ∧
      (∀ k ∈ d'.world.calls, k ∈ ids cfgs) ∧
      ∃ value : Nat → Int, ∀ c ∈ cfgs, resultOf d'.world.heap c.id = some (value c.id) ∧
        ∃ base, exec c.id = some base ∧
          value c.id = toInt32 (base + (c.jobReqIds.map value).sum) := by
  obtain ⟨N, hN⟩ := run_spec cfgs hw ha exec
  refine ⟨N, fun fuel hfuel => ?_⟩
  obtain ⟨d, heap, order, w', hcons, hd, -, -, -, hmem, -, hlaunch, hpost⟩ := hN fuel hfuel
  refine ⟨d, _, hcons, hlaunch, ?_⟩
  rcases hpost with ⟨hg, hext, hall⟩ | ⟨T, F, before, after, w0, -, -, -, -, -, -, hnone, -⟩
  · have hres : ∀ k ∈ ids cfgs, (resultOf w'.heap k).isSome :=
      fun k hk => hall k ((hmem k).mpr hk)
    refine ⟨?_, ?_, hg.calls_sub, fun k => (resultOf w'.heap k).getD 0, ?_⟩
    · show w'.crashed = []
      rw [hext.crashed, hd]
    · intro k hk
      exact List.count_eq_one_of_mem hg.nodup ((hg.calls_iff k hk).mpr (hres k hk))
    · intro c hc
      obtain ⟨r, hr⟩ := Option.isSome_iff_exists.mp (hres c.id (List.mem_map_of_mem _ hc))
      obtain ⟨base, hbase, -, hsum⟩ := hg.law c hc r hr
      refine ⟨by simp [hr], base, hbase, ?_⟩
      simp only [hr, Option.getD_some]
      exact hsum
  · have := hexec F
    rw [hnone] at this
    exact absurd this (by simp)

/-- C6 at the descriptors `0: [1, 2, 3], 1: [2, 3], 2: [], 3: []`, where the jobs `2` and
`3` are prerequisites of both `0` and `1`, with the base values 2, 3, 5 and 5: the theorem
applies, and with fuel 5 the run invokes the executor in the order `3, 2, 1, 0`, once per
job, and stores `5`, `5`, `3 + 5 + 5 = 13` and `2 + 13 + 5 + 5 = 25`. -/
theorem run_exactly_once_witness :
    (WellFormed cfgsFan ∧ Acyclic cfgsFan ∧ ∀ k, (execABC k).isSome) ∧
    (∃ N, ∀ fuel, N ≤ fuel → ∃ d d',
      DAGJobs.construct fuel cfgsFan = .ok d ∧ DAGJobs.launch execABC fuel d = .ok d' ∧
      d'.world.crashed = [] ∧
      (∀ k ∈ ids cfgsFan, d'.world.calls.count k = 1) ∧
      (∀ k ∈ d'.world.calls, k ∈ ids cfgsFan) ∧
      ∃ value : Nat → Int, ∀ c ∈ cfgsFan, resultOf d'.world.heap c.id = some (value c.id) ∧
        ∃ base, execABC c.id = some base ∧
          value c.id = toInt32 (base + (c.jobReqIds.map value).sum)) ∧
    (∃ d d', DAGJobs.construct 5 cfgsFan = .ok d ∧ DAGJobs.launch execABC 5 d = .ok d' ∧
      d'.world.calls = [3, 2, 1, 0] ∧
      resultOf d'.world.heap 3 = some 5 ∧ resultOf d'.world.heap 2 = some 5 ∧
      resultOf d'.world.heap 1 = some 13 ∧ resultOf d'.world.heap 0 = some 25) :=
  ⟨⟨by unfold WellFormed NoDangling ids cfgsFan; decide,
      acyclic_of_rank cfgsFan (fun x => 4 - x) (by unfold cfgsFan; decide),
      fun k => by unfold execABC; split_ifs <;> rfl⟩,
    run_exactly_once cfgsFan (by unfold WellFormed NoDangling ids cfgsFan; decide)
      (acyclic_of_rank cfgsFan (fun x => 4 - x) (by unfold cfgsFan; decide)) execABC
      (fun k => by unfold execABC; split_ifs <;> rfl),
    _, _, rfl, rfl, rfl, rfl, rfl, rfl, rfl⟩

/-- C7 (counterexample): for the well-formed acyclic descriptors
`0: [1, 2, 3], 1: [2, 3], 2: [], 3: []` the execution order is `[1, 2, 3, 0]`. With an
executor that fails for job `2`, `launch()` of job `1` first launches its prerequisite `3`
and then `2`: job `3`, positioned after the failing job `2`, has had its executor invoked
and its result set. -/
theorem halt_after_later_job_ran :
    WellFormed cfgsFan ∧ Acyclic cfgsFan ∧
      ∃ d d', DAGJobs.construct 5 cfgsFan = .ok d ∧
        DAGJobs.launch execFailsAtTwo 5 d = .ok d' ∧
        d'.execOrderJobs = [1, 2, 3, 0] ∧ execFailsAtTwo 2 = none ∧
        d'.world.calls = [3, 2] ∧ resultOf d'.world.heap 3 = some 4 ∧
        d'.world.crashed = [1] :=
  ⟨by unfold WellFormed NoDangling ids cfgsFan; decide,
    acyclic_of_rank cfgsFan (fun x => 4 - x) (by unfold cfgsFan; decide),
    _, _, rfl, rfl, rfl, rfl, rfl, rfl, rfl⟩

/-- C7 (amended): halt on failure. For a well-formed acyclic descriptor set and any
executor, given enough fuel, the constructor succeeds and `launch` returns, and if the
executor failed for a job `F` then that invocation is the last one of the run: the
scheduler left its loop at the job `T` of the order whose `launch()` threw and reported it,
every invocation before `F` succeeded, the jobs with a result are exactly the jobs invoked
before `F`, and the executor was invoked only for jobs positioned at or before `T` and for
their direct and transitive prerequisites. -/
theorem halt_on_failure (cfgs : List Config) (hw : WellFormed cfgs) (ha : Acyclic cfgs)
    (exec : Nat → Option Int) :
    ∃ N, ∀ fuel, N ≤ fuel → ∃ d d',
      DAGJobs.construct fuel cfgs = .ok d ∧ DAGJobs.launch exec fuel d = .ok d' ∧
      ∀ F ∈ d'.world.calls, exec F = none →
        ∃ before T after pre, d'.execOrderJobs = before ++ T :: after ∧
          d'.world.crashed = [T] ∧ d'.world.calls = pre ++ [F] ∧
          (∀ k ∈ pre, (exec k).isSome) ∧
          (∀ k ∈ ids cfgs, (resultOf d'.world.heap k).isSome ↔ k ∈ pre) ∧
          ∀ k ∈ d'.world.calls,
            ∃ x ∈ before ++ [T], Relation.ReflTransGen (Requires cfgs) x k := by
  obtain ⟨N, hN⟩ := run_spec cfgs hw ha exec
  refine ⟨N, fun fuel hfuel => ?_⟩
  obtain ⟨d, heap, order, w', hcons, hd, -, -, -, -, -, hlaunch, hpost⟩ := hN fuel hfuel
  refine ⟨d, _, hcons, hlaunch, ?_⟩
  have hsucc : ∀ w0, Good cfgs exec w0 → ∀ k ∈ w0.calls, (exec k).isSome := by
    intro w0 hg0 k hk
    have hkid := hg0.calls_sub k hk
    obtain ⟨r, hr⟩ := Option.isSome_iff_exists.mp ((hg0.calls_iff k hkid).mp hk)
    obtain ⟨c, hc, rfl⟩ := List.mem_map.mp hkid
    obtain ⟨base, hbase, -⟩ := hg0.law c hc r hr
    simp [hbase]
  intro F hF hexec
  rcases hpost with ⟨hg, -, -⟩ | ⟨T, F', before, after, w0, hsplit, hg0, hext0, -, hreach,
      hF', hexec', hnone', heq⟩
  · have := hsucc w' hg F hF
    rw [hexec] at this
    exact absurd this (by simp)
  · have hFF : F = F' := by
      have hin : F ∈ w0.calls ++ [F'] := by
        have : w'.calls = w0.calls ++ [F'] := by rw [heq]
        rw [← this]
        exact hF
      rcases List.mem_append.mp hin with h | h
      · have := hsucc w0 hg0 F h
        rw [hexec] at this
        exact absurd this (by simp)
      · exact List.mem_singleton.mp h
    subst hFF
    obtain ⟨new, hnew, hnewreach⟩ := hext0.calls
    have hcalls0 : w0.calls = new := by
      rw [hnew, hd]
      rfl
    refine ⟨before, T, after, w0.calls, hsplit, ?_, ?_, hsucc w0 hg0, ?_, ?_⟩
    · show w'.crashed = [T]
      rw [heq]
      show w0.crashed ++ [T] = [T]
      rw [hext0.crashed, hd]
      rfl
    · show w'.calls = w0.calls ++ [F]
      rw [heq]
    · intro k hk
      show (resultOf w'.heap k).isSome ↔ k ∈ w0.calls
      rw [heq]
      exact (hg0.calls_iff k hk).symm
    · intro k hk
      have hk' : k ∈ w0.calls ++ [F] := by
        have : w'.calls = w0.calls ++ [F] := by rw [heq]
        rw [← this]
        exact hk
      rcases List.mem_append.mp hk' with h | h
      · rw [hcalls0] at h
        exact hnewreach k h
      · rw [List.mem_singleton] at h
        subst h
        exact ⟨T, List.mem_append.mpr (Or.inr (List.mem_singleton.mpr rfl)), hreach⟩

/-- C7 (amended) at the descriptors `0: [1, 2, 3], 1: [2, 3], 2: [], 3: []` with an
executor that fails for job `2`. -/
theorem halt_on_failure_witness :
    ∃ N, ∀ fuel, N ≤ fuel → ∃ d d',
      DAGJobs.construct fuel cfgsFan = .ok d ∧
      DAGJobs.launch execFailsAtTwo fuel d = .ok d' ∧
      ∀ F ∈ d'.world.calls, execFailsAtTwo F = none →
        ∃ before T after pre, d'.execOrderJobs = before ++ T :: after ∧
          d'.world.crashed = [T] ∧ d'.world.calls = pre ++ [F] ∧
          (∀ k ∈ pre, (execFailsAtTwo k).isSome) ∧
          (∀ k ∈ ids cfgsFan, (resultOf d'.world.heap k).isSome ↔ k ∈ pre) ∧
          ∀ k ∈ d'.world.calls,
            ∃ x ∈ before ++ [T], Relation.ReflTransGen (Requires cfgsFan) x k :=
  halt_on_failure cfgsFan (by unfold WellFormed NoDangling ids cfgsFan; decide)
    (acyclic_of_rank cfgsFan (fun x => 4 - x) (by unfold cfgsFan; decide)) execFailsAtTwo

/-! ## Claims about the execution order -/

/-- C1 (counterexample): for the well-formed acyclic descriptors `0: [1, 2], 1: [2], 2: []`
the execution order that `launch` builds and stores is `[1, 2, 0]`, in which job `1` comes
before its prerequisite `2`, so the order is not topological. -/
theorem execOrder_not_topological :
    WellFormed cfgsTriangle ∧ Acyclic cfgsTriangle ∧
      ∃ d d', DAGJobs.construct 4 cfgsTriangle = .ok d ∧
        DAGJobs.launch execABC 4 d = .ok d' ∧ d'.execOrderJobs = [1, 2, 0] ∧
        ¬ IsTopological cfgsTriangle d'.execOrderJobs := by
  refine ⟨by unfold WellFormed NoDangling ids cfgsTriangle; decide,
    acyclic_of_rank cfgsTriangle (fun x => 3 - x) (by unfold cfgsTriangle; decide),
    _, _, rfl, rfl, rfl, ?_⟩
  intro h
  have := h 0 1 1 2 rfl rfl ⟨⟨1, [2]⟩, by simp [cfgsTriangle], rfl, by simp⟩
  omega

/-- C1 (amended): for a well-formed acyclic descriptor set and any executor, given enough
fuel, the constructor succeeds and `launch` returns, and the execution order it has built
has no repetition, contains every prerequisite of each of its jobs, and every job in it
that is a prerequisite of some job is positioned strictly before at least one job
requiring it. -/
theorem execOrder_before_a_dependent (cfgs : List Config) (hw : WellFormed cfgs)
    (ha : Acyclic cfgs) (exec : Nat → Option Int) :
    ∃ N, ∀ fuel, N ≤ fuel → ∃ d d',
      DAGJobs.construct fuel cfgs = .ok d ∧ DAGJobs.launch exec fuel d = .ok d' ∧
      execOrder fuel d = .ok d'.execOrderJobs ∧ d'.execOrderJobs.Nodup ∧
      (∀ J ∈ d'.execOrderJobs, ∀ P, Requires cfgs J P → P ∈ d'.execOrderJobs) ∧
      ∀ P ∈ d'.execOrderJobs, (∃ J, Requires cfgs J P) →
        ∃ K i j : Nat, Requires cfgs K P ∧ d'.execOrderJobs[i]? = some P ∧
          d'.execOrderJobs[j]? = some K ∧ i < j := by
  obtain ⟨N, hN⟩ := run_spec cfgs hw ha exec
  refine ⟨N, fun fuel hfuel => ?_⟩
  obtain ⟨d, heap, order, w', hcons, -, -, horder, hnd, hmem, hdisc, hlaunch, -⟩ :=
    hN fuel hfuel
  refine ⟨d, _, hcons, hlaunch, horder, hnd, ?_, ?_⟩
  · intro J _ P hJP
    exact (hmem P).mpr (requires_right_mem cfgs hw.2.2 J P hJP)
  · rintro P hP ⟨J, hJP⟩
    apply discovered_index cfgs _ order hdisc P hP
    intro hfront
    exact ((mem_frontJobsIds cfgs P).mp (List.mem_reverse.mp hfront)).2 J hJP

/-- C1 (amended) at the descriptors `0: [1, 2], 1: [2], 2: []`. -/
theorem execOrder_before_a_dependent_witness :
    ∃ N, ∀ fuel, N ≤ fuel → ∃ d d',
      DAGJobs.construct fuel cfgsTriangle = .ok d ∧
      DAGJobs.launch execABC fuel d = .ok d' ∧
      execOrder fuel d = .ok d'.execOrderJobs ∧ d'.execOrderJobs.Nodup ∧
      (∀ J ∈ d'.execOrderJobs, ∀ P, Requires cfgsTriangle J P → P ∈ d'.execOrderJobs) ∧
      ∀ P ∈ d'.execOrderJobs, (∃ J, Requires cfgsTriangle J P) →
        ∃ K i j : Nat, Requires cfgsTriangle K P ∧ d'.execOrderJobs[i]? = some P ∧
          d'.execOrderJobs[j]? = some K ∧ i < j :=
  execOrder_before_a_dependent cfgsTriangle
    (by unfold WellFormed NoDangling ids cfgsTriangle; decide)
    (acyclic_of_rank cfgsTriangle (fun x => 3 - x) (by unfold cfgsTriangle; decide)) execABC

/-! ## Results outside the range of `int` -/

/-- The aggregation law in `int` arithmetic determines the results: two assignments of
values to the jobs of an acyclic descriptor set that both satisfy it agree on every job. -/
theorem law_unique (cfgs : List Config) (hd : NoDangling cfgs) (ha : Acyclic cfgs)
    (exec : Nat → Option Int) (v u : Nat → Int)
    (hv : ∀ c ∈ cfgs, ∃ base, exec c.id = some base ∧
      v c.id = toInt32 (base + (c.jobReqIds.map v).sum))
    (hu : ∀ c ∈ cfgs, ∃ base, exec c.id = some base ∧
      u c.id = toInt32 (base + (c.jobReqIds.map u).sum)) :
    ∀ k ∈ ids cfgs, v k = u k := by
  intro k
  induction k using (prereq_wellFounded cfgs hd ha).induction with
  | _ k ih =>
    intro hk
    obtain ⟨c, hc, rfl⟩ := List.mem_map.mp hk
    obtain ⟨b, hb, hvc⟩ := hv c hc
    obtain ⟨b', hb', huc⟩ := hu c hc
    have hbb : b = b' := Option.some.inj (hb.symm.trans hb')
    subst hbb
    rw [hvc, huc]
    congr 3
    exact List.map_congr_left (fun p hp => ih p ⟨c, hc, rfl, hp⟩ (hd c hc p hp))

theorem wellFormed_cfgsFull : WellFormed cfgsFull := by
  unfold WellFormed NoDangling ids cfgsFull
  decide

theorem acyclic_cfgsFull : Acyclic cfgsFull :=
  acyclic_of_rank cfgsFull (fun x => 27 - x) (by unfold cfgsFull; decide)

/-- With the base value 99 for every job, the values `99 * 2 ^ (26 - k)` wrapped to `int`
satisfy the aggregation law of `cfgsFull`. -/
theorem law_cfgsFull : ∀ c ∈ cfgsFull, ∃ base, exec99 c.id = some base ∧
    (fun k => toInt32 (99 * 2 ^ (26 - k))) c.id =
      toInt32 (base + (c.jobReqIds.map (fun k => toInt32 (99 * 2 ^ (26 - k)))).sum) := by
  intro c hc
  refine ⟨99, rfl, ?_⟩
  revert c
  unfold cfgsFull
  decide

/-- The sum leaves the range of `int` also with base values below 100. For the 27 jobs of
`cfgsFull` and the base value 99 for every job the run ends without a crash report, job `k`
has the result that `99 * 2 ^ (26 - k)` wraps to, and from job `1` on this is no longer the
sum over the integers: job `1` has the result -973078528 where its base value plus the
results of its prerequisites is 3321888768, and job `0` has the result -1946157056. -/
theorem aggregation_overflows_with_base_99 :
    WellFormed cfgsFull ∧ Acyclic cfgsFull ∧
    ∃ N, ∀ fuel, N ≤ fuel → ∃ d d',
      DAGJobs.construct fuel cfgsFull = .ok d ∧ DAGJobs.launch exec99 fuel d = .ok d' ∧
      d'.world.crashed = [] ∧
      (∀ k, k < 27 → resultOf d'.world.heap k = some (toInt32 (99 * 2 ^ (26 - k)))) ∧
      resultOf d'.world.heap 2 = some 1660944384 ∧
      resultOf d'.world.heap 1 = some (-973078528) ∧
      99 + ((List.range' 2 25).map (fun p => (resultOf d'.world.heap p).getD 0)).sum =
        3321888768 ∧
      resultOf d'.world.heap 0 = some (-1946157056) := by
  refine ⟨wellFormed_cfgsFull, acyclic_cfgsFull, ?_⟩
  obtain ⟨N, hN⟩ := run_spec cfgsFull wellFormed_cfgsFull acyclic_cfgsFull exec99
  refine ⟨N, fun fuel hfuel => ?_⟩
  obtain ⟨d, heap, order, w', hcons, hd, -, -, -, hmem, -, hlaunch, hpost⟩ := hN fuel hfuel
  refine ⟨d, _, hcons, hlaunch, ?_⟩
  rcases hpost with ⟨hg, hext, hall⟩ | ⟨T, F, before, after, w0, -, -, -, -, -, -, hnone, -⟩
  · have hres : ∀ k ∈ ids cfgsFull, (resultOf w'.heap k).isSome :=
      fun k hk => hall k ((hmem k).mpr hk)
    have hv : ∀ c ∈ cfgsFull, ∃ base, exec99 c.id = some base ∧
        (fun k => (resultOf w'.heap k).getD 0) c.id =
          toInt32 (base + (c.jobReqIds.map (fun k => (resultOf w'.heap k).getD 0)).sum) := by
      intro c hc
      obtain ⟨r, hr⟩ := Option.isSome_iff_exists.mp (hres c.id (List.mem_map_of_mem _ hc))
      obtain ⟨base, hbase, -, hsum⟩ := hg.law c hc r hr
      refine ⟨base, hbase, ?_⟩
      simp only [hr, Option.getD_some]
      exact hsum
    have hval : ∀ k, k < 27 → resultOf w'.heap k = some (toInt32 (99 * 2 ^ (26 - k))) := by
      intro k hk
      have hkid : k ∈ ids cfgsFull := by
        unfold ids cfgsFull
        simp only [List.map_map, List.mem_map, List.mem_range]
        exact ⟨k, hk, rfl⟩
      have heq := law_unique cfgsFull wellFormed_cfgsFull.2.2 acyclic_cfgsFull exec99
        (fun k => (resultOf w'.heap k).getD 0) (fun k => toInt32 (99 * 2 ^ (26 - k)))
        hv law_cfgsFull k hkid
      obtain ⟨r, hr⟩ := Option.isSome_iff_exists.mp (hres k hkid)
      simp only [hr, Option.getD_some] at heq
      rw [hr, heq]
    refine ⟨?_, hval, hval 2 (by decide), hval 1 (by decide), ?_, hval 0 (by decide)⟩
    · show w'.crashed = []
      rw [hext.crashed, hd]
    · have hmap : (List.range' 2 25).map (fun p => (resultOf w'.heap p).getD 0) =
          (List.range' 2 25).map (fun p => toInt32 (99 * 2 ^ (26 - p))) := by
        apply List.map_congr_left
        intro p hp
        rw [hval p (by
          have := List.mem_range'_1.mp hp
          omega)]
        rfl
      show 99 + ((List.range' 2 25).map (fun p => (resultOf w'.heap p).getD 0)).sum = _
      rw [hmap]
      decide
  · simp [exec99] at hnone

/-! ## Further claims about cycle detection and the execution order -/

theorem isInCycleLoop_true (recurse : Nat → List Nat → Except Error (Bool × List Nat))
    (id : Nat) (reqs visited visited' : List Nat) (f : Nat) (hid : visited[id]? = some f)
    (hf : f ≠ 0) (h : isInCycleLoop recurse id reqs visited = .ok (true, visited')) :
    ∃ r ∈ reqs, visited[r]? = some 1 := by
  induction reqs with
  | nil => simp [isInCycleLoop] at h
  | cons r rest ih =>
    simp only [isInCycleLoop, hid, hf, if_false] at h
    cases hr : visited[r]? with
    | none => simp [hr] at h
    | some g =>
      rw [hr] at h
      by_cases hg : g = 1
      · exact ⟨r, List.mem_cons_self _ _, by rw [hr, hg]⟩
      · simp only [hg, if_false] at h
        obtain ⟨r', hr', h1⟩ := ih h
        exact ⟨r', List.mem_cons_of_mem _ hr', h1⟩

/-- With no entry of `visited` equal to 1, as in `checkOnCycles`, `isInCycle` returns
`true` only for a node that is in its own prerequisite list. -/
theorem isInCycle_true (adjacency : List (Nat × List Nat)) (fuel id : Nat)
    (visited visited' : List Nat) (hv : ∀ x ∈ visited, x ≠ 1)
    (h : isInCycle adjacency (fuel + 1) id visited = .ok (true, visited')) :
    id ∈ (mapFind adjacency id).getD [] := by
  simp only [isInCycle, vecSet] at h
  by_cases hid : id < visited.length
  · simp only [hid, if_true] at h
    have h1 : (visited.set id 1)[id]? = some 1 := by simp [List.getElem?_set, hid]
    cases hloop : isInCycleLoop (isInCycle adjacency fuel) id
        ((mapFind adjacency id).getD []) (visited.set id 1) with
    | error e => simp [hloop] at h
    | ok res =>
      obtain ⟨b, v2⟩ := res
      rw [hloop] at h
      simp only at h
      have hb : b = true := by
        by_cases hlen : id < v2.length
        · simp only [hlen, if_true, Except.ok.injEq, Prod.mk.injEq] at h
          exact h.1
        · simp [hlen] at h
      subst hb
      obtain ⟨r, hr, hr1⟩ := isInCycleLoop_true _ id _ _ v2 1 h1 (by decide) hloop
      by_cases hrid : r = id
      · exact hrid ▸ hr
      · rw [List.getElem?_set_ne (fun e => hrid e.symm)] at hr1
        exact absurd rfl (hv 1 (List.getElem?_mem hr1))
  · simp [hid] at h

/-- C20: for a descriptor list with unique ids below the number of descriptors and no
dangling prerequisite id, cyclic or not, `checkOnCycles` run after `ConstructGraph` returns
normally and so never reports a cycle; `isInCycle` never makes its recursive call (one unit
of fuel does as much as any larger amount), it returns `true` from a `visited` vector
without a 1 only for an id that is in its own prerequisite list, and no entry id is in its
own prerequisite list. -/
theorem checkOnCycles_never_reports (cfgs : List Config) (hw : WellFormed cfgs) :
    (∀ fuel, checkOnCycles (fuel + 1) (ConstructGraph cfgs) = .ok ()) ∧
    (∀ fuel id visited, isInCycle (ConstructGraph cfgs).adjacency (fuel + 1) id visited =
      isInCycle (ConstructGraph cfgs).adjacency 1 id visited) ∧
    (∀ fuel id visited visited', (∀ x ∈ visited, x ≠ 1) →
      isInCycle (ConstructGraph cfgs).adjacency (fuel + 1) id visited = .ok (true, visited') →
      id ∈ (mapFind (ConstructGraph cfgs).adjacency id).getD []) ∧
    ∀ f ∈ (ConstructGraph cfgs).frontJobsIds,
      f ∉ (mapFind (ConstructGraph cfgs).adjacency f).getD [] := by
  refine ⟨fun fuel => checkOnCycles_ok cfgs hw fuel,
    fun fuel id visited => isInCycle_fuel _ fuel id visited,
    fun fuel id visited visited' hv h => isInCycle_true _ fuel id visited visited' hv h, ?_⟩
  intro f hf hmem
  exact ((mem_frontJobsIds cfgs f).mp hf).2 f (requires_of_mem_adjacency cfgs f f hmem)

/-- C20 at the cyclic descriptors `0: [1], 1: [2], 2: [1]`. -/
theorem checkOnCycles_never_reports_witness :
    HasCycle cfgsTailCycle ∧ checkOnCycles 1 (ConstructGraph cfgsTailCycle) = .ok () :=
  ⟨⟨1, (Relation.TransGen.single ⟨⟨1, [2]⟩, by simp [cfgsTailCycle], rfl, by simp⟩).tail
      ⟨⟨2, [1]⟩, by simp [cfgsTailCycle], rfl, by simp⟩⟩,
    (checkOnCycles_never_reports cfgsTailCycle
      (by unfold WellFormed NoDangling ids cfgsTailCycle; decide)).1 0⟩

theorem length_eq_of_same_members (l1 l2 : List Nat) (h1 : l1.Nodup) (h2 : l2.Nodup)
    (h : ∀ x, x ∈ l1 ↔ x ∈ l2) : l1.length = l2.length :=
  ((List.perm_ext_iff_of_nodup h1 h2).mpr h).length_eq

/-- C11: for a well-formed acyclic descriptor set every descriptor id is reached along
prerequisite edges from some id in `frontJobsIds`, and, for any executor and given enough
fuel, the constructor succeeds, `launch` returns, and the execution order it has built
contains every job of the descriptor set exactly once and nothing else, so that its length
is `jobsCount`. -/
theorem execOrder_complete (cfgs : List Config) (hw : WellFormed cfgs) (ha : Acyclic cfgs)
    (exec : Nat → Option Int) :
    (∀ x ∈ ids cfgs, ∃ f ∈ (ConstructGraph cfgs).frontJobsIds,
      Relation.ReflTransGen (Requires cfgs) f x) ∧
    ∃ N, ∀ fuel, N ≤ fuel → ∃ d d',
      DAGJobs.construct fuel cfgs = .ok d ∧ DAGJobs.launch exec fuel d = .ok d' ∧
      execOrder fuel d = .ok d'.execOrderJobs ∧
      (∀ k ∈ ids cfgs, d'.execOrderJobs.count k = 1) ∧
      (∀ k ∈ d'.execOrderJobs, k ∈ ids cfgs) ∧
      d'.execOrderJobs.length = d'.jobsCount ∧ d'.jobsCount = cfgs.length := by
  refine ⟨fun x hx => reachable_from_front cfgs ha x hx, ?_⟩
  obtain ⟨N, hN⟩ := run_spec cfgs hw ha exec
  refine ⟨N, fun fuel hfuel => ?_⟩
  obtain ⟨d, heap, order, w', hcons, hd, -, horder, hnd, hmem, -, hlaunch, -⟩ := hN fuel hfuel
  refine ⟨d, _, hcons, hlaunch, horder, ?_, fun k hk => (hmem k).mp hk, ?_, ?_⟩
  · intro k hk
    exact List.count_eq_one_of_mem hnd ((hmem k).mpr hk)
  · show order.length = d.jobsCount
    rw [hd, length_eq_of_same_members order (ids cfgs) hnd hw.1 hmem]
    simp [ids]
  · show d.jobsCount = cfgs.length
    rw [hd]

/-- C11 at the descriptors `0: [1, 2, 3], 1: [2, 3], 2: [], 3: []`. -/
theorem execOrder_complete_witness :
    (∀ x ∈ ids cfgsFan, ∃ f ∈ (ConstructGraph cfgsFan).frontJobsIds,
      Relation.ReflTransGen (Requires cfgsFan) f x) ∧
    ∃ N, ∀ fuel, N ≤ fuel → ∃ d d',
      DAGJobs.construct fuel cfgsFan = .ok d ∧ DAGJobs.launch execABC fuel d = .ok d' ∧
      execOrder fuel d = .ok d'.execOrderJobs ∧
      (∀ k ∈ ids cfgsFan, d'.execOrderJobs.count k = 1) ∧
      (∀ k ∈ d'.execOrderJobs, k ∈ ids cfgsFan) ∧
      d'.execOrderJobs.length = d'.jobsCount ∧ d'.jobsCount = cfgsFan.length :=
  execOrder_complete cfgsFan (by unfold WellFormed NoDangling ids cfgsFan; decide)
    (acyclic_of_rank cfgsFan (fun x => 4 - x) (by unfold cfgsFan; decide)) execABC

/-- C15: the worked example. For the descriptors `A: [], B: [], C: [A, B]` with the ids
0, 1, 2, `ConstructGraph` gives `frontJobsIds = [C]`; the constructor succeeds and `launch`
builds the execution order `[A, B, C]`, and with the base values 2, 3 and 5 the run ends
without a crash report and with the results 2, 3 and 10. -/
theorem worked_example :
    (ConstructGraph cfgsABC).frontJobsIds = [2] ∧
      execABC 0 = some 2 ∧ execABC 1 = some 3 ∧ execABC 2 = some 5 ∧
      ∃ d d', DAGJobs.construct 4 cfgsABC = .ok d ∧ DAGJobs.launch execABC 4 d = .ok d' ∧
        d'.execOrderJobs = [0, 1, 2] ∧ d'.world.calls = [0, 1, 2] ∧ d'.world.crashed = [] ∧
        resultOf d'.world.heap 0 = some 2 ∧ resultOf d'.world.heap 1 = some 3 ∧
        resultOf d'.world.heap 2 = some 10 :=
  ⟨rfl, rfl, rfl, rfl, _, _, rfl, rfl, rfl, rfl, rfl, rfl, rfl, rfl⟩

/-! ## Further claims about failures -/

theorem good_calls_succeed (cfgs : List Config) (exec : Nat → Option Int) (w0 : World)
    (hg0 : Good cfgs exec w0) (k : Nat) (hk : k ∈ w0.calls) : (exec k).isSome := by
  have hkid := hg0.calls_sub k hk
  obtain ⟨r, hr⟩ := Option.isSome_iff_exists.mp ((hg0.calls_iff k hkid).mp hk)
  obtain ⟨c, hc, rfl⟩ := List.mem_map.mp hkid
  obtain ⟨base, hbase, -⟩ := hg0.law c hc r hr
  simp [hbase]

/-- The only failed executor invocation of a halted run is the last one. -/
theorem halted_failed_eq (cfgs : List Config) (exec : Nat → Option Int) (w0 : World)
    (hg0 : Good cfgs exec w0) (F F' : Nat) (hin : F ∈ w0.calls ++ [F'])
    (hexec : exec F = none) : F = F' := by
  rcases List.mem_append.mp hin with h | h
  · have := good_calls_succeed cfgs exec w0 hg0 F h
    rw [hexec] at this
    exact absurd this (by simp)
  · exact List.mem_singleton.mp h

/-- From a state of a run without a failure so far, a call of `Job::launch`, whether it
returns or throws, changes no cached result. -/
theorem launch_keeps_results (cfgs : List Config) (exec : Nat → Option Int) (x : Nat)
    (w : World) (res : World × Option Error) (h : LaunchPost cfgs exec [x] w res) (k : Nat)
    (r : Int) (hk : resultOf w.heap k = some r) : resultOf res.1.heap k = some r := by
  rcases h with ⟨-, -, hext, -⟩ | ⟨-, F, w0, -, hext0, -, -, -, -, heq⟩
  · exact hext.kept k r hk
  · rw [heq]
    exact hext0.kept k r hk

/-- C14: failure leaves the state consistent. For a well-formed acyclic descriptor set and
any executor, given enough fuel: a call of `Job::launch` in a state of a run without a
failure so far, whether it returns or throws, changes no cached result; the constructor
succeeds and `launch` returns; and if the executor failed for a job `F`, then after the run
`F` has no result, and the run ended in the heap `w0.heap` of the world `w0` in which the
executor was invoked for `F`: that world came from the initial one by successful launches,
the failing `launchJobProcess` call left its heap untouched, and so every result set before
the failure is the result after the run. -/
theorem failure_keeps_results (cfgs : List Config) (hw : WellFormed cfgs) (ha : Acyclic cfgs)
    (exec : Nat → Option Int) :
    ∃ N, ∀ fuel, N ≤ fuel →
      (∀ x ∈ ids cfgs, ∀ w, Good cfgs exec w → ∀ k r, resultOf w.heap k = some r →
        resultOf (Job.launch exec fuel x w).1.heap k = some r) ∧
      ∃ d d',
      DAGJobs.construct fuel cfgs = .ok d ∧ DAGJobs.launch exec fuel d = .ok d' ∧
      ∀ F ∈ d'.world.calls, exec F = none →
        resultOf d'.world.heap F = none ∧
        ∃ w0, Good cfgs exec w0 ∧ Ext cfgs d'.execOrderJobs d.world w0 ∧
          launchJobProcess exec F w0 = ({ w0 with calls := w0.calls ++ [F] }, some .jobFailed) ∧
          d'.world.calls = w0.calls ++ [F] ∧ d'.world.heap = w0.heap ∧
          ∀ k r, resultOf w0.heap k = some r → resultOf d'.world.heap k = some r := by
  obtain ⟨N, hN⟩ := run_spec cfgs hw ha exec
  obtain ⟨N2, hN2⟩ := exists_fuel_forall_mem
    (fun fuel x => ∀ w, Good cfgs exec w →
      LaunchPost cfgs exec [x] w (Job.launch exec fuel x w))
    (ids cfgs) (fun x hx => launch_spec cfgs hw ha exec x hx)
  refine ⟨max N N2, fun fuel hfuel => ⟨fun x hx w hg k r hk =>
    launch_keeps_results cfgs exec x w _ (hN2 fuel (le_trans (le_max_right _ _) hfuel) x hx w hg)
      k r hk, ?_⟩⟩
  obtain ⟨d, heap, order, w', hcons, hd, -, -, -, -, -, hlaunch, hpost⟩ :=
    hN fuel (le_trans (le_max_left _ _) hfuel)
  refine ⟨d, _, hcons, hlaunch, ?_⟩
  intro F hF hexec
  rcases hpost with ⟨hg, -, -⟩ | ⟨T, F', before, after, w0, hsplit, hg0, hext0, -, -,
      hFid, -, hnone, heq⟩
  · have := good_calls_succeed cfgs exec w' hg F hF
    rw [hexec] at this
    exact absurd this (by simp)
  · have hcalls : w'.calls = w0.calls ++ [F'] := by rw [heq]
    have hheap : w'.heap = w0.heap := by rw [heq]
    have hFF := halted_failed_eq cfgs exec w0 hg0 F F' (hcalls ▸ hF) hexec
    subst hFF
    obtain ⟨c, hc, hcid, r, hfind⟩ := wired_find cfgs w0.heap hg0.wired F hFid
    refine ⟨?_, w0, hg0, ?_, ?_, hcalls, hheap, fun k r hk => ?_⟩
    · show resultOf w'.heap F = none
      rw [hheap]
      exact hnone
    · apply ext_reroot cfgs (before ++ [T]) order d.world w0 hext0
      intro x hx
      refine ⟨x, ?_, Relation.ReflTransGen.refl⟩
      rw [hsplit]
      rcases List.mem_append.mp hx with h | h
      · exact List.mem_append.mpr (Or.inl h)
      · rw [List.mem_singleton] at h
        exact List.mem_append.mpr (Or.inr (h ▸ List.mem_cons_self _ _))
    · simp [launchJobProcess, hfind, hexec]
    · show resultOf w'.heap k = some r
      rw [hheap]
      exact hk

/-- C14 at the descriptors `0: [1, 2, 3], 1: [2, 3], 2: [], 3: []` with an executor that
fails for job `2`. -/
theorem failure_keeps_results_witness :
    ∃ N, ∀ fuel, N ≤ fuel →
      (∀ x ∈ ids cfgsFan, ∀ w, Good cfgsFan execFailsAtTwo w → ∀ k r,
        resultOf w.heap k = some r →
        resultOf (Job.launch execFailsAtTwo fuel x w).1.heap k = some r) ∧
      ∃ d d',
      DAGJobs.construct fuel cfgsFan = .ok d ∧
      DAGJobs.launch execFailsAtTwo fuel d = .ok d' ∧
      ∀ F ∈ d'.world.calls, execFailsAtTwo F = none →
        resultOf d'.world.heap F = none ∧
        ∃ w0, Good cfgsFan execFailsAtTwo w0 ∧ Ext cfgsFan d'.execOrderJobs d.world w0 ∧
          launchJobProcess execFailsAtTwo F w0 =
            ({ w0 with calls := w0.calls ++ [F] }, some .jobFailed) ∧
          d'.world.calls = w0.calls ++ [F] ∧ d'.world.heap = w0.heap ∧
          ∀ k r, resultOf w0.heap k = some r → resultOf d'.world.heap k = some r :=
  failure_keeps_results cfgsFan (by unfold WellFormed NoDangling ids cfgsFan; decide)
    (acyclic_of_rank cfgsFan (fun x => 4 - x) (by unfold cfgsFan; decide)) execFailsAtTwo

/-! ## The `Job` objects created by `frontJobs` -/

theorem mem_keys_mapPut {V : Type} (k : Nat) (v : V) (m : List (Nat × V)) (x : Nat) :
    x ∈ keys (mapPut k v m) ↔ x = k ∨ x ∈ keys m := by
  induction m with
  | nil => simp [mapPut, keys]
  | cons hd tl ih =>
    obtain ⟨a, b⟩ := hd
    simp only [mapPut]
    by_cases h1 : k < a
    · simp [h1, keys]
    · by_cases h2 : k = a
      · subst h2
        simp [keys]
      · simp only [h1, h2, if_false]
        have ih' : x ∈ List.map (fun p => p.1) (mapPut k v tl) ↔
            x = k ∨ x ∈ List.map (fun p => p.1) tl := ih
        simp only [keys, List.map_cons, List.mem_cons, ih']
        tauto

theorem sorted_keys_mapPut {V : Type} (k : Nat) (v : V) (m : List (Nat × V))
    (hs : (keys m).Sorted (· < ·)) : (keys (mapPut k v m)).Sorted (· < ·) := by
  induction m with
  | nil => simp [mapPut, keys]
  | cons hd tl ih =>
    obtain ⟨a, b⟩ := hd
    have hs' : (a :: keys tl).Sorted (· < ·) := hs
    rw [List.sorted_cons] at hs'
    obtain ⟨hlt, htl⟩ := hs'
    simp only [mapPut]
    by_cases h1 : k < a
    · simp only [h1, if_true]
      show (k :: a :: keys tl).Sorted (· < ·)
      rw [List.sorted_cons]
      refine ⟨fun y hy => ?_, hs⟩
      rcases List.mem_cons.mp hy with rfl | hy
      · exact h1
      · exact lt_trans h1 (hlt y hy)
    · by_cases h2 : k = a
      · subst h2
        simp only [lt_irrefl, if_false, if_true]
        exact hs
      · simp only [h1, h2, if_false]
        show (a :: keys (mapPut k v tl)).Sorted (· < ·)
        rw [List.sorted_cons]
        refine ⟨fun y hy => ?_, ih htl⟩
        rcases (mem_keys_mapPut k v tl y).mp hy with rfl | hy
        · omega
        · exact hlt y hy

theorem keys_mapPut_of_find {V : Type} (k : Nat) (v v' : V) (m : List (Nat × V))
    (hs : (keys m).Sorted (· < ·)) (hfind : mapFind m k = some v') :
    keys (mapPut k v m) = keys m := by
  induction m with
  | nil => simp [mapFind] at hfind
  | cons hd tl ih =>
    obtain ⟨a, b⟩ := hd
    have hs' : (a :: keys tl).Sorted (· < ·) := hs
    rw [List.sorted_cons] at hs'
    obtain ⟨hlt, htl⟩ := hs'
    by_cases hak : a = k
    · subst hak
      simp [mapPut, keys]
    · simp only [mapFind, hak, if_false] at hfind
      have hmem : k ∈ keys tl :=
        (mapFind_isSome_iff_mem_keys tl k).mp (by simp [hfind])
      have hlt' := hlt k hmem
      have h1 : ¬ k < a := by omega
      have h2 : ¬ k = a := fun e => hak e.symm
      simp only [mapPut, h1, h2, if_false]
      show a :: keys (mapPut k v tl) = a :: keys tl
      rw [ih htl hfind]

theorem sorted_keys_mapInsert {V : Type} (k : Nat) (v : V) (m : List (Nat × V))
    (hs : (keys m).Sorted (· < ·)) : (keys (mapInsert k v m)).Sorted (· < ·) := by
  unfold mapInsert
  split
  · exact hs
  · exact sorted_keys_mapPut k v m hs

theorem sorted_keys_buildAdjacency (cfgs : List Config) :
    (keys (buildAdjacency cfgs)).Sorted (· < ·) := by
  unfold buildAdjacency
  have : ∀ (m : List (Nat × List Nat)), (keys m).Sorted (· < ·) →
      (keys (cfgs.foldl (fun m c => mapInsert c.id c.jobReqIds m) m)).Sorted (· < ·) := by
    induction cfgs with
    | nil => exact fun m hm => hm
    | cons c rest ih =>
      intro m hm
      exact ih _ (sorted_keys_mapInsert c.id c.jobReqIds m hm)
  exact this [] (by simp [keys])

theorem sorted_keys_makeJobs (adj : List (Nat × List Nat)) :
    (keys (makeJobs adj)).Sorted (· < ·) := by
  unfold makeJobs
  have : ∀ (m : Heap), (keys m).Sorted (· < ·) →
      (keys (adj.foldl (fun jobs jobPair =>
        mapInsert jobPair.1 ⟨jobPair.1, none, []⟩ jobs) m)).Sorted (· < ·) := by
    induction adj with
    | nil => exact fun m hm => hm
    | cons p rest ih =>
      intro m hm
      exact ih _ (sorted_keys_mapInsert p.1 _ m hm)
  exact this [] (by simp [keys])

theorem mem_keys_makeJobs (adj : List (Nat × List Nat)) (k : Nat) :
    k ∈ keys (makeJobs adj) ↔ (mapFind adj k).isSome := by
  rw [keys, ← mapFind_isSome_iff_mem_keys, mapFind_makeJobs]
  by_cases h : (mapFind adj k).isSome <;> simp [h]

theorem createReqJobsLoop_keys (recurse : Nat → Heap → Except Error (List Nat × Heap))
    (hrec : ∀ p heap res heap', (keys heap).Sorted (· < ·) →
      recurse p heap = .ok (res, heap') → keys heap' = keys heap)
    (l acc : List Nat) (heap : Heap) (res : List Nat) (heap' : Heap)
    (hs : (keys heap).Sorted (· < ·))
    (h : createReqJobsLoop recurse l acc heap = .ok (res, heap')) :
    keys heap' = keys heap := by
  induction l generalizing acc heap with
  | nil =>
    simp only [createReqJobsLoop, Except.ok.injEq, Prod.mk.injEq] at h
    rw [h.2]
  | cons p rest ih =>
    simp only [createReqJobsLoop] at h
    cases hcall : recurse p heap with
    | error e => simp [hcall] at h
    | ok r =>
      obtain ⟨reqs, jobs1⟩ := r
      rw [hcall] at h
      simp only at h
      have hk1 := hrec p heap reqs jobs1 hs hcall
      cases hfind : mapFind jobs1 p with
      | none => simp [hfind] at h
      | some job =>
        rw [hfind] at h
        simp only at h
        have hs1 : (keys jobs1).Sorted (· < ·) := hk1 ▸ hs
        have hk2 := keys_mapPut_of_find p { job with jobsReq := reqs } job jobs1 hs1 hfind
        have := ih (p :: acc) _ (hk2 ▸ hs1) h
        rw [this, hk2, hk1]

theorem createReqJobs_keys (adjacency : List (Nat × List Nat)) (fuel : Nat) :
    ∀ p heap res heap', (keys heap).Sorted (· < ·) →
      createReqJobs adjacency fuel p heap = .ok (res, heap') → keys heap' = keys heap := by
  induction fuel with
  | zero =>
    intro p heap res heap' _ h
    simp [createReqJobs] at h
  | succ fuel ih =>
    intro p heap res heap' hs h
    simp only [createReqJobs] at h
    exact createReqJobsLoop_keys _ ih _ [] heap res heap' hs h

/-- C17: for an acyclic descriptor set with unique ids and no dangling prerequisite id
(nothing is assumed about the size of the ids) `frontJobs` returns, given enough fuel. It
returns the entry jobs, has created exactly one `Job` per key of `adjacency` and none
besides, and leaves every job, in particular every job reached from an entry id, without a
result and with a `jobsReq` list that is the reverse of its adjacency list: the same ids
with the same multiplicities. -/
theorem frontJobs_materializes (cfgs : List Config) (hn : (ids cfgs).Nodup)
    (hd : NoDangling cfgs) (ha : Acyclic cfgs) :
    ∃ N, ∀ fuel, N ≤ fuel → ∃ heap,
      (ConstructGraph cfgs).frontJobs fuel =
        .ok ((ConstructGraph cfgs).frontJobsIds.reverse, heap) ∧
      (keys heap).Nodup ∧
      (∀ k, k ∈ keys heap ↔ (mapFind (ConstructGraph cfgs).adjacency k).isSome) ∧
      ∀ k reqs, mapFind (ConstructGraph cfgs).adjacency k = some reqs →
        ∃ job, mapFind heap k = some job ∧ job.id = k ∧ job.result = none ∧
          job.jobsReq = reqs.reverse ∧ job.jobsReq.Perm reqs := by
  obtain ⟨N, hN⟩ := frontJobs_spec cfgs hn hd ha
  refine ⟨N, fun fuel hfuel => ?_⟩
  obtain ⟨heap, hfront, hmat⟩ := hN fuel hfuel
  have hkeys : keys heap = keys (makeJobs (buildAdjacency cfgs)) := by
    have h : frontJobsLoop (buildAdjacency cfgs) fuel (ConstructGraph cfgs).frontJobsIds []
        (makeJobs (buildAdjacency cfgs)) =
        .ok ((ConstructGraph cfgs).frontJobsIds.reverse, heap) := hfront
    rw [frontJobsLoop_eq] at h
    exact createReqJobsLoop_keys _ (createReqJobs_keys _ fuel) _ [] _ _ heap
      (sorted_keys_makeJobs _) h
  refine ⟨heap, hfront, ?_, ?_, ?_⟩
  · rw [hkeys]
    exact (sorted_keys_makeJobs _).nodup
  · intro k
    rw [hkeys]
    exact mem_keys_makeJobs _ k
  · intro k reqs hk
    have hk' : mapFind (buildAdjacency cfgs) k = some reqs := hk
    have hkid : k ∈ ids cfgs := by
      by_contra hne
      rw [mapFind_adjacency_of_not_mem cfgs k hne] at hk'
      exact absurd hk' (by simp)
    obtain ⟨c, hc, rfl⟩ := List.mem_map.mp hkid
    rw [mapFind_adjacency_of_mem cfgs hn c hc] at hk'
    have hreq : c.jobReqIds = reqs := Option.some.inj hk'
    subst hreq
    exact ⟨_, hmat c hc, rfl, rfl, rfl, List.reverse_perm _⟩

/-- C17 at the descriptors `5: [7, 7, 9], 7: [9], 9: []`, whose ids are all larger than
the number of descriptors and where `5` lists `7` twice: the conditions hold, the theorem
applies, and with fuel 3 `frontJobs` returns the entry job `5` and the three jobs, `5`
holding the jobs `9, 7, 7`. -/
theorem frontJobs_materializes_witness :
    ((ids cfgsSparse).Nodup ∧ NoDangling cfgsSparse ∧ Acyclic cfgsSparse) ∧
    (∃ N, ∀ fuel, N ≤ fuel → ∃ heap,
      (ConstructGraph cfgsSparse).frontJobs fuel =
        .ok ((ConstructGraph cfgsSparse).frontJobsIds.reverse, heap) ∧
      (keys heap).Nodup ∧
      (∀ k, k ∈ keys heap ↔ (mapFind (ConstructGraph cfgsSparse).adjacency k).isSome) ∧
      ∀ k reqs, mapFind (ConstructGraph cfgsSparse).adjacency k = some reqs →
        ∃ job, mapFind heap k = some job ∧ job.id = k ∧ job.result = none ∧
          job.jobsReq = reqs.reverse ∧ job.jobsReq.Perm reqs) ∧
    (ConstructGraph cfgsSparse).frontJobs 3 =
      .ok ([5], [(5, ⟨5, none, [9, 7, 7]⟩), (7, ⟨7, none, [9]⟩), (9, ⟨9, none, []⟩)]) :=
  ⟨⟨by unfold ids cfgsSparse; decide, by unfold NoDangling ids cfgsSparse; decide,
      acyclic_of_rank cfgsSparse (fun x => 10 - x) (by unfold cfgsSparse; decide)⟩,
    frontJobs_materializes cfgsSparse (by unfold ids cfgsSparse; decide)
      (by unfold NoDangling ids cfgsSparse; decide)
      (acyclic_of_rank cfgsSparse (fun x => 10 - x) (by unfold cfgsSparse; decide)),
    rfl⟩

/-! ## `Job::launch` from any state of the result caches -/

theorem launchJobProcess_safe (cfgs : List Config) (hw : WellFormed cfgs)
    (exec : Nat → Option Int) (w : World) (hwired : Wired cfgs w.heap) (c : Config)
    (hc : c ∈ cfgs) (hreqs : ∀ p ∈ c.jobReqIds, (resultOf w.heap p).isSome) :
    SafePost cfgs [c.id] w (launchJobProcess exec c.id w) := by
  obtain ⟨r, hfind⟩ := hwired c hc
  cases hexec : exec c.id with
  | none =>
    have hrun : launchJobProcess exec c.id w =
        ({ w with calls := w.calls ++ [c.id] }, some .jobFailed) := by
      simp [launchJobProcess, hfind, hexec]
    rw [hrun]
    exact ⟨hwired, fun k hk => hk, Or.inr rfl⟩
  | some base =>
    have hadd := addReqResults_spec cfgs w.heap hwired c.jobReqIds.reverse
      (fun p hp => hw.2.2 c hc p (List.mem_reverse.mp hp))
      (fun p hp => hreqs p (List.mem_reverse.mp hp)) base
    have hrun : launchJobProcess exec c.id w =
        ({ heap := mapPut c.id ⟨c.id, some (toInt32 (base +
              ((c.jobReqIds.reverse).map (fun p => (resultOf w.heap p).getD 0)).sum)),
              c.jobReqIds.reverse⟩ w.heap,
           calls := w.calls ++ [c.id], crashed := w.crashed }, none) := by
      simp [launchJobProcess, hfind, hexec, hadd]
    rw [hrun]
    refine ⟨?_, ?_, Or.inl ⟨rfl, ?_⟩⟩
    · intro c' hc'
      by_cases hid : c.id = c'.id
      · have hcc := config_unique cfgs hw.1 c c' hc hc' hid
        subst hcc
        exact ⟨some (toInt32 (base +
          ((c.jobReqIds.reverse).map (fun p => (resultOf w.heap p).getD 0)).sum)),
          by simp only [mapFind_mapPut, if_true]⟩
      · obtain ⟨r', hr'⟩ := hwired c' hc'
        exact ⟨r', by simp only [mapFind_mapPut, hid, if_false, hr']⟩
    · intro k hk
      simp only [resultOf_mapPut]
      by_cases hid : c.id = k
      · simp [hid]
      · simp only [hid, if_false]
        exact hk
    · intro x hx
      rw [List.mem_singleton] at hx
      subst hx
      simp [resultOf_mapPut]

theorem launchParentJobsLoop_safe (cfgs : List Config)
    (call : Nat → World → World × Option Error) (l : List Nat)
    (hcall : ∀ p ∈ l, ∀ w, Wired cfgs w.heap → SafePost cfgs [p] w (call p w))
    (w : World) (hwired : Wired cfgs w.heap) :
    SafePost cfgs l w (launchParentJobsLoop call l w) := by
  induction l generalizing w with
  | nil =>
    exact ⟨hwired, fun k hk => hk, Or.inl ⟨rfl, fun x hx => absurd hx (List.not_mem_nil x)⟩⟩
  | cons p rest ih =>
    have hpost := hcall p (List.mem_cons_self _ _) w hwired
    rcases hres : call p w with ⟨w1, e⟩
    rw [hres] at hpost
    obtain ⟨hw1, hmono1, hcase⟩ := hpost
    rcases hcase with ⟨he, hall1⟩ | he
    · simp only at he hall1 hw1 hmono1
      subst he
      have hloop : launchParentJobsLoop call (p :: rest) w =
          launchParentJobsLoop call rest w1 := by
        simp only [launchParentJobsLoop, hres]
      rw [hloop]
      obtain ⟨hw2, hmono2, hcase2⟩ :=
        ih (fun q hq => hcall q (List.mem_cons_of_mem _ hq)) w1 hw1
      refine ⟨hw2, fun k hk => hmono2 k (hmono1 k hk), ?_⟩
      rcases hcase2 with ⟨he2, hall2⟩ | he2
      · refine Or.inl ⟨he2, fun x hx => ?_⟩
        rcases List.mem_cons.mp hx with rfl | hx
        · exact hmono2 x (hall1 x (List.mem_singleton.mpr rfl))
        · exact hall2 x hx
      · exact Or.inr he2
    · simp only at he hw1 hmono1
      subst he
      have hloop : launchParentJobsLoop call (p :: rest) w = (w1, some .jobFailed) := by
        simp only [launchParentJobsLoop, hres]
      rw [hloop]
      exact ⟨hw1, hmono1, Or.inr rfl⟩

/-- In a well-formed acyclic descriptor set `Job::launch` on job `x`, called in any state
of the result caches, returns or throws `std::runtime_error`, given enough fuel; it never
dereferences a null pointer. -/
theorem launch_safe (cfgs : List Config) (hw : WellFormed cfgs) (ha : Acyclic cfgs)
    (exec : Nat → Option Int) (x : Nat) (hx : x ∈ ids cfgs) :
    ∃ N, ∀ fuel, N ≤ fuel → ∀ w, Wired cfgs w.heap →
      SafePost cfgs [x] w (Job.launch exec fuel x w) := by
  induction x using (prereq_wellFounded cfgs hw.2.2 ha).induction with
  | _ x ih =>
    obtain ⟨c, hc, rfl⟩ := List.mem_map.mp hx
    obtain ⟨N, hN⟩ := exists_fuel_forall_mem
      (fun fuel q => ∀ w, Wired cfgs w.heap → SafePost cfgs [q] w (Job.launch exec fuel q w))
      c.jobReqIds (fun q hq => ih q ⟨c, hc, rfl, hq⟩ (hw.2.2 c hc q hq))
    refine ⟨N + 1, fun fuel hfuel w hwired => ?_⟩
    obtain ⟨fuel', rfl⟩ : ∃ fuel', fuel = fuel' + 1 := ⟨fuel - 1, by omega⟩
    obtain ⟨r, hfind⟩ := hwired c hc
    have hresult : resultOf w.heap c.id = r := by simp [resultOf, hfind]
    cases r with
    | some v =>
      have : Job.launch exec (fuel' + 1) c.id w = (w, none) := by
        simp [Job.launch, hfind]
      rw [this]
      refine ⟨hwired, fun k hk => hk, Or.inl ⟨rfl, fun y hy => ?_⟩⟩
      rw [List.mem_singleton] at hy
      subst hy
      simp [hresult]
    | none =>
      have hrev : ∀ p ∈ c.jobReqIds.reverse, p ∈ ids cfgs :=
        fun p hp => hw.2.2 c hc p (List.mem_reverse.mp hp)
      rcases thereAreReqResults_spec cfgs w.heap hwired c.jobReqIds.reverse hrev with
        ⟨htrue, hall⟩ | hfalse
      · have : Job.launch exec (fuel' + 1) c.id w = launchJobProcess exec c.id w := by
          simp [Job.launch, hfind, htrue]
        rw [this]
        exact launchJobProcess_safe cfgs hw exec w hwired c hc
          (fun p hp => hall p (List.mem_reverse.mpr hp))
      · have hparents := launchParentJobsLoop_safe cfgs (Job.launch exec fuel')
          c.jobReqIds.reverse
          (fun p hp => hN fuel' (by omega) p (List.mem_reverse.mp hp)) w hwired
        rcases hres : launchParentJobsLoop (Job.launch exec fuel') c.jobReqIds.reverse w with
          ⟨w1, e⟩
        rw [hres] at hparents
        obtain ⟨hw1, hmono1, hcase⟩ := hparents
        rcases hcase with ⟨he, hall1⟩ | he
        · simp only at he hall1 hw1 hmono1
          subst he
          have : Job.launch exec (fuel' + 1) c.id w = launchJobProcess exec c.id w1 := by
            simp [Job.launch, hfind, hfalse, hres]
          rw [this]
          obtain ⟨hw2, hmono2, hcase2⟩ := launchJobProcess_safe cfgs hw exec w1 hw1 c hc
            (fun p hp => hall1 p (List.mem_reverse.mpr hp))
          exact ⟨hw2, fun k hk => hmono2 k (hmono1 k hk), hcase2⟩
        · simp only at he hw1 hmono1
          subst he
          have : Job.launch exec (fuel' + 1) c.id w = (w1, some .jobFailed) := by
            simp [Job.launch, hfind, hfalse, hres]
          rw [this]
          exact ⟨hw1, hmono1, Or.inr rfl⟩

theorem launchJobsInOrder_safe (cfgs : List Config) (exec : Nat → Option Int) (fuel : Nat)
    (hlaunch : ∀ x ∈ ids cfgs, ∀ w, Wired cfgs w.heap →
      SafePost cfgs [x] w (Job.launch exec fuel x w))
    (order : List Nat) (horder : ∀ x ∈ order, x ∈ ids cfgs) (w : World)
    (hwired : Wired cfgs w.heap) :
    ∃ w', launchJobsInOrder exec fuel order w = .ok w' ∧ Wired cfgs w'.heap ∧
      ∀ k, (resultOf w.heap k).isSome → (resultOf w'.heap k).isSome := by
  induction order generalizing w with
  | nil => exact ⟨w, rfl, hwired, fun k hk => hk⟩
  | cons T rest ih =>
    have hT := horder T (List.mem_cons_self _ _)
    have hpost := hlaunch T hT w hwired
    rcases hres : Job.launch exec fuel T w with ⟨w1, e⟩
    rw [hres] at hpost
    obtain ⟨hw1, hmono1, hcase⟩ := hpost
    simp only at hw1 hmono1 hcase
    rcases hcase with ⟨he, -⟩ | he
    · subst he
      obtain ⟨w', hrun, hw', hmono'⟩ :=
        ih (fun x hx => horder x (List.mem_cons_of_mem _ hx)) w1 hw1
      exact ⟨w', by simp only [launchJobsInOrder, hres, hrun], hw',
        fun k hk => hmono' k (hmono1 k hk)⟩
    · subst he
      obtain ⟨c, hc, hcid, r, hfind⟩ := wired_find cfgs w1.heap hw1 T hT
      refine ⟨{ w1 with crashed := w1.crashed ++ [T] }, ?_, hw1, hmono1⟩
      simp [launchJobsInOrder, hres, hfind]

/-- C16: in a well-formed acyclic job graph, given enough fuel, a call of `Job::launch` on
any job `x`, in any state of the result caches, either returns with the result of `x`
present or ends with the executor's `std::runtime_error`; it never ends in the null
dereference that the loop `result += jobReq->result->value` makes when it reads an absent
result (a fault of a nested call is passed on unchanged), and the jobs stay linked and no
present result becomes absent. -/
theorem launch_never_reads_absent_result (cfgs : List Config) (hw : WellFormed cfgs)
    (ha : Acyclic cfgs) (exec : Nat → Option Int) (x : Nat) (hx : x ∈ ids cfgs) :
    ∃ N, ∀ fuel, N ≤ fuel → ∀ w, Wired cfgs w.heap →
      Wired cfgs (Job.launch exec fuel x w).1.heap ∧
      (∀ k, (resultOf w.heap k).isSome →
        (resultOf (Job.launch exec fuel x w).1.heap k).isSome) ∧
      (((Job.launch exec fuel x w).2 = none ∧
          (resultOf (Job.launch exec fuel x w).1.heap x).isSome) ∨
        (Job.launch exec fuel x w).2 = some .jobFailed) := by
  obtain ⟨N, hN⟩ := launch_safe cfgs hw ha exec x hx
  refine ⟨N, fun fuel hfuel w hwired => ?_⟩
  obtain ⟨h1, h2, h3⟩ := hN fuel hfuel w hwired
  refine ⟨h1, h2, ?_⟩
  rcases h3 with ⟨he, hall⟩ | he
  · exact Or.inl ⟨he, hall x (List.mem_singleton.mpr rfl)⟩
  · exact Or.inr he

/-- C16 at job `1` of the descriptors `0: [1, 2, 3], 1: [2, 3], 2: [], 3: []`, launched
out of order in a state where only job `3` has a result, with an executor that fails for
job `2`. -/
theorem launch_never_reads_absent_result_witness :
    ∃ N, ∀ fuel, N ≤ fuel → Wired cfgsFan worldFanPartial.heap ∧
      Wired cfgsFan (Job.launch execFailsAtTwo fuel 1 worldFanPartial).1.heap ∧
      (∀ k, (resultOf worldFanPartial.heap k).isSome →
        (resultOf (Job.launch execFailsAtTwo fuel 1 worldFanPartial).1.heap k).isSome) ∧
      (((Job.launch execFailsAtTwo fuel 1 worldFanPartial).2 = none ∧
          (resultOf (Job.launch execFailsAtTwo fuel 1 worldFanPartial).1.heap 1).isSome) ∨
        (Job.launch execFailsAtTwo fuel 1 worldFanPartial).2 = some .jobFailed) := by
  have hwired : Wired cfgsFan worldFanPartial.heap := by
    intro c hc
    simp only [cfgsFan, List.mem_cons, List.mem_singleton, List.not_mem_nil, or_false] at hc
    rcases hc with rfl | rfl | rfl | rfl
    · exact ⟨none, rfl⟩
    · exact ⟨none, rfl⟩
    · exact ⟨none, rfl⟩
    · exact ⟨some 7, rfl⟩
  obtain ⟨N, hN⟩ := launch_never_reads_absent_result cfgsFan
    (by unfold WellFormed NoDangling ids cfgsFan; decide)
    (acyclic_of_rank cfgsFan (fun x => 4 - x) (by unfold cfgsFan; decide)) execFailsAtTwo 1
    (by unfold ids cfgsFan; decide)
  exact ⟨N, fun fuel hfuel => ⟨hwired, hN fuel hfuel worldFanPartial hwired⟩⟩

/-! ## A second call of `DAGJobs::launch` -/

theorem launch_of_result (exec : Nat → Option Int) (fuel self : Nat) (w : World) (job : Job)
    (hjob : mapFind w.heap self = some job) (hres : job.result.isSome) :
    Job.launch exec (fuel + 1) self w = (w, none) := by
  simp [Job.launch, hjob, hres]

theorem launchJobsInOrder_noop (exec : Nat → Option Int) (fuel : Nat) (order : List Nat)
    (w : World)
    (h : ∀ x ∈ order, ∃ job, mapFind w.heap x = some job ∧ job.result.isSome) :
    launchJobsInOrder exec (fuel + 1) order w = .ok w := by
  induction order with
  | nil => rfl
  | cons T rest ih =>
    obtain ⟨job, hjob, hres⟩ := h T (List.mem_cons_self _ _)
    simp only [launchJobsInOrder, launch_of_result exec fuel T w job hjob hres]
    exact ih (fun x hx => h x (List.mem_cons_of_mem _ hx))

theorem runPost_wired (cfgs : List Config) (exec : Nat → Option Int) (order : List Nat)
    (w w' : World) (h : RunPost cfgs exec order w w') : Wired cfgs w'.heap := by
  rcases h with ⟨hg, -, -⟩ | ⟨T, F, before, after, w0, -, hg0, -, -, -, -, -, -, heq⟩
  · exact hg.wired
  · rw [heq]
    exact hg0.wired

/-- C19: for a well-formed acyclic descriptor set and any executor, given enough fuel, the
constructor succeeds and two calls of `launch` in a row return; the second call leaves
`execOrderJobs` equal to the order the first call computed, and when the first run ended
without a crash report the second call leaves the whole object and world as they were: no
result changes and the executor is invoked for no job. -/
theorem second_launch_reuses_order (cfgs : List Config) (hw : WellFormed cfgs)
    (ha : Acyclic cfgs) (exec : Nat → Option Int) :
    ∃ N, ∀ fuel, N ≤ fuel → ∃ d d' d'',
      DAGJobs.construct fuel cfgs = .ok d ∧ DAGJobs.launch exec fuel d = .ok d' ∧
      execOrder fuel d = .ok d'.execOrderJobs ∧
      DAGJobs.launch exec fuel d' = .ok d'' ∧ d''.execOrderJobs = d'.execOrderJobs ∧
      (d'.world.crashed = [] → d'' = d') := by
  obtain ⟨N1, hN1⟩ := run_spec cfgs hw ha exec
  obtain ⟨N2, hN2⟩ := exists_fuel_forall_mem
    (fun fuel x => ∀ w, Wired cfgs w.heap → SafePost cfgs [x] w (Job.launch exec fuel x w))
    (ids cfgs) (fun x hx => launch_safe cfgs hw ha exec x hx)
  refine ⟨max (max N1 N2) 1, fun fuel hfuel => ?_⟩
  have hf1 : N1 ≤ fuel := le_trans (le_trans (le_max_left _ _) (le_max_left _ _)) hfuel
  have hf2 : N2 ≤ fuel := le_trans (le_trans (le_max_right _ _) (le_max_left _ _)) hfuel
  have hf3 : 1 ≤ fuel := le_trans (le_max_right _ _) hfuel
  obtain ⟨d, heap, order, w', hcons, hd, -, horder, -, hmem, -, hlaunch, hpost⟩ := hN1 fuel hf1
  have hwired' : Wired cfgs w'.heap := runPost_wired cfgs exec order d.world w' hpost
  obtain ⟨w'', hrun2, -, -⟩ := launchJobsInOrder_safe cfgs exec fuel (hN2 fuel hf2) order
    (fun x hx => (hmem x).mp hx) w' hwired'
  have hexec2 : execOrder fuel { d with execOrderJobs := order, world := w' } = .ok order := by
    cases horder' : order with
    | nil =>
      have hfront : (ConstructGraph cfgs).frontJobsIds = [] := by
        rw [List.eq_nil_iff_forall_not_mem]
        intro f hf
        have := (hmem f).mpr ((mem_frontJobsIds cfgs f).mp hf).1
        rw [horder'] at this
        exact absurd this (List.not_mem_nil f)
      rw [hd]
      simp [execOrder, hfront, bfs, bfsMark, bfsLoop]
    | cons a l => simp [execOrder]
  have hlaunch2 : DAGJobs.launch exec fuel { d with execOrderJobs := order, world := w' } =
      .ok { d with execOrderJobs := order, world := w'' } := by
    simp only [DAGJobs.launch, hexec2, hrun2]
  refine ⟨d, _, _, hcons, hlaunch, horder, hlaunch2, rfl, ?_⟩
  intro hcr
  have hcr' : w'.crashed = [] := hcr
  rcases hpost with ⟨hg, -, hall⟩ | ⟨T, F, before, after, w0, -, -, -, -, -, -, -, -, heq⟩
  · obtain ⟨fuel', rfl⟩ : ∃ fuel', fuel = fuel' + 1 := ⟨fuel - 1, by omega⟩
    have hnoop := launchJobsInOrder_noop exec fuel' order w' (fun x hx => by
      obtain ⟨c, hc, hcid, r, hfind⟩ := wired_find cfgs w'.heap hg.wired x ((hmem x).mp hx)
      have hsome := hall x hx
      have hr : resultOf w'.heap x = r := by simp [resultOf, hfind]
      rw [hr] at hsome
      exact ⟨_, hfind, hsome⟩)
    rw [hnoop] at hrun2
    have : w' = w'' := Except.ok.inj hrun2
    rw [← this]
  · rw [heq] at hcr'
    simp at hcr'

/-- C19 at the descriptors `0: [1, 2, 3], 1: [2, 3], 2: [], 3: []`. -/
theorem second_launch_reuses_order_witness :
    ∃ N, ∀ fuel, N ≤ fuel → ∃ d d' d'',
      DAGJobs.construct fuel cfgsFan = .ok d ∧ DAGJobs.launch execABC fuel d = .ok d' ∧
      execOrder fuel d = .ok d'.execOrderJobs ∧
      DAGJobs.launch execABC fuel d' = .ok d'' ∧ d''.execOrderJobs = d'.execOrderJobs ∧
      (d'.world.crashed = [] → d'' = d') :=
  second_launch_reuses_order cfgsFan (by unfold WellFormed NoDangling ids cfgsFan; decide)
    (acyclic_of_rank cfgsFan (fun x => 4 - x) (by unfold cfgsFan; decide)) execABC

/-! ## The traversal with any functor -/

/-- A traversal with any functor visits the jobs in the order in which the traversal with
`PushJobToExecOrder` dequeues them. -/
theorem bfsLoop_functor {σ : Type} (functor : Nat → σ → Except Error σ) (heap : Heap)
    (fuel : Nat) (visited que acc order : List Nat)
    (h : bfsLoop PushJobToExecOrder heap fuel visited que acc = .ok order) :
    ∃ seq, order = seq.reverse ++ acc ∧
      ∀ s, bfsLoop functor heap fuel visited que s = runFunctor functor seq s := by
  induction fuel generalizing visited que acc with
  | zero =>
    cases que with
    | nil =>
      simp only [bfsLoop, Except.ok.injEq] at h
      exact ⟨[], by simp [h], fun s => by simp [bfsLoop, runFunctor]⟩
    | cons J que0 => simp [bfsLoop] at h
  | succ fuel ih =>
    cases que with
    | nil =>
      simp only [bfsLoop, Except.ok.injEq] at h
      exact ⟨[], by simp [h], fun s => by simp [bfsLoop, runFunctor]⟩
    | cons J que0 =>
      simp only [bfsLoop, PushJobToExecOrder] at h
      cases hfind : mapFind heap J with
      | none => simp [hfind] at h
      | some j =>
        rw [hfind] at h
        simp only at h
        cases hexp : bfsExpand heap j.jobsReq visited que0 with
        | error e => simp [hexp] at h
        | ok r =>
          obtain ⟨v1, q1⟩ := r
          rw [hexp] at h
          simp only at h
          obtain ⟨seq, hseq, hrun⟩ := ih v1 q1 (J :: acc) h
          refine ⟨J :: seq, by simp [hseq], fun s => ?_⟩
          simp only [bfsLoop, runFunctor, hfind, hexp]
          cases functor J s with
          | error e => rfl
          | ok s1 => exact hrun s1

theorem bfsMark_congr (cfgs : List Config) (h1 h2 : Heap) (hw1 : Wired cfgs h1)
    (hw2 : Wired cfgs h2) (l : List Nat) (hl : ∀ x ∈ l, x ∈ ids cfgs) (v : List Nat) :
    bfsMark h1 l v = bfsMark h2 l v := by
  induction l generalizing v with
  | nil => rfl
  | cons a rest ih =>
    obtain ⟨c1, -, -, r1, hf1⟩ := wired_find cfgs h1 hw1 a (hl a (List.mem_cons_self _ _))
    obtain ⟨c2, -, -, r2, hf2⟩ := wired_find cfgs h2 hw2 a (hl a (List.mem_cons_self _ _))
    simp only [bfsMark, hf1, hf2]
    cases vecSet v a 1 with
    | none => rfl
    | some v1 => exact ih (fun x hx => hl x (List.mem_cons_of_mem _ hx)) v1

theorem bfsExpand_congr (cfgs : List Config) (h1 h2 : Heap) (hw1 : Wired cfgs h1)
    (hw2 : Wired cfgs h2) (reqs : List Nat) (hreqs : ∀ x ∈ reqs, x ∈ ids cfgs)
    (v que : List Nat) : bfsExpand h1 reqs v que = bfsExpand h2 reqs v que := by
  induction reqs generalizing v que with
  | nil => rfl
  | cons a rest ih =>
    obtain ⟨c1, -, -, r1, hf1⟩ := wired_find cfgs h1 hw1 a (hreqs a (List.mem_cons_self _ _))
    obtain ⟨c2, -, -, r2, hf2⟩ := wired_find cfgs h2 hw2 a (hreqs a (List.mem_cons_self _ _))
    have hrest := fun x hx => hreqs x (List.mem_cons_of_mem _ hx)
    simp only [bfsExpand, hf1, hf2]
    cases v[a]? with
    | none => rfl
    | some f =>
      by_cases hf : f = 0
      · simp only [hf, if_true]
        cases vecSet v a 1 with
        | none => rfl
        | some v1 => exact ih hrest v1 _
      · simp only [hf, if_false]
        exact ih hrest v que

theorem bfsExpand_que_sub (heap : Heap) (reqs v que v1 q1 : List Nat)
    (h : bfsExpand heap reqs v que = .ok (v1, q1)) : ∀ x ∈ q1, x ∈ que ∨ x ∈ reqs := by
  induction reqs generalizing v que with
  | nil =>
    simp only [bfsExpand, Except.ok.injEq, Prod.mk.injEq] at h
    intro x hx
    exact Or.inl (h.2 ▸ hx)
  | cons a rest ih =>
    simp only [bfsExpand] at h
    cases hfind : mapFind heap a with
    | none => simp [hfind] at h
    | some j =>
      rw [hfind] at h
      simp only at h
      cases hv : v[j.id]? with
      | none => simp [hv] at h
      | some f =>
        rw [hv] at h
        simp only at h
        by_cases hf : f = 0
        · simp only [hf, if_true] at h
          cases hset : vecSet v j.id 1 with
          | none => simp [hset] at h
          | some v' =>
            rw [hset] at h
            simp only at h
            intro x hx
            rcases ih v' (que ++ [a]) h x hx with hq | hr
            · rcases List.mem_append.mp hq with hq | hq
              · exact Or.inl hq
              · exact Or.inr (List.mem_singleton.mp hq ▸ List.mem_cons_self _ _)
            · exact Or.inr (List.mem_cons_of_mem _ hr)
        · simp only [hf, if_false] at h
          intro x hx
          rcases ih v que h x hx with hq | hr
          · exact Or.inl hq
          · exact Or.inr (List.mem_cons_of_mem _ hr)

/-- The traversal reads only the ids and the `jobsReq` lists of the jobs: it runs alike on
two heaps in which the jobs are linked. -/
theorem bfsLoop_congr (cfgs : List Config) (hw : WellFormed cfgs) (h1 h2 : Heap)
    (hw1 : Wired cfgs h1) (hw2 : Wired cfgs h2) (fuel : Nat) (v que acc : List Nat)
    (hque : ∀ x ∈ que, x ∈ ids cfgs) :
    bfsLoop PushJobToExecOrder h1 fuel v que acc =
      bfsLoop PushJobToExecOrder h2 fuel v que acc := by
  induction fuel generalizing v que acc with
  | zero =>
    cases que with
    | nil => simp [bfsLoop]
    | cons J que0 => simp [bfsLoop]
  | succ fuel ih =>
    cases que with
    | nil => simp [bfsLoop]
    | cons J que0 =>
      have hJ := hque J (List.mem_cons_self _ _)
      obtain ⟨c1, hc1, hid1, r1, hf1⟩ := wired_find cfgs h1 hw1 J hJ
      obtain ⟨c2, hc2, hid2, r2, hf2⟩ := wired_find cfgs h2 hw2 J hJ
      have hcc : c1 = c2 := config_unique cfgs hw.1 c1 c2 hc1 hc2 (hid1.trans hid2.symm)
      subst hcc
      have hreqs : ∀ x ∈ c1.jobReqIds.reverse, x ∈ ids cfgs :=
        fun x hx => hw.2.2 c1 hc1 x (List.mem_reverse.mp hx)
      simp only [bfsLoop, PushJobToExecOrder, hf1, hf2]
      rw [bfsExpand_congr cfgs h1 h2 hw1 hw2 c1.jobReqIds.reverse hreqs v que0]
      cases hexp : bfsExpand h2 c1.jobReqIds.reverse v que0 with
      | error e => rfl
      | ok r =>
        obtain ⟨v1, q1⟩ := r
        simp only
        apply ih
        intro x hx
        rcases bfsExpand_que_sub h2 _ v que0 v1 q1 hexp x hx with h | h
        · exact hque x (List.mem_cons_of_mem _ h)
        · exact hreqs x h

theorem runFunctor_PrintJob (heap : Heap) (seq : List Nat)
    (hseq : ∀ k ∈ seq, ∃ job v, mapFind heap k = some job ∧ job.id = k ∧ job.result = some v)
    (out : List (Nat × Int)) :
    runFunctor (PrintJob heap) seq out =
      .ok (out ++ seq.map (fun k => (k, (resultOf heap k).getD 0))) := by
  induction seq generalizing out with
  | nil => simp [runFunctor]
  | cons k rest ih =>
    obtain ⟨job, v, hfind, hid, hres⟩ := hseq k (List.mem_cons_self _ _)
    have hr : resultOf heap k = some v := by simp [resultOf, hfind, hres]
    simp only [runFunctor, PrintJob, hfind, hres, hid]
    rw [ih (fun q hq => hseq q (List.mem_cons_of_mem _ hq))]
    simp [hr]

/-- On linked jobs `printJobsResults` visits the jobs in the reverse of the order that the
derivation of the execution order yields. -/
theorem printJobsResults_eq (cfgs : List Config) (hw : WellFormed cfgs) (heap heap' : Heap)
    (hwired : Wired cfgs heap) (hwired' : Wired cfgs heap') (fuel : Nat)
    (front order : List Nat) (hfront : ∀ x ∈ front, x ∈ ids cfgs) (n : Nat)
    (calls crashed : List Nat) (execOrderJobs : List Nat)
    (horder : bfs PushJobToExecOrder heap fuel front n [] = .ok order) :
    DAGJobs.printJobsResults fuel
        { execOrderJobs := execOrderJobs, frontJobs := front, jobsCount := n,
          world := { heap := heap', calls := calls, crashed := crashed } } =
      runFunctor (PrintJob heap') order.reverse [] := by
  simp only [DAGJobs.printJobsResults, bfs]
  simp only [bfs] at horder
  rw [bfsMark_congr cfgs heap heap' hwired hwired' front hfront] at horder
  cases hmark : bfsMark heap' front (List.replicate n 0) with
  | error e => simp [hmark] at horder
  | ok visited =>
    rw [hmark] at horder
    simp only at horder ⊢
    rw [bfsLoop_congr cfgs hw heap heap' hwired hwired' fuel visited front [] hfront] at horder
    obtain ⟨seq, hseq, hrun⟩ :=
      bfsLoop_functor (PrintJob heap') heap' fuel visited front [] order horder
    rw [hrun []]
    have : order.reverse = seq := by simp [hseq]
    rw [this]

theorem runFunctor_PrintJob_fault (heap : Heap) (seq : List Nat)
    (hseq : ∀ k ∈ seq, ∃ job, mapFind heap k = some job)
    (hnone : ∃ k ∈ seq, resultOf heap k = none) (out : List (Nat × Int)) :
    runFunctor (PrintJob heap) seq out = .error .nullDeref := by
  induction seq generalizing out with
  | nil =>
    obtain ⟨k, hk, -⟩ := hnone
    exact absurd hk (List.not_mem_nil k)
  | cons k rest ih =>
    obtain ⟨job, hfind⟩ := hseq k (List.mem_cons_self _ _)
    cases hres : job.result with
    | none => simp [runFunctor, PrintJob, hfind, hres]
    | some v =>
      simp only [runFunctor, PrintJob, hfind, hres]
      apply ih (fun q hq => hseq q (List.mem_cons_of_mem _ hq))
      obtain ⟨q, hq, hqnone⟩ := hnone
      rcases List.mem_cons.mp hq with rfl | hq
      · simp [resultOf, hfind, hres] at hqnone
      · exact ⟨q, hq, hqnone⟩

/-- For a well-formed acyclic descriptor set and any executor, given enough fuel: whenever
the executor failed for a job during `launch`, the following `printJobsResults`
dereferences a null result. -/
theorem printJobsResults_after_failure (cfgs : List Config) (hw : WellFormed cfgs)
    (ha : Acyclic cfgs) (exec : Nat → Option Int) :
    ∃ N, ∀ fuel, N ≤ fuel → ∃ d d',
      DAGJobs.construct fuel cfgs = .ok d ∧ DAGJobs.launch exec fuel d = .ok d' ∧
      ∀ F ∈ d'.world.calls, exec F = none →
        DAGJobs.printJobsResults fuel d' = .error .nullDeref := by
  obtain ⟨N, hN⟩ := run_spec cfgs hw ha exec
  refine ⟨N, fun fuel hfuel => ?_⟩
  obtain ⟨d, heap, order, w', hcons, hd, hmat, horder, hnd, hmem, -, hlaunch, hpost⟩ :=
    hN fuel hfuel
  refine ⟨d, _, hcons, hlaunch, fun F hF hexec => ?_⟩
  rcases hpost with ⟨hg, -, -⟩ | ⟨T, F', before, after, w0, -, hg0, -, -, -, hFid, -, hnone,
      heq⟩
  · have := good_calls_succeed cfgs exec w' hg F hF
    rw [hexec] at this
    exact absurd this (by simp)
  · have hheap : w'.heap = w0.heap := by rw [heq]
    have hbfs : bfs PushJobToExecOrder heap fuel (ConstructGraph cfgs).frontJobsIds.reverse
        cfgs.length [] = .ok order := by
      rw [hd] at horder
      simpa [execOrder] using horder
    have hfront : ∀ x ∈ (ConstructGraph cfgs).frontJobsIds.reverse, x ∈ ids cfgs :=
      fun x hx => ((mem_frontJobsIds cfgs x).mp (List.mem_reverse.mp hx)).1
    have hwired' : Wired cfgs w'.heap := hheap ▸ hg0.wired
    have hprint := printJobsResults_eq cfgs hw heap w'.heap (materialized_wired cfgs heap hmat)
      hwired' fuel _ order hfront cfgs.length w'.calls w'.crashed order hbfs
    have hdeq : ({ d with execOrderJobs := order, world := w' } : DAGJobs) =
        { execOrderJobs := order, frontJobs := (ConstructGraph cfgs).frontJobsIds.reverse,
          jobsCount := cfgs.length,
          world := { heap := w'.heap, calls := w'.calls, crashed := w'.crashed } } := by
      rw [hd]
    rw [hdeq, hprint]
    apply runFunctor_PrintJob_fault
    · intro k hk
      obtain ⟨c, hc, hcid, r, hfind⟩ :=
        wired_find cfgs w'.heap hwired' k ((hmem k).mp (List.mem_reverse.mp hk))
      exact ⟨_, hfind⟩
    · exact ⟨F', List.mem_reverse.mpr ((hmem F').mpr hFid), hheap ▸ hnone⟩

/-! ## Claims about `printJobsResults` -/

/-- C13 (evaluation of the code at the failing input): for the well-formed acyclic
descriptors `A: [], B: [], C: [A, B]` and an executor that fails for `C`, the run is halted
with the results of `A` and `B` set and the result of `C` absent; `printJobsResults` then
starts at the entry job `C` and dereferences its null result. -/
theorem printJobsResults_after_halt :
    WellFormed cfgsABC ∧ Acyclic cfgsABC ∧
      ∃ d d', DAGJobs.construct 4 cfgsABC = .ok d ∧
        DAGJobs.launch execFailsAtTwo 4 d = .ok d' ∧ d'.world.crashed = [2] ∧
        resultOf d'.world.heap 0 = some 1 ∧ resultOf d'.world.heap 1 = some 2 ∧
        resultOf d'.world.heap 2 = none ∧
        ∀ fuel, DAGJobs.printJobsResults (fuel + 1) d' = .error .nullDeref :=
  ⟨wellFormed_cfgsABC, acyclic_cfgsABC, _, _, rfl, rfl, rfl, rfl, rfl, rfl, fun _ => rfl⟩

/-- C18: for a well-formed acyclic descriptor set and an executor that never fails, given
enough fuel, the constructor succeeds, `launch` returns and `printJobsResults` returns
after it; it has printed one line per job of the descriptor set, each with the job's id and
its cached result, in the reverse of the execution order that `launch` used, which is the
breadth-first order from the entry jobs. -/
theorem printJobsResults_after_run (cfgs : List Config) (hw : WellFormed cfgs)
    (ha : Acyclic cfgs) (exec : Nat → Option Int) (hexec : ∀ k, (exec k).isSome) :
    ∃ N, ∀ fuel, N ≤ fuel → ∃ d d' out,
      DAGJobs.construct fuel cfgs = .ok d ∧ DAGJobs.launch exec fuel d = .ok d' ∧
      DAGJobs.printJobsResults fuel d' = .ok out ∧
      out.map (fun p => p.1) = d'.execOrderJobs.reverse ∧
      (∀ p ∈ out, resultOf d'.world.heap p.1 = some p.2) ∧
      (∀ k ∈ ids cfgs, (out.map (fun p => p.1)).count k = 1) ∧
      ∀ p ∈ out, p.1 ∈ ids cfgs := by
  obtain ⟨N, hN⟩ := run_spec cfgs hw ha exec
  refine ⟨N, fun fuel hfuel => ?_⟩
  obtain ⟨d, heap, order, w', hcons, hd, hmat, horder, hnd, hmem, -, hlaunch, hpost⟩ :=
    hN fuel hfuel
  rcases hpost with ⟨hg, -, hall⟩ | ⟨T, F, before, after, w0, -, -, -, -, -, -, hnone, -⟩
  · have hbfs : bfs PushJobToExecOrder heap fuel (ConstructGraph cfgs).frontJobsIds.reverse
        cfgs.length [] = .ok order := by
      rw [hd] at horder
      simpa [execOrder] using horder
    have hfront : ∀ x ∈ (ConstructGraph cfgs).frontJobsIds.reverse, x ∈ ids cfgs :=
      fun x hx => ((mem_frontJobsIds cfgs x).mp (List.mem_reverse.mp hx)).1
    have hprint := printJobsResults_eq cfgs hw heap w'.heap (materialized_wired cfgs heap hmat)
      hg.wired fuel _ order hfront cfgs.length w'.calls w'.crashed order hbfs
    have hseq : ∀ k ∈ order.reverse, ∃ job v, mapFind w'.heap k = some job ∧ job.id = k ∧
        job.result = some v := by
      intro k hk
      have hkid := (hmem k).mp (List.mem_reverse.mp hk)
      obtain ⟨c, hc, hcid, r, hfind⟩ := wired_find cfgs w'.heap hg.wired k hkid
      have hsome := hall k (List.mem_reverse.mp hk)
      have hr : resultOf w'.heap k = r := by simp [resultOf, hfind]
      rw [hr] at hsome
      obtain ⟨v, rfl⟩ := Option.isSome_iff_exists.mp hsome
      exact ⟨_, v, hfind, rfl, rfl⟩
    rw [runFunctor_PrintJob w'.heap order.reverse hseq []] at hprint
    have hdeq : ({ d with execOrderJobs := order, world := w' } : DAGJobs) =
        { execOrderJobs := order, frontJobs := (ConstructGraph cfgs).frontJobsIds.reverse,
          jobsCount := cfgs.length,
          world := { heap := w'.heap, calls := w'.calls, crashed := w'.crashed } } := by
      rw [hd]
    refine ⟨d, _, _, hcons, hlaunch, hdeq ▸ hprint, ?_, ?_, ?_, ?_⟩
    · simp [List.map_map, Function.comp_def]
    · intro p hp
      simp only [List.nil_append, List.mem_map] at hp
      obtain ⟨k, hk, rfl⟩ := hp
      obtain ⟨job, v, hfind, hid, hres⟩ := hseq k hk
      simp [resultOf, hfind, hres]
    · intro k hk
      have : (List.map (fun p => p.1)
          ([] ++ List.map (fun k => (k, (resultOf w'.heap k).getD 0)) order.reverse)) =
          order.reverse := by
        simp [List.map_map, Function.comp_def]
      rw [this]
      exact List.count_eq_one_of_mem (List.nodup_reverse.mpr hnd)
        (List.mem_reverse.mpr ((hmem k).mpr hk))
    · intro p hp
      simp only [List.nil_append, List.mem_map] at hp
      obtain ⟨k, hk, rfl⟩ := hp
      exact (hmem k).mp (List.mem_reverse.mp hk)
  · have := hexec F
    rw [hnone] at this
    exact absurd this (by simp)

/-- C18 at the descriptors `0: [1, 2, 3], 1: [2, 3], 2: [], 3: []`. -/
theorem printJobsResults_after_run_witness :
    ∃ N, ∀ fuel, N ≤ fuel → ∃ d d' out,
      DAGJobs.construct fuel cfgsFan = .ok d ∧ DAGJobs.launch execABC fuel d = .ok d' ∧
      DAGJobs.printJobsResults fuel d' = .ok out ∧
      out.map (fun p => p.1) = d'.execOrderJobs.reverse ∧
      (∀ p ∈ out, resultOf d'.world.heap p.1 = some p.2) ∧
      (∀ k ∈ ids cfgsFan, (out.map (fun p => p.1)).count k = 1) ∧
      ∀ p ∈ out, p.1 ∈ ids cfgsFan :=
  printJobsResults_after_run cfgsFan (by unfold WellFormed NoDangling ids cfgsFan; decide)
    (acyclic_of_rank cfgsFan (fun x => 4 - x) (by unfold cfgsFan; decide)) execABC
    (fun k => by unfold execABC; split_ifs <;> rfl)

end cust
